import Mathlib

/-!
# Aircraft scanning, cache and catalog of `src/GUI/QtLauncher.cxx`

A shallow embedding of the aircraft scan thread (`AircraftScanThread`), its
persisted cache (`readCache`, `writeCache`, `AircraftItem::toDataStream`,
`AircraftItem::fromDataStream`) and of the list model that consumes the scan
results (`AircraftItemModel`).

Objects created with `new AircraftItem` live in an explicit heap: a pointer
is a natural number, the heap maps pointers to records, and the containers of
the source (`QList<AircraftItem*>`, `QMap<QString, AircraftItem*>`) hold
pointers, so that sharing of one object between the cache, the pending buffer
and a principal's variant list is kept as it is in the source. The heap
records the pointers passed to `delete`; a use of an object after its deletion,
which is undefined in C++, sets the flag `undefined` of the heap.
-/

namespace QtLauncher

/-! ## Qt value types -/

/-- A `QString`. The null string and the empty string compare equal in Qt and
are both the empty string here; where the source asks `isNull()` (the
`variantOf` member) the member is an `Option`. -/
abbrev QString := String

/-- A `QDateTime`: `none` is the invalid (default constructed) date-time, `some t`
a valid instant. -/
abbrev QDateTime := Option Int

/-- The UTF-16 code units of a character, which are the `QChar`s that hold it in
a `QString`: the code point itself in the Basic Multilingual Plane, else a high
and a low surrogate. -/
def utf16Units (c : Char) : List Nat :=
  if c.toNat < 0x10000 then [c.toNat]
  else [0xD800 + (c.toNat - 0x10000) / 0x400, 0xDC00 + (c.toNat - 0x10000) % 0x400]

/-- The UTF-16 code units of a `QString`. -/
def utf16 (s : QString) : List Nat := (s.data.map utf16Units).flatten

/-- Lexicographic comparison of two sequences of code units. -/
def unitsLess : List Nat → List Nat → Bool
  | _, [] => false
  | [], _ :: _ => true
  | a :: as, b :: bs => if a < b then true else if b < a then false else unitsLess as bs

/-- The order of `QString` keys in a `QMap` (`QString::operator<`), lexicographic on
the UTF-16 code units. -/
def qLess (a b : QString) : Bool := unitsLess (utf16 a) (utf16 b)

/-- `QFileInfo(path).fileName()`: the part of the path after the last slash. -/
def fileName (path : QString) : QString :=
  String.mk (path.data.reverse.takeWhile (fun c => c != '/')).reverse

/-- `QString::truncate(position)`; a negative position truncates at zero. -/
def truncate (s : QString) (position : Int) : QString :=
  String.mk (s.data.take position.toNat)

/-! ## QMap -/

/-- A `QMap<QString, V>`: the entries in ascending key order. -/
structure QMap (V : Type) where
  entries : List (QString × V)
deriving DecidableEq

namespace QMap

variable {V : Type}

/-- The empty map. -/
def empty : QMap V := ⟨[]⟩

/-- Insertion into the entry list: the value of an existing key is replaced. -/
def insertEntries (k : QString) (v : V) : List (QString × V) → List (QString × V)
  | [] => [(k, v)]
  | (k1, v1) :: rest =>
    if qLess k k1 then (k, v) :: (k1, v1) :: rest
    else if qLess k1 k then (k1, v1) :: insertEntries k v rest
    else (k, v) :: rest

/-- `QMap::insert(key, value)`, also `map[key] = value`. -/
def insert (m : QMap V) (k : QString) (v : V) : QMap V := ⟨insertEntries k v m.entries⟩

/-- Lookup in the entry list. -/
def lookupEntries (k : QString) : List (QString × V) → Option V
  | [] => none
  | (k1, v1) :: rest => if k1 = k then some v1 else lookupEntries k rest

/-- The value stored under a key, if any. -/
def lookup (m : QMap V) (k : QString) : Option V := lookupEntries k m.entries

/-- `QMap::contains(key)`. -/
def contains (m : QMap V) (k : QString) : Bool := (m.lookup k).isSome

/-- `QMap::value(key)`: a default constructed value when the key is absent. -/
def value [Inhabited V] (m : QMap V) (k : QString) : V := (m.lookup k).getD default

/-- `QMap::values()`: the values in ascending key order. -/
def values (m : QMap V) : List V := m.entries.map Prod.snd

/-- `QMap::keys()`. -/
def keys (m : QMap V) : List QString := m.entries.map Prod.fst

/-- `QMap::count()`. -/
def count (m : QMap V) : Nat := m.entries.length

/-- The keys of the entry list are strictly ascending, as in every `QMap`. -/
def Sorted (m : QMap V) : Prop := m.entries.Pairwise (fun a b => qLess a.1 b.1 = true)

end QMap

/-! ## AircraftItem -/

/-- The data members of `struct AircraftItem` (the thumbnail apart). A pointer
`AircraftItem*` is a natural number, the index of the object in the heap;
`variants` is the `QList<AircraftItem*>` of the source. -/
structure AircraftItem where
  path : QString
  description : QString
  authors : QString
  ratings : Int × Int × Int × Int
  variantOf : Option QString
  pathModTime : QDateTime
  variants : List Nat
deriving DecidableEq

/-- `AircraftItem::AircraftItem()`: all ratings zero, everything else empty. -/
instance : Inhabited AircraftItem :=
  ⟨{ path := "", description := "", authors := "", ratings := (0, 0, 0, 0),
     variantOf := none, pathModTime := none, variants := [] }⟩

/-- `AircraftItem::baseName()`: the file name without its last eight
characters (the `-set.xml` suffix). -/
def AircraftItem.baseName (item : AircraftItem) : QString :=
  let fn := fileName item.path
  truncate fn ((fn.length : Int) - 8)

/-- The members that `toDataStream` writes and `fromDataStream` reads: all but
the variant list. -/
def AircraftItem.stored (item : AircraftItem) :
    QString × QString × QString × Option QString × (Int × Int × Int × Int) × QDateTime :=
  (item.path, item.description, item.authors, item.variantOf, item.ratings, item.pathModTime)

/-! ## QDataStream -/

/-- One field of a serialised `QByteArray`. `QDataStream` is Qt library code;
its byte format is abstracted to a sequence of typed fields: a 32 bit word
(`quint32` and `int` alike), a string (`none` is the null `QString`) and a
date-time. -/
inductive Datum where
  | word (w : Nat)
  | str (s : Option QString)
  | dateTime (t : QDateTime)
deriving DecidableEq

/-- A `QByteArray` holding serialised fields; also the unread rest of a
`QDataStream` over it. -/
abbrev QByteArray := List Datum

/-- An `int` as the 32 bit word written by `operator<<`. -/
def wordOfInt (i : Int) : Nat := (i % 4294967296).toNat

/-- The `int` read by `operator>>` from a 32 bit word (two's complement). -/
def intOfWord (w : Nat) : Int :=
  if w % 4294967296 < 2147483648 then ((w % 4294967296 : Nat) : Int)
  else ((w % 4294967296 : Nat) : Int) - 4294967296

/-- `ds >> (quint32)`: a missing or ill-typed field reads as zero and leaves
nothing to read. -/
def readWord : QByteArray → Nat × QByteArray
  | Datum.word w :: rest => (w % 4294967296, rest)
  | _ => (0, [])

/-- `ds >> (QString)` into a member that only distinguishes its text. -/
def readString : QByteArray → QString × QByteArray
  | Datum.str s :: rest => (s.getD "", rest)
  | _ => ("", [])

/-- `ds >> (QString)` into a member whose null state is observed. -/
def readNullableString : QByteArray → Option QString × QByteArray
  | Datum.str s :: rest => (s, rest)
  | _ => (none, [])

/-- `ds >> (int)`. -/
def readInt (ds : QByteArray) : Int × QByteArray :=
  ((intOfWord (readWord ds).1), (readWord ds).2)

/-- `ds >> (QDateTime)`. -/
def readDateTime : QByteArray → QDateTime × QByteArray
  | Datum.dateTime t :: rest => (t, rest)
  | _ => (none, [])

/-- `AircraftItem::toDataStream`: the fields appended to the stream. -/
def AircraftItem.toDataStream (item : AircraftItem) : QByteArray :=
  [Datum.str (some item.path), Datum.str (some item.description),
   Datum.str (some item.authors), Datum.str item.variantOf,
   Datum.word (wordOfInt item.ratings.1), Datum.word (wordOfInt item.ratings.2.1),
   Datum.word (wordOfInt item.ratings.2.2.1), Datum.word (wordOfInt item.ratings.2.2.2),
   Datum.dateTime item.pathModTime]

/-- `AircraftItem::fromDataStream` on a default constructed item: the item
read and the rest of the stream. -/
def AircraftItem.fromDataStream (ds : QByteArray) : AircraftItem × QByteArray :=
  let (path, ds) := readString ds
  let (description, ds) := readString ds
  let (authors, ds) := readString ds
  let (variantOf, ds) := readNullableString ds
  let (r0, ds) := readInt ds
  let (r1, ds) := readInt ds
  let (r2, ds) := readInt ds
  let (r3, ds) := readInt ds
  let (pathModTime, ds) := readDateTime ds
  ({ path := path, description := description, authors := authors,
     ratings := (r0, r1, r2, r3), variantOf := variantOf,
     pathModTime := pathModTime, variants := [] }, ds)

/-- The cache format version, `CACHE_VERSION`. -/
def CACHE_VERSION : Int := 2

/-! ## The heap of `AircraftItem` objects -/

/-- The objects created with `new AircraftItem`: the record behind every
pointer, the next pointer to hand out, the pointers passed to `delete`, and
whether the program has used an object after its deletion. Such a use has
undefined behaviour in C++: the functions below set `undefined` and go on with
the record that was stored last, and what they compute from then on says
nothing about the program. The behaviour of the program is that of the runs
that leave the flag `false`. -/
structure Heap where
  cell : Nat → AircraftItem
  next : Nat
  deleted : List Nat
  undefined : Bool

/-- The heap before any allocation; pointer `0` is the null pointer. -/
def Heap.init : Heap :=
  { cell := fun _ => default, next := 1, deleted := [], undefined := false }

/-- The record a pointer points to. -/
def Heap.get (h : Heap) (p : Nat) : AircraftItem := h.cell p

/-- The expression `new AircraftItem` followed by its initialisation: the new
pointer and the heap that holds the item behind it. -/
def Heap.alloc (h : Heap) (item : AircraftItem) : Nat × Heap :=
  (h.next, { h with cell := Function.update h.cell h.next item, next := h.next + 1 })

/-- A use of the object behind a pointer (`item->member`): undefined when the
object has been deleted. The source keeps pointers to deleted objects in
`m_nextCache` and `m_cachedItems`. -/
def Heap.access (h : Heap) (p : Nat) : Heap :=
  { h with undefined := h.undefined || decide (p ∈ h.deleted) }

/-- The statement `delete item`: the pointer is recorded as deleted; deleting an
object a second time is undefined. -/
def Heap.delete (h : Heap) (p : Nat) : Heap :=
  { h with deleted := p :: h.deleted, undefined := h.undefined || decide (p ∈ h.deleted) }

/-- The statement `principal->variants.append(item)`, a use of the principal. -/
def Heap.appendVariant (h : Heap) (principal item : Nat) : Heap :=
  let p := h.cell principal
  { h with
    cell := Function.update h.cell principal { p with variants := p.variants ++ [item] },
    undefined := h.undefined || decide (principal ∈ h.deleted) }

/-! ## The environment of a scan -/

/-- The `rating` node of a property tree: `getIntValue` of its four children,
zero for an absent child. -/
structure RatingNode where
  FDM : Int
  systems : Int
  cockpit : Int
  model : Int
deriving DecidableEq

/-- The `sim` node of a property tree: `getStringValue` of `description` and
`author` (empty when absent), the `rating` child if there is one, and the
string value of `variant-of` if the node has that child. -/
structure SimNode where
  description : QString
  author : QString
  rating : Option RatingNode
  variantOf : Option QString
deriving DecidableEq

/-- The root `SGPropertyNode` filled by `readProperties`: its `sim` child, if
any. -/
structure SGPropertyNode where
  sim : Option SimNode
deriving DecidableEq

/-- What the scan thread observes of the world outside it: the directory
listings of `QDir::entryInfoList` (absolute paths, in the order enumerated;
the source asks for no sort order, so Qt enumerates by name, case ignored),
the result of `readProperties` (`none` when it throws an `sg_exception`),
`QFileInfo::exists` and `QFileInfo::lastModified`, and the moment at which
another thread calls `setDone()`: `some n` when the call comes after the
worker has read `m_done` exactly `n` times, `none` when it never comes. -/
structure Env where
  dirEntries : QString → List QString
  setXmlEntries : QString → List QString
  readProperties : QString → Option SGPropertyNode
  fileExists : QString → Bool
  lastModified : QString → QDateTime
  setDoneAfter : Option Nat

/-- An `int` result of the property tree, as a C++ `int`. -/
def toInt32 (i : Int) : Int := intOfWord (wordOfInt i)

/-- `AircraftItem::parseRatings`. -/
def AircraftItem.parseRatings (ratingsNode : RatingNode) : Int × Int × Int × Int :=
  (toInt32 ratingsNode.FDM, toInt32 ratingsNode.systems, toInt32 ratingsNode.cockpit,
   toInt32 ratingsNode.model)

/-- The constructor `AircraftItem::AircraftItem(QDir dir, QString filePath)`;
`none` when it throws (unreadable file, or no `sim` child). -/
def AircraftItem.construct (env : Env) (filePath : QString) : Option AircraftItem :=
  match env.readProperties filePath with
  | none => none
  | some root =>
    match root.sim with
    | none => none
    | some sim =>
      some { path := filePath
             pathModTime := env.lastModified filePath
             description := sim.description
             authors := sim.author
             ratings := match sim.rating with
               | some ratingsNode => AircraftItem.parseRatings ratingsNode
               | none => (0, 0, 0, 0)
             variantOf := sim.variantOf
             variants := [] }

/-! ## AircraftScanThread -/

/-- The state of an `AircraftScanThread` together with what it acts on: the
heap, the `aircraft-cache` value of `QSettings`, the number of times
`writeCache` stored that value, and the number of reads of `m_done` so far. -/
structure AircraftScanThread where
  heap : Heap
  m_dirs : List QString
  m_items : List Nat
  m_cachedItems : QMap Nat
  m_nextCache : QMap Nat
  doneReads : Nat
  settings : QByteArray
  cacheWrites : Nat

/-- The constructor `AircraftScanThread(dirsToScan)`, on a given heap and a
given stored cache value. -/
def AircraftScanThread.init (dirsToScan : List QString) (heap : Heap) (settings : QByteArray) :
    AircraftScanThread :=
  { heap := heap, m_dirs := dirsToScan, m_items := [], m_cachedItems := QMap.empty,
    m_nextCache := QMap.empty, doneReads := 0, settings := settings, cacheWrites := 0 }

/-- The value of `m_done` at the next read. -/
def m_done (env : Env) (s : AircraftScanThread) : Bool :=
  match env.setDoneAfter with
  | none => false
  | some n => decide (n ≤ s.doneReads)

/-- The state after one read of `m_done`. -/
def afterRead (s : AircraftScanThread) : AircraftScanThread :=
  { s with doneReads := s.doneReads + 1 }

/-- `AircraftScanThread::items()`: the pending items, and the thread with its
pending buffer swapped for the empty list. -/
def items (s : AircraftScanThread) : List Nat × AircraftScanThread :=
  (s.m_items, { s with m_items := [] })

/-- The loop of `readCache` over `count` stored items. -/
def readCacheItems (env : Env) : Nat → QByteArray → AircraftScanThread → AircraftScanThread
  | 0, _, s => s
  | n + 1, ds, s =>
    let read := AircraftItem.fromDataStream ds
    let a := s.heap.alloc read.1
    if !env.fileExists read.1.path || env.lastModified read.1.path != read.1.pathModTime then
      readCacheItems env n read.2 { s with heap := a.2.delete a.1 }
    else
      readCacheItems env n read.2
        { s with heap := a.2, m_cachedItems := s.m_cachedItems.insert read.1.path a.1 }

/-- `AircraftScanThread::readCache`. -/
def readCache (env : Env) (s : AircraftScanThread) : AircraftScanThread :=
  let cacheData := s.settings
  if cacheData.isEmpty then s
  else
    let cacheVersion := readWord cacheData
    let count := readWord cacheVersion.2
    if cacheVersion.1 != wordOfInt CACHE_VERSION then s
    else readCacheItems env count.1 count.2 s

/-- The bytes that `writeCache` builds from `m_nextCache`. -/
def cacheBytes (s : AircraftScanThread) : QByteArray :=
  Datum.word (wordOfInt CACHE_VERSION) :: Datum.word (s.m_nextCache.count % 4294967296) ::
    (s.m_nextCache.values.map (fun item => (s.heap.get item).toDataStream)).flatten

/-- `AircraftScanThread::writeCache`: every object of `m_nextCache` is used to
write its record. -/
def writeCache (s : AircraftScanThread) : AircraftScanThread :=
  { s with heap := s.m_nextCache.values.foldl Heap.access s.heap,
           settings := cacheBytes s, cacheWrites := s.cacheWrites + 1 }

/-- The locals of `scanAircraftDir` inside one subdirectory. -/
structure SubdirLocals where
  baseAircraft : QMap Nat
  variants : List Nat
deriving DecidableEq

/-- The body of the `try` block for one file up to the assignment to
`m_nextCache`: the item reused from `m_cachedItems` or newly constructed;
`none` when the constructor throws. -/
def loadItem (env : Env) (s : AircraftScanThread) (absolutePath : QString) :
    Option (Nat × AircraftScanThread) :=
  if s.m_cachedItems.contains absolutePath then
    some (s.m_cachedItems.value absolutePath, s)
  else
    match AircraftItem.construct env absolutePath with
    | none => none
    | some item => some ((s.heap.alloc item).1, { s with heap := (s.heap.alloc item).2 })

/-- The rest of the `try` block: the item is recorded in `m_nextCache` and,
after a look at its `variantOf` member, filed as a principal or as a variant. -/
def fileItem (s : AircraftScanThread) (l : SubdirLocals) (absolutePath : QString) (item : Nat) :
    AircraftScanThread × SubdirLocals :=
  ({ s with heap := s.heap.access item,
            m_nextCache := s.m_nextCache.insert absolutePath item },
   if (s.heap.get item).variantOf.isNone then
     { l with baseAircraft := l.baseAircraft.insert (s.heap.get item).baseName item }
   else
     { l with variants := l.variants ++ [item] })

/-- The loop over the `-set.xml` files of one subdirectory. The last component
is `true` when the loop left `scanAircraftDir` through `return` because
`m_done` was set. -/
def scanSetXml (env : Env) :
    List QString → AircraftScanThread → SubdirLocals → AircraftScanThread × SubdirLocals × Bool
  | [], s, l => (s, l, false)
  | absolutePath :: rest, s, l =>
    match loadItem env s absolutePath with
    | none => scanSetXml env rest s l
    | some (item, s1) =>
      let filed := fileItem s1 l absolutePath item
      if m_done env filed.1 then (afterRead filed.1, filed.2, true)
      else scanSetXml env rest (afterRead filed.1) filed.2

/-- The loop binding the variants to their principals; each turn starts with a
use of the variant (`item->variantOf`). -/
def bindVariants (baseAircraft : QMap Nat) : List Nat → Heap → Heap
  | [], h => h
  | item :: rest, h =>
    let variantOf := ((h.get item).variantOf).getD ""
    if !baseAircraft.contains variantOf then
      bindVariants baseAircraft rest ((h.access item).delete item)
    else
      bindVariants baseAircraft rest
        ((h.access item).appendVariant (baseAircraft.value variantOf) item)

/-- The statement `m_items.append(baseAircraft.values())`, made under the
lock. -/
def publish (s : AircraftScanThread) (batch : List Nat) : AircraftScanThread :=
  { s with m_items := s.m_items ++ batch }

/-- The body of the loop of `scanAircraftDir` for one subdirectory; the last
component is `true` when `scanAircraftDir` returned from inside it. -/
def scanSubdir (env : Env) (s : AircraftScanThread) (childDir : QString) :
    AircraftScanThread × Bool :=
  let scanned := scanSetXml env (env.setXmlEntries childDir) s ⟨QMap.empty, []⟩
  if scanned.2.2 then (scanned.1, true)
  else
    let h := bindVariants scanned.2.1.baseAircraft scanned.2.1.variants scanned.1.heap
    (publish { scanned.1 with heap := h } scanned.2.1.baseAircraft.values, false)

/-- The loop of `scanAircraftDir` over the subdirectories. -/
def scanSubdirs (env : Env) : List QString → AircraftScanThread → AircraftScanThread × Bool
  | [], s => (s, false)
  | childDir :: rest, s =>
    let r := scanSubdir env s childDir
    if r.2 then r else scanSubdirs env rest r.1

/-- `AircraftScanThread::scanAircraftDir`. -/
def scanAircraftDir (env : Env) (s : AircraftScanThread) (path : QString) :
    AircraftScanThread × Bool :=
  scanSubdirs env (env.dirEntries path) s

/-- The loop of `run` over `m_dirs`; the last component is `true` when `run`
returned from inside it. -/
def runDirs (env : Env) : List QString → AircraftScanThread → AircraftScanThread × Bool
  | [], s => (s, false)
  | d :: rest, s =>
    let scanned := (scanAircraftDir env s d).1
    if m_done env scanned then (afterRead scanned, true)
    else runDirs env rest (afterRead scanned)

/-- `AircraftScanThread::run`. -/
def run (env : Env) (s : AircraftScanThread) : AircraftScanThread :=
  let cached := readCache env s
  let walked := runDirs env cached.m_dirs cached
  if walked.2 then walked.1 else writeCache walked.1

/-! ## AircraftItemModel -/

/-- `Qt::UserRole`. -/
def Qt_UserRole : Int := 256

/-- `AircraftVariantRole`. -/
def AircraftVariantRole : Int := Qt_UserRole + 3

/-- The data members of `AircraftItemModel`: the catalog. -/
structure AircraftItemModel where
  m_items : List Nat
  m_activeVariant : List Nat
deriving DecidableEq

/-- The catalog of a newly constructed model. -/
def AircraftItemModel.init : AircraftItemModel := { m_items := [], m_activeVariant := [] }

/-- The list `dirs` that the constructor of `AircraftItemModel` builds and hands
to the scan thread: the aircraft paths of `globals`, then the directory
`Aircraft` of the data root (`rootAircraft.str()`). -/
def AircraftItemModel.dirs (aircraft_paths : List QString) (rootAircraft : QString) :
    List QString :=
  aircraft_paths ++ [rootAircraft]

/-- The scan thread that the constructor of `AircraftItemModel` creates and
starts, `new AircraftScanThread(dirs)`, on a given stored cache value. -/
def AircraftItemModel.m_scanThread (aircraft_paths : List QString) (rootAircraft : QString)
    (settings : QByteArray) : AircraftScanThread :=
  AircraftScanThread.init (AircraftItemModel.dirs aircraft_paths rootAircraft) Heap.init settings

/-- `AircraftItemModel::rowCount`. -/
def AircraftItemModel.rowCount (m : AircraftItemModel) : Nat := m.m_items.length

/-- The loop of `onScanResults` appending one zero per new item. -/
def appendDefaults : Nat → List Nat → List Nat
  | 0, activeVariant => activeVariant
  | n + 1, activeVariant => appendDefaults n (activeVariant ++ [0])

/-- `AircraftItemModel::onScanResults`, on the model and its scan thread. -/
def onScanResults (m : AircraftItemModel) (t : AircraftScanThread) :
    AircraftItemModel × AircraftScanThread :=
  let drained := items t
  if drained.1.isEmpty then (m, drained.2)
  else
    ({ m_items := m.m_items ++ drained.1,
       m_activeVariant := appendDefaults drained.1.length m.m_activeVariant }, drained.2)

/-- `AircraftItemModel::setData(index, value, role)` with `row` the row of the
index and `value` the `int` of the variant: the new catalog and the result.
`none` stands for the access `m_activeVariant[row]` outside the list, which
Qt leaves undefined. -/
def setData (m : AircraftItemModel) (row : Int) (value : Int) (role : Int) :
    Option (AircraftItemModel × Bool) :=
  if role = AircraftVariantRole then
    if 0 ≤ row ∧ row.toNat < m.m_activeVariant.length then
      some ({ m with m_activeVariant := m.m_activeVariant.set row.toNat (wordOfInt value) }, true)
    else none
  else some (m, false)

/-! ## Notions used to state the properties -/

/-- The record that the scan loads for a definition file in a given thread
state: the object reused from `m_cachedItems`, else the newly constructed
one; `none` when the constructor throws. -/
def recordOf (env : Env) (s : AircraftScanThread) (absolutePath : QString) : Option AircraftItem :=
  if s.m_cachedItems.contains absolutePath then
    some (s.heap.get (s.m_cachedItems.value absolutePath))
  else AircraftItem.construct env absolutePath

/-- The thread at the moment `run` leaves its loop over the roots: at the
`return` of a cancelled scan, and otherwise just before the call of
`writeCache`. Every batch of the run has been published by then. -/
def scanned (env : Env) (dirs : List QString) (settings : QByteArray) : AircraftScanThread :=
  (runDirs env dirs (readCache env (AircraftScanThread.init dirs Heap.init settings))).1

/-- The tree in which no listing of definition files names `f`; everything else
is as in `env`. -/
def Env.unlist (env : Env) (f : QString) : Env :=
  { env with setXmlEntries := fun d => (env.setXmlEntries d).filter (fun g => g != f) }

/-- The entries stored in a cache payload: what `count` successive calls of
`fromDataStream` read from it. -/
def storedEntries : Nat → QByteArray → List AircraftItem
  | 0, _ => []
  | n + 1, ds => (AircraftItem.fromDataStream ds).1 :: storedEntries n (AircraftItem.fromDataStream ds).2

/-- The validation of a cache entry in `readCache`: the file exists and its
modification time is the recorded one. -/
def validEntry (env : Env) (item : AircraftItem) : Bool :=
  env.fileExists item.path && env.lastModified item.path == item.pathModTime

/-- A C++ `int`. -/
def IsInt32 (i : Int) : Prop := -2147483648 ≤ i ∧ i < 2147483648

instance (i : Int) : Decidable (IsInt32 i) := by unfold IsInt32; infer_instance

/-- The four ratings of an item are C++ `int`s. -/
def AircraftItem.ratingsInt32 (item : AircraftItem) : Prop :=
  IsInt32 item.ratings.1 ∧ IsInt32 item.ratings.2.1 ∧ IsInt32 item.ratings.2.2.1 ∧
  IsInt32 item.ratings.2.2.2

instance (item : AircraftItem) : Decidable item.ratingsInt32 := by
  unfold AircraftItem.ratingsInt32; infer_instance

/-- The two operations on the pending buffer `m_items`: the worker publishes a
batch, the consumer drains. -/
inductive BufferOp where
  | publish (batch : List Nat)
  | drain
deriving DecidableEq

/-- A sequence of buffer operations run on a thread: the lists returned by the
calls of `items()`, in call order, and the thread afterwards. -/
def runBuffer : List BufferOp → AircraftScanThread → List (List Nat) × AircraftScanThread
  | [], s => ([], s)
  | BufferOp.publish batch :: rest, s => runBuffer rest (publish s batch)
  | BufferOp.drain :: rest, s =>
    ((items s).1 :: (runBuffer rest (items s).2).1, (runBuffer rest (items s).2).2)

/-- The batches published by a sequence of buffer operations, in order. -/
def publishedBy : List BufferOp → List (List Nat)
  | [] => []
  | BufferOp.publish batch :: rest => batch :: publishedBy rest
  | BufferOp.drain :: rest => publishedBy rest

/-- A call that changes the catalog: the slot `onScanResults`, run while the
scan thread is in the given state, or `setData`. -/
inductive ModelCall where
  | scanResults (t : AircraftScanThread)
  | setData (row : Int) (value : Int) (role : Int)

/-- A sequence of calls made on a catalog; `none` when one of them is
undefined. -/
def applyCalls : List ModelCall → AircraftItemModel → Option AircraftItemModel
  | [], m => some m
  | ModelCall.scanResults t :: rest, m => applyCalls rest (onScanResults m t).1
  | ModelCall.setData row value role :: rest, m =>
    match setData m row value role with
    | none => none
    | some r => applyCalls rest r.1

/-! ## AircraftItemModel: queries -/

/-- The values that `AircraftItemModel::data` returns in a `QVariant`: the
invalid variant, an `int`, a `quint32`, a string, and the thumbnail pixmap of
an item, named by the path of the item. -/
inductive QVariant where
  | invalid
  | int (i : Int)
  | uint (n : Nat)
  | string (s : QString)
  | pixmap (path : QString)
deriving DecidableEq

/-- `Qt::DisplayRole`. -/
def Qt_DisplayRole : Int := 0

/-- `Qt::DecorationRole`. -/
def Qt_DecorationRole : Int := 1

/-- `Qt::ToolTipRole`. -/
def Qt_ToolTipRole : Int := 3

/-- `AircraftPathRole`. -/
def AircraftPathRole : Int := Qt_UserRole + 1

/-- `AircraftAuthorsRole`. -/
def AircraftAuthorsRole : Int := Qt_UserRole + 2

/-- `AircraftVariantCountRole`. -/
def AircraftVariantCountRole : Int := Qt_UserRole + 4

/-- `AircraftRatingRole`. -/
def AircraftRatingRole : Int := Qt_UserRole + 100

/-- `AircraftVariantDescriptionRole`. -/
def AircraftVariantDescriptionRole : Int := Qt_UserRole + 200

/-- `QList::at(i)`; `none` stands for an index outside the list, which Qt
leaves undefined. -/
def listAt {α : Type} (l : List α) (i : Int) : Option α :=
  if 0 ≤ i then l[i.toNat]? else none

/-- The array access `item->ratings[j]`; `none` outside the four elements. -/
def AircraftItem.rating (item : AircraftItem) (j : Int) : Option Int :=
  if j = 0 then some item.ratings.1
  else if j = 1 then some item.ratings.2.1
  else if j = 2 then some item.ratings.2.2.1
  else if j = 3 then some item.ratings.2.2.2
  else none

/-- The item that `data` reads the record roles from: the variant selected by
`variantIndex` when that is one of `1 .. variants.count()`, else the item
itself. -/
def shownItem (heap : Heap) (item : AircraftItem) (variantIndex : Nat) : Option AircraftItem :=
  if variantIndex ≠ 0 then
    if variantIndex ≤ item.variants.length then
      (listAt item.variants ((variantIndex : Int) - 1)).map heap.get
    else some item
  else some item

/-- The last part of `data`: the value of a record role of the item shown. -/
def roleValue (item : AircraftItem) (role : Int) : Option QVariant :=
  if role = Qt_DisplayRole then some (QVariant.string item.description)
  else if role = Qt_DecorationRole then some (QVariant.pixmap item.path)
  else if role = AircraftPathRole then some (QVariant.string item.path)
  else if role = AircraftAuthorsRole then some (QVariant.string item.authors)
  else if role ≥ AircraftRatingRole ∧ role < AircraftVariantDescriptionRole then
    (item.rating (role - AircraftRatingRole)).map QVariant.int
  else if role = Qt_ToolTipRole then some (QVariant.string item.path)
  else some QVariant.invalid

/-- `AircraftItemModel::data(index, role)`, with `row` the row of the index and
`heap` the objects that the pointers of the model refer to; `none` stands for
an access that Qt or C++ leaves undefined. -/
def data (heap : Heap) (m : AircraftItemModel) (row : Int) (role : Int) : Option QVariant :=
  if role = AircraftVariantRole then
    (listAt m.m_activeVariant row).map QVariant.uint
  else
    match listAt m.m_items row with
    | none => none
    | some p =>
      if role = AircraftVariantCountRole then
        some (QVariant.int ((heap.get p).variants.length : Int))
      else if role ≥ AircraftVariantDescriptionRole then
        (listAt (heap.get p).variants (role - AircraftVariantDescriptionRole)).map
          (fun v => QVariant.string (heap.get v).description)
      else
        match listAt m.m_activeVariant row with
        | none => none
        | some variantIndex =>
          match shownItem heap (heap.get p) variantIndex with
          | none => none
          | some item => roleValue item role

/-- The loop of `indexOfAircraftPath` from a given row on. -/
def indexOfAircraftPathFrom (heap : Heap) (path : QString) : List Nat → Nat → Option Nat
  | [], _ => none
  | item :: rest, row =>
    if (heap.get item).path = path then some row
    else indexOfAircraftPathFrom heap path rest (row + 1)

/-- `AircraftItemModel::indexOfAircraftPath`: the row of the index returned,
`none` for the invalid `QModelIndex()`. -/
def indexOfAircraftPath (heap : Heap) (m : AircraftItemModel) (path : QString) : Option Nat :=
  indexOfAircraftPathFrom heap path m.m_items 0

/-! ## ArgumentsTokenizer -/

/-- `ArgumentsTokenizer::Arg`; the value of `Arg(k)` is the null string. -/
structure Arg where
  arg : QString
  value : QString
deriving DecidableEq

/-- `ArgumentsTokenizer::State`. -/
inductive TokenizerState where
  | Start
  | Key
  | Value
  | Quoted
deriving DecidableEq

/-- `QChar::isSpace()` (Qt library): the space, the control characters
U+0009 to U+000D, U+0085, U+00A0 and the Unicode separators. -/
def isSpace (c : Char) : Bool :=
  c.toNat = 0x20 || (0x09 ≤ c.toNat && c.toNat ≤ 0x0d) || c.toNat = 0x85 || c.toNat = 0xa0 ||
  c.toNat = 0x1680 || (0x2000 ≤ c.toNat && c.toNat ≤ 0x200a) || c.toNat = 0x2028 ||
  c.toNat = 0x2029 || c.toNat = 0x202f || c.toNat = 0x205f || c.toNat = 0x3000

/-- `QString::append(QChar)`. -/
def appendChar (s : QString) (c : Char) : QString := String.mk (s.data ++ [c])

/-- The character loop of `tokenize` from the current index on, followed by
the statements after the loop. The first argument is the input from the
current character `c` on; in the states that look at `nc`, the character after
`c`, the cases are the last character of the input (`nc` is the null `QChar`)
and a character followed by `nc`; a step that increments `index` inside the
`switch` goes on after `nc`. -/
def tokenizeFrom :
    List Char → TokenizerState → QString → QString → List Arg → List Arg
  | [], TokenizerState.Key, key, _, result => result ++ [⟨key, ""⟩]
  | [], TokenizerState.Value, key, value, result => result ++ [⟨key, value⟩]
  | [], _, _, _, result => result
  | [c], TokenizerState.Start, key, value, result =>
    if c = '-' then []
    else tokenizeFrom [] TokenizerState.Start key value result
  | c :: nc :: rest, TokenizerState.Start, key, value, result =>
    if c = '-' then
      if nc = '-' then tokenizeFrom rest TokenizerState.Key "" value result
      else []
    else tokenizeFrom (nc :: rest) TokenizerState.Start key value result
  | c :: rest, TokenizerState.Key, key, value, result =>
    if c = '=' then tokenizeFrom rest TokenizerState.Value key "" result
    else if isSpace c then tokenizeFrom rest TokenizerState.Start key value (result ++ [⟨key, ""⟩])
    else tokenizeFrom rest TokenizerState.Key (appendChar key c) value result
  | c :: rest, TokenizerState.Value, key, value, result =>
    if c = '"' then tokenizeFrom rest TokenizerState.Quoted key value result
    else if isSpace c then
      tokenizeFrom rest TokenizerState.Start key value (result ++ [⟨key, value⟩])
    else tokenizeFrom rest TokenizerState.Value key (appendChar value c) result
  | [c], TokenizerState.Quoted, key, value, result =>
    if c = '\\' then tokenizeFrom [] TokenizerState.Quoted key value result
    else if c = '"' then tokenizeFrom [] TokenizerState.Value key value result
    else tokenizeFrom [] TokenizerState.Quoted key (appendChar value c) result
  | c :: nc :: rest, TokenizerState.Quoted, key, value, result =>
    if c = '\\' then
      if nc = '"' then tokenizeFrom rest TokenizerState.Quoted key value result
      else tokenizeFrom (nc :: rest) TokenizerState.Quoted key value result
    else if c = '"' then tokenizeFrom (nc :: rest) TokenizerState.Value key value result
    else tokenizeFrom (nc :: rest) TokenizerState.Quoted key (appendChar value c) result

/-- `ArgumentsTokenizer::tokenize`. -/
def tokenize (input : QString) : List Arg :=
  tokenizeFrom input.data TokenizerState.Start "" "" []

/-! ## Notions used to state the properties of the catalog, the tokenizer and the stop flag -/

/-- An argument in one of the three forms `--key`, `--key=value` and
`--key="value"`. -/
inductive ArgText where
  | flag (key : List Char)
  | plain (key value : List Char)
  | quoted (key value : List Char)

/-- The characters of an argument as it is written. -/
def ArgText.text : ArgText → List Char
  | ArgText.flag key => '-' :: '-' :: key
  | ArgText.plain key value => '-' :: '-' :: (key ++ '=' :: value)
  | ArgText.quoted key value => '-' :: '-' :: (key ++ '=' :: '"' :: (value ++ ['"']))

/-- The entry that an argument stands for. -/
def ArgText.entry : ArgText → Arg
  | ArgText.flag key => ⟨String.mk key, ""⟩
  | ArgText.plain key value => ⟨String.mk key, String.mk value⟩
  | ArgText.quoted key value => ⟨String.mk key, String.mk value⟩

/-- A key: not empty, without whitespace and without `=`. -/
def KeyOk (key : List Char) : Prop := key ≠ [] ∧ ∀ c ∈ key, isSpace c = false ∧ c ≠ '='

/-- The well-formed arguments: a key as above; an unquoted value without
whitespace and without double quote; a quoted value without double quote and
without backslash. -/
def ArgText.WellFormed : ArgText → Prop
  | ArgText.flag key => KeyOk key
  | ArgText.plain key value => KeyOk key ∧ ∀ c ∈ value, isSpace c = false ∧ c ≠ '"'
  | ArgText.quoted key value => KeyOk key ∧ ∀ c ∈ value, c ≠ '"' ∧ c ≠ '\\'

/-- The input made of arguments, each followed by its separator. -/
def argsText : List (ArgText × List Char) → List Char
  | [] => []
  | a :: rest => a.1.text ++ a.2 ++ argsText rest

/-- Every separator is whitespace, and every separator but the last is not
empty. -/
def Separated : List (ArgText × List Char) → Prop
  | [] => True
  | [a] => ∀ c ∈ a.2, isSpace c = true
  | a :: b :: rest => a.2 ≠ [] ∧ (∀ c ∈ a.2, isSpace c = true) ∧ Separated (b :: rest)

/-- The definition files that the file loop of one subdirectory handles (its
`try` block is entered for them), in order. -/
def handledSetXml (env : Env) :
    List QString → AircraftScanThread → SubdirLocals → List QString
  | [], _, _ => []
  | absolutePath :: rest, s, l =>
    match loadItem env s absolutePath with
    | none => absolutePath :: handledSetXml env rest s l
    | some (item, s1) =>
      let filed := fileItem s1 l absolutePath item
      if m_done env filed.1 then [absolutePath]
      else absolutePath :: handledSetXml env rest (afterRead filed.1) filed.2

/-- The definition files handled by the loop of `scanAircraftDir` over the
subdirectories. -/
def handledSubdirs (env : Env) : List QString → AircraftScanThread → List QString
  | [], _ => []
  | childDir :: rest, s =>
    handledSetXml env (env.setXmlEntries childDir) s ⟨QMap.empty, []⟩
      ++ (if (scanSubdir env s childDir).2 then []
          else handledSubdirs env rest (scanSubdir env s childDir).1)

/-- The definition files handled by the loop of `run` over the roots. -/
def handledDirs (env : Env) : List QString → AircraftScanThread → List QString
  | [], _ => []
  | d :: rest, s =>
    handledSubdirs env (env.dirEntries d) s
      ++ (if m_done env (scanAircraftDir env s d).1 then []
          else handledDirs env rest (afterRead (scanAircraftDir env s d).1))

/-- The definition files handled by `run`, in order. -/
def handledByRun (env : Env) (s : AircraftScanThread) : List QString :=
  handledDirs env (readCache env s).m_dirs (readCache env s)

/-- The members that no part of a directory scan changes, and the monotone
read counter. -/
def SameFrame (s s' : AircraftScanThread) : Prop :=
  s'.m_dirs = s.m_dirs ∧ s'.m_cachedItems = s.m_cachedItems ∧ s'.settings = s.settings ∧
  s'.cacheWrites = s.cacheWrites ∧ s.doneReads ≤ s'.doneReads

/-- Every pointer kept in `m_cachedItems` is allocated and points to the item
of that path. -/
def CacheWF (s : AircraftScanThread) : Prop :=
  ∀ k p, s.m_cachedItems.lookup k = some p → p < s.heap.next ∧ (s.heap.get p).path = k

/-- The invariant of the scan behind the published batches: every pending item
is an allocated principal, and every variant attached to an allocated object
names that object's base name and was listed in one scanned subdirectory
together with it. -/
def PrincipalsInv (env : Env) (D : QString → Prop) (s : AircraftScanThread) : Prop :=
  CacheWF s ∧
  (∀ p ∈ s.m_items, p < s.heap.next ∧ (s.heap.get p).variantOf = none) ∧
  (∀ p, p < s.heap.next → ∀ v ∈ (s.heap.get p).variants,
    v < s.heap.next ∧ (s.heap.get v).variantOf = some (s.heap.get p).baseName ∧
    ∃ d, D d ∧ (s.heap.get p).path ∈ env.setXmlEntries d ∧
      (s.heap.get v).path ∈ env.setXmlEntries d)

/-- A later state of the scan seen from an earlier one: the same cache map,
and the stored members of the objects allocated then unchanged. -/
def Extends (s0 s : AircraftScanThread) : Prop :=
  s.m_cachedItems = s0.m_cachedItems ∧ s0.heap.next ≤ s.heap.next ∧
  ∀ q, q < s0.heap.next → (s.heap.get q).stored = (s0.heap.get q).stored

/-- The invariant of the scan for a definition file `f` that is never bound:
no pending item and no attached variant has the path `f`. -/
def AbsentInv (f : QString) (s0 s : AircraftScanThread) : Prop :=
  CacheWF s ∧ Extends s0 s ∧
  (∀ p ∈ s.m_items, p < s.heap.next ∧ (s.heap.get p).path ≠ f) ∧
  (∀ p, p < s.heap.next → ∀ v ∈ (s.heap.get p).variants,
    v < s.heap.next ∧ (s.heap.get v).path ≠ f)

def sampleTree (variantOf : Option QString) : SGPropertyNode :=
  ⟨some ⟨"d", "a", none, variantOf⟩⟩

def sampleEnv (setDoneAfter : Option Nat) : Env :=
  { dirEntries := fun d => if d = "/r" then ["/r/a", "/r/b"] else []
    setXmlEntries := fun d =>
      if d = "/r/a" then ["/r/a/v1-set.xml", "/r/a/p-set.xml", "/r/a/v2-set.xml"]
      else if d = "/r/b" then ["/r/b/q-set.xml"] else []
    readProperties := fun f =>
      if f = "/r/a/p-set.xml" then some (sampleTree none)
      else if f = "/r/a/v1-set.xml" then some (sampleTree (some "p"))
      else if f = "/r/a/v2-set.xml" then some (sampleTree (some "q"))
      else if f = "/r/b/q-set.xml" then some (sampleTree none)
      else none
    fileExists := fun _ => true
    lastModified := fun _ => some 5
    setDoneAfter := setDoneAfter }

def sampleItem (path : QString) (variantOf : Option QString) : AircraftItem :=
  { path := path, description := "d", authors := "a", ratings := (0, 0, 0, 0),
    variantOf := variantOf, pathModTime := some 5, variants := [] }

/-- The sample tree reduced to the subdirectory `/r/a` with the variant `v1`
and its principal `p`. -/
def pairEnv : Env :=
  { sampleEnv none with
    dirEntries := fun d => if d = "/r" then ["/r/a"] else []
    setXmlEntries := fun d =>
      if d = "/r/a" then ["/r/a/v1-set.xml", "/r/a/p-set.xml"] else [] }

/-- A thread that has scanned the root `/r` of `pairEnv` to its end, starting
without a cache. -/
def pairScanned : AircraftScanThread :=
  run pairEnv (AircraftScanThread.init ["/r"] Heap.init [])

/-- The cache value stored by that scan. -/
def pairCache : QByteArray := pairScanned.settings

/-- The paths of the pending principals, each with the paths of its variants. -/
def pendingPaths (s : AircraftScanThread) : List (QString × List QString) :=
  s.m_items.map (fun p => ((s.heap.get p).path,
    (s.heap.get p).variants.map (fun v => (s.heap.get v).path)))

/-- A stored cache of the current version with two entries: `p`, whose file
is unchanged, and `v1`, whose recorded modification time is not the file's. -/
def staleCache : QByteArray :=
  [Datum.word 2, Datum.word 2] ++ (sampleItem "/r/a/p-set.xml" none).toDataStream
    ++ ({ sampleItem "/r/a/v1-set.xml" (some "p") with pathModTime := some 4 }).toDataStream

/-- The record roles of `data` with the values they have for an item: its
description, path, authors and four ratings. -/
def recordRoles (item : AircraftItem) : List (Int × QVariant) :=
  [(Qt_DisplayRole, QVariant.string item.description),
   (AircraftPathRole, QVariant.string item.path),
   (AircraftAuthorsRole, QVariant.string item.authors),
   (AircraftRatingRole, QVariant.int item.ratings.1),
   (AircraftRatingRole + 1, QVariant.int item.ratings.2.1),
   (AircraftRatingRole + 2, QVariant.int item.ratings.2.2.1),
   (AircraftRatingRole + 3, QVariant.int item.ratings.2.2.2)]

/-- The catalog that has drained the scan of `pairEnv`: one entry, the
principal `p` (object 2), whose only variant is `v1` (object 1). -/
def pairCatalog : AircraftItemModel := (onScanResults AircraftItemModel.init pairScanned).1

/-- The sample tree with two definition files that do not parse, `x` and `y`,
listed before the principal `p` and its variant `v1`. -/
def brokenEnv (setDoneAfter : Option Nat) : Env :=
  { sampleEnv setDoneAfter with
    dirEntries := fun d => if d = "/r" then ["/r/a"] else []
    setXmlEntries := fun d =>
      if d = "/r/a" then ["/r/a/x-set.xml", "/r/a/y-set.xml", "/r/a/p-set.xml", "/r/a/v1-set.xml"]
      else [] }

/-- The range 0 to 4 of a rating. -/
def RatingOk (r : Int) : Prop := 0 ≤ r ∧ r ≤ 4

instance (r : Int) : Decidable (RatingOk r) := by unfold RatingOk; infer_instance

/-- The ratings that the constructor gives for a `sim` node: the four integer
values of its `rating` child as C++ `int`s, all zero without such a child. -/
def ratingsOfSim (sim : SimNode) : Int × Int × Int × Int :=
  (sim.rating.map (fun r => (toInt32 r.FDM, toInt32 r.systems, toInt32 r.cockpit,
    toInt32 r.model))).getD (0, 0, 0, 0)

/-- The item that `fromDataStream` leaves when nothing is left to read. -/
def emptyRead : AircraftItem := (AircraftItem.fromDataStream []).1

/-- The subdirectories in the order in which `run` walks them: those of the
first root, then those of the second, and so on. -/
def visits (env : Env) (dirs : List QString) : List QString :=
  (dirs.map env.dirEntries).flatten

/-- A batch of allocated principals of the subdirectory `d`, in strictly
ascending order of base name, the order of `QString::operator<`. -/
def BatchOf (env : Env) (h : Heap) (d : QString) (batch : List Nat) : Prop :=
  (batch.map (fun p => (h.get p).baseName)).Pairwise (fun a b => qLess a b = true) ∧
  ∀ p ∈ batch, p < h.next ∧ (h.get p).path ∈ env.setXmlEntries d ∧ (h.get p).variantOf = none

/-- The members of a record that the cache stores. -/
abbrev Stored := QString × QString × QString × Option QString × (Int × Int × Int × Int) × QDateTime

instance instDecidableEqStoredTail :
    DecidableEq (Option QString × (Int × Int × Int × Int) × QDateTime) := inferInstance

instance instDecidableEqStored : DecidableEq Stored :=
  inferInstanceAs (DecidableEq (QString × QString × QString ×
    (Option QString × (Int × Int × Int × Int) × QDateTime)))

/-- The base name of a stored record, as `AircraftItem::baseName`. -/
def storedBaseName (t : Stored) : QString :=
  let fn := fileName t.1
  truncate fn ((fn.length : Int) - 8)

/-- The variant-of member of a stored record. -/
def storedVariantOf (t : Stored) : Option QString := t.2.2.2.1

/-- The pending items of a thread as records: every principal with the records
of its variants, in order. -/
def publishedView (s : AircraftScanThread) : List (Stored × List Stored) :=
  s.m_items.map (fun p => ((s.heap.get p).stored,
    (s.heap.get p).variants.map (fun v => (s.heap.get v).stored)))

/-- The batch that the records loaded for one subdirectory, in listing order,
give: the principals keyed by base name as in `baseAircraft`, in the order of
`values()`, each with the variants that name its key, in listing order. -/
def batchView (records : List Stored) : List (Stored × List Stored) :=
  ((records.filter (fun r => (storedVariantOf r).isNone)).foldl
      (fun m r => m.insert (storedBaseName r) r) (QMap.empty : QMap Stored)).entries.map
    (fun e => (e.2, (records.filter (fun r => (storedVariantOf r).isSome)).filter
      (fun v => decide ((storedVariantOf v).getD "" = e.1))))

/-- The batches of a walk over the roots when every definition file is parsed
afresh. -/
def expectedView (env : Env) (dirs : List QString) : List (Stored × List Stored) :=
  ((visits env dirs).map (fun d => batchView
    (((env.setXmlEntries d).filterMap (AircraftItem.construct env)).map
      AircraftItem.stored))).flatten

/-- The invariant of a walk in which no definition file is listed twice, with
`todo` the files of the listings still to come: the cache map is well formed
and agrees with what the constructor gives; an object kept in the cache for a
file still to come has no variants; and every pending item is allocated, with
allocated variants, and belongs to a file already seen. -/
def ViewInv (env : Env) (todo : List QString) (s : AircraftScanThread) : Prop :=
  CacheWF s ∧
  (∀ f p, s.m_cachedItems.lookup f = some p →
    (AircraftItem.construct env f).map AircraftItem.stored = some (s.heap.get p).stored) ∧
  (∀ f ∈ todo, ∀ p, s.m_cachedItems.lookup f = some p → (s.heap.get p).variants = []) ∧
  (∀ p ∈ s.m_items, p < s.heap.next ∧ (s.heap.get p).path ∉ todo ∧
    ∀ v ∈ (s.heap.get p).variants, v < s.heap.next)

/-- The stop flag as read when `n` reads have been made before. -/
def flagAt (env : Env) (n : Nat) : Bool :=
  match env.setDoneAfter with
  | none => false
  | some k => decide (k ≤ n)

/-- The reads of the stop flag made by the file loop of one subdirectory, from
the list telling which files load: the number of reads afterwards, and whether
the loop was left through `return`. -/
def readsOf (env : Env) : List Bool → Nat → Nat × Bool
  | [], n => (n, false)
  | false :: rest, n => readsOf env rest n
  | true :: rest, n => if flagAt env n then (n + 1, true) else readsOf env rest (n + 1)

/-- Whether the load of a file succeeds in a given thread state. -/
def okFile (env : Env) (s : AircraftScanThread) (f : QString) : Bool :=
  s.m_cachedItems.contains f || (AircraftItem.construct env f).isSome

/-- Two scans side by side: both satisfy the invariant of the walk, have made
the same number of reads of the stop flag, and have the same pending items as
records. -/
def SimInv (env : Env) (todo : List QString) (s t : AircraftScanThread) : Prop :=
  ViewInv env todo s ∧ ViewInv env todo t ∧ s.doneReads = t.doneReads ∧
  publishedView s = publishedView t

/-- The state of a walk that has used no deleted object, with `todo` the files
of the listings still to come: the deleted objects are allocated, and no
object kept in the cache for a file still to come is deleted. -/
def DefInv (todo : List QString) (s : AircraftScanThread) : Prop :=
  CacheWF s ∧ s.heap.undefined = false ∧ (∀ q ∈ s.heap.deleted, q < s.heap.next) ∧
  (∀ f ∈ todo, ∀ p, s.m_cachedItems.lookup f = some p → p ∉ s.heap.deleted)

/-- The invariant of a walk in which no definition file is listed twice, seen
from the state `s0` after `readCache`, with `todo` the files of the listings
still to come: an object kept in the cache for a file still to come has no
variants; every pending item is allocated, with allocated variants, and
belongs to a file already seen. -/
def WalkInv (s0 : AircraftScanThread) (todo : List QString) (s : AircraftScanThread) : Prop :=
  CacheWF s ∧ Extends s0 s ∧
  (∀ f ∈ todo, ∀ p, s.m_cachedItems.lookup f = some p → (s.heap.get p).variants = []) ∧
  (∀ p ∈ s.m_items, p < s.heap.next ∧ (s.heap.get p).path ∉ todo ∧
    ∀ v ∈ (s.heap.get p).variants, v < s.heap.next)

/-- A stored cache of the current version whose count is 3 and which holds
one record, that of `p`: a payload cut off after its first record. -/
def truncatedCache : QByteArray :=
  Datum.word (wordOfInt CACHE_VERSION) :: Datum.word 3 ::
    ([sampleItem "/r/a/p-set.xml" none].map AircraftItem.toDataStream).flatten

/-- The sample tree, in which no file has the empty path. -/
def truncEnv : Env :=
  { sampleEnv none with fileExists := fun f => f != "" }

/-- A tree with one definition file, whose ratings are 7, -1, 0 and 5. -/
def ratedEnv : Env :=
  { sampleEnv none with
    dirEntries := fun d => if d = "/r" then ["/r/a"] else []
    setXmlEntries := fun d => if d = "/r/a" then ["/r/a/p-set.xml"] else []
    readProperties := fun f =>
      if f = "/r/a/p-set.xml" then some ⟨some ⟨"d", "a", some ⟨7, -1, 0, 5⟩, none⟩⟩ else none }

/-- A tree with the root `/r` and the subdirectory `/r/a`, which lists the
principal `p` and its variant `v1`, in the order of their names. -/
def hangarEnv : Env :=
  { sampleEnv none with
    dirEntries := fun d => if d = "/r" then ["/r/a"] else []
    setXmlEntries := fun d =>
      if d = "/r/a" then ["/r/a/p-set.xml", "/r/a/v1-set.xml"] else [] }

/-- The cache value stored by a complete scan of the root `/r` of `hangarEnv`
that started without a cache. -/
def hangarCache : QByteArray :=
  (run hangarEnv (AircraftScanThread.init ["/r"] Heap.init [])).settings

/-- A tree with the root `/r`: the subdirectory `/r/a` lists, in the order of
their names, `a` (a variant of `q`), the principal `p` and `v1` (a variant of
`p`); the subdirectory `/r/b` lists the principal `q`. -/
def strayEnv (setDoneAfter : Option Nat) : Env :=
  { sampleEnv setDoneAfter with
    setXmlEntries := fun d =>
      if d = "/r/a" then ["/r/a/a-set.xml", "/r/a/p-set.xml", "/r/a/v1-set.xml"]
      else if d = "/r/b" then ["/r/b/q-set.xml"] else []
    readProperties := fun f =>
      if f = "/r/a/a-set.xml" then some (sampleTree (some "q"))
      else if f = "/r/a/p-set.xml" then some (sampleTree none)
      else if f = "/r/a/v1-set.xml" then some (sampleTree (some "p"))
      else if f = "/r/b/q-set.xml" then some (sampleTree none)
      else none }

/-- The lists returned by two calls of `items()` made during a run over two
roots: the first when the walk of the first root has ended, the second when
the walk of the second root has ended. -/
def drainedAfterEachRoot (env : Env) (s : AircraftScanThread) (root1 root2 : QString) :
    List Nat × List Nat :=
  ((items (scanAircraftDir env (readCache env s) root1).1).1,
   (items (scanAircraftDir env
      (afterRead (items (scanAircraftDir env (readCache env s) root1).1).2) root2).1).1)

/-! ## Theorems -/

theorem unitsLess_irrefl (l : List Nat) : unitsLess l l = false := by
  induction l with
  | nil => rfl
  | cons a l ih => simp [unitsLess, ih]

theorem unitsLess_trans {a b c : List Nat} (h1 : unitsLess a b = true)
    (h2 : unitsLess b c = true) : unitsLess a c = true := by
  induction a generalizing b c with
  | nil =>
    cases c with
    | nil => cases b <;> simp [unitsLess] at h2
    | cons z c => rfl
  | cons x a ih =>
    cases b with
    | nil => simp [unitsLess] at h1
    | cons y b =>
      cases c with
      | nil => simp [unitsLess] at h2
      | cons z c =>
        simp only [unitsLess] at h1 h2 ⊢
        by_cases hxy : x < y
        · by_cases hyz : y < z
          · rw [if_pos (lt_trans hxy hyz)]
          · rw [if_neg hyz] at h2
            by_cases hzy : z < y
            · rw [if_pos hzy] at h2; exact Bool.noConfusion h2
            · have : y = z := by omega
              subst this
              rw [if_pos hxy]
        · rw [if_neg hxy] at h1
          by_cases hyx : y < x
          · rw [if_pos hyx] at h1; exact Bool.noConfusion h1
          · rw [if_neg hyx] at h1
            have : x = y := by omega
            subst this
            by_cases hyz : x < z
            · rw [if_pos hyz]
            · rw [if_neg hyz] at h2 ⊢
              by_cases hzy : z < x
              · rw [if_pos hzy] at h2; exact Bool.noConfusion h2
              · rw [if_neg hzy] at h2 ⊢
                exact ih h1 h2

theorem unitsLess_total {a b : List Nat} (h1 : unitsLess a b = false)
    (h2 : unitsLess b a = false) : a = b := by
  induction a generalizing b with
  | nil =>
    cases b with
    | nil => rfl
    | cons y b => simp [unitsLess] at h1
  | cons x a ih =>
    cases b with
    | nil => simp [unitsLess] at h2
    | cons y b =>
      simp only [unitsLess] at h1 h2
      by_cases hxy : x < y
      · rw [if_pos hxy] at h1; exact Bool.noConfusion h1
      · rw [if_neg hxy] at h1
        by_cases hyx : y < x
        · rw [if_pos hyx] at h2; exact Bool.noConfusion h2
        · rw [if_neg hyx] at h1
          rw [if_neg hyx, if_neg hxy] at h2
          have : x = y := by omega
          subst this
          rw [ih h1 h2]

theorem char_valid (c : Char) :
    c.toNat < 0xD800 ∨ (0xDFFF < c.toNat ∧ c.toNat < 0x110000) := c.valid

theorem toNat_inj {c d : Char} (h : c.toNat = d.toNat) : c = d := by
  apply Char.ext
  apply UInt32.ext
  exact h

theorem utf16Units_append_inj (c d : Char) (l m : List Nat)
    (h : utf16Units c ++ l = utf16Units d ++ m) : c = d ∧ l = m := by
  have hc := char_valid c
  have hd := char_valid d
  unfold utf16Units at h
  by_cases h1 : c.toNat < 0x10000
  · by_cases h2 : d.toNat < 0x10000
    · rw [if_pos h1, if_pos h2] at h
      simp only [List.cons_append, List.nil_append, List.cons.injEq] at h
      exact ⟨toNat_inj h.1, h.2⟩
    · rw [if_pos h1, if_neg h2] at h
      simp only [List.cons_append, List.nil_append, List.cons.injEq] at h
      exfalso
      have := h.1
      omega
  · by_cases h2 : d.toNat < 0x10000
    · rw [if_neg h1, if_pos h2] at h
      simp only [List.cons_append, List.nil_append, List.cons.injEq] at h
      exfalso
      have := h.1
      omega
    · rw [if_neg h1, if_neg h2] at h
      simp only [List.cons_append, List.nil_append, List.cons.injEq] at h
      obtain ⟨e1, e2, e3⟩ := h
      refine ⟨toNat_inj ?_, e3⟩
      omega

theorem utf16Units_ne_nil (c : Char) : utf16Units c ≠ [] := by
  unfold utf16Units
  split <;> simp

theorem utf16_inj_data (a b : List Char)
    (h : (a.map utf16Units).flatten = (b.map utf16Units).flatten) : a = b := by
  induction a generalizing b with
  | nil =>
    cases b with
    | nil => rfl
    | cons d b =>
      exfalso
      simp only [List.map_nil, List.flatten_nil, List.map_cons, List.flatten_cons] at h
      have := congrArg List.length h
      have hne := utf16Units_ne_nil d
      cases hu : utf16Units d with
      | nil => exact hne hu
      | cons x xs => rw [hu] at this; simp at this
  | cons c a ih =>
    cases b with
    | nil =>
      exfalso
      simp only [List.map_nil, List.flatten_nil, List.map_cons, List.flatten_cons] at h
      have := congrArg List.length h
      have hne := utf16Units_ne_nil c
      cases hu : utf16Units c with
      | nil => exact hne hu
      | cons x xs => rw [hu] at this; simp at this
    | cons d b =>
      simp only [List.map_cons, List.flatten_cons] at h
      obtain ⟨h1, h2⟩ := utf16Units_append_inj c d _ _ h
      rw [h1, ih b h2]

theorem utf16_inj {a b : QString} (h : utf16 a = utf16 b) : a = b := by
  unfold utf16 at h
  have := utf16_inj_data a.data b.data h
  exact String.ext this

theorem qLess_irrefl (a : QString) : qLess a a = false := unitsLess_irrefl _

theorem qLess_trans {a b c : QString} (h1 : qLess a b = true) (h2 : qLess b c = true) :
    qLess a c = true := unitsLess_trans h1 h2

theorem eq_of_not_qLess {a b : QString} (h1 : qLess a b = false) (h2 : qLess b a = false) :
    a = b := utf16_inj (unitsLess_total h1 h2)

theorem qLess_asymm {a b : QString} (h : qLess a b = true) : qLess b a = false := by
  cases hb : qLess b a with
  | false => rfl
  | true =>
    have := qLess_trans h hb
    rw [qLess_irrefl] at this
    exact Bool.noConfusion this

namespace QMap

variable {V : Type}

theorem lookupEntries_insertEntries (k : QString) (v : V) (k' : QString) (l : List (QString × V)) :
    lookupEntries k' (insertEntries k v l) = if k = k' then some v else lookupEntries k' l := by
  induction l with
  | nil => simp [insertEntries, lookupEntries]
  | cons e rest ih =>
    obtain ⟨k1, v1⟩ := e
    simp only [insertEntries]
    cases h1 : qLess k k1 with
    | true => simp [lookupEntries]
    | false =>
      cases h2 : qLess k1 k with
      | true =>
        have hne : k1 ≠ k := fun h => by rw [h, qLess_irrefl] at h2; exact Bool.noConfusion h2
        simp only [lookupEntries, ih]
        by_cases hk : k = k'
        · subst hk; simp [hne]
        · simp [hk]
      | false =>
        have heq : k = k1 := eq_of_not_qLess h1 h2
        subst heq
        simp only [lookupEntries]
        by_cases hk : k = k'
        · simp [hk]
        · simp [hk]

theorem lookup_insert (m : QMap V) (k : QString) (v : V) (k' : QString) :
    (m.insert k v).lookup k' = if k = k' then some v else m.lookup k' :=
  lookupEntries_insertEntries k v k' m.entries

theorem lookup_empty (k : QString) : (QMap.empty : QMap V).lookup k = none := rfl

theorem mem_entries_of_lookupEntries {k : QString} {v : V} {l : List (QString × V)}
    (h : lookupEntries k l = some v) : (k, v) ∈ l := by
  induction l with
  | nil => simp [lookupEntries] at h
  | cons e rest ih =>
    obtain ⟨k1, v1⟩ := e
    simp only [lookupEntries] at h
    by_cases hk : k1 = k
    · simp [hk] at h; subst hk; subst h; simp
    · simp [hk] at h; exact List.mem_cons_of_mem _ (ih h)

theorem mem_values_of_lookup {m : QMap V} {k : QString} {v : V} (h : m.lookup k = some v) :
    v ∈ m.values := by
  have := mem_entries_of_lookupEntries h
  exact List.mem_map.mpr ⟨(k, v), this, rfl⟩

theorem mem_insertEntries {k : QString} {v : V} {e : QString × V} {l : List (QString × V)}
    (h : e ∈ insertEntries k v l) : e = (k, v) ∨ e ∈ l := by
  induction l with
  | nil => simp [insertEntries] at h; exact Or.inl h
  | cons e1 rest ih =>
    obtain ⟨k1, v1⟩ := e1
    simp only [insertEntries] at h
    split at h
    · simpa using h
    · split at h
      · rcases List.mem_cons.mp h with h | h
        · exact Or.inr (by simp [h])
        · rcases ih h with h | h
          · exact Or.inl h
          · exact Or.inr (List.mem_cons_of_mem _ h)
      · rcases List.mem_cons.mp h with h | h
        · exact Or.inl h
        · exact Or.inr (List.mem_cons_of_mem _ h)

theorem mem_entries_insert {m : QMap V} {k : QString} {v : V} {e : QString × V}
    (h : e ∈ (m.insert k v).entries) : e = (k, v) ∨ e ∈ m.entries :=
  mem_insertEntries h

theorem mem_values_insert {m : QMap V} {k : QString} {v v' : V}
    (h : v' ∈ (m.insert k v).values) : v' = v ∨ v' ∈ m.values := by
  obtain ⟨e, he, rfl⟩ := List.mem_map.mp h
  rcases mem_entries_insert he with h | h
  · exact Or.inl (by rw [h])
  · exact Or.inr (List.mem_map.mpr ⟨e, h, rfl⟩)

theorem contains_iff {m : QMap V} {k : QString} :
    m.contains k = true ↔ ∃ v, m.lookup k = some v := by
  unfold contains; exact Option.isSome_iff_exists

theorem value_of_lookup [Inhabited V] {m : QMap V} {k : QString} {v : V}
    (h : m.lookup k = some v) : m.value k = v := by
  unfold value; rw [h]; rfl

theorem insertEntries_of_lt (k : QString) (v : V) (l : List (QString × V))
    (h : ∀ e ∈ l, qLess e.1 k = true) : insertEntries k v l = l ++ [(k, v)] := by
  induction l with
  | nil => rfl
  | cons e rest ih =>
    obtain ⟨k1, v1⟩ := e
    have h2 : qLess k1 k = true := h (k1, v1) (List.mem_cons_self _ _)
    have h3 : qLess k k1 = false := qLess_asymm h2
    simp only [insertEntries, h2, h3]
    simp [ih (fun e he => h e (List.mem_cons_of_mem _ he))]

end QMap

/-! ### drain -/

theorem runBuffer_flatten (ops : List BufferOp) (s : AircraftScanThread) :
    (runBuffer ops s).1.flatten ++ (runBuffer ops s).2.m_items
      = s.m_items ++ (publishedBy ops).flatten := by
  induction ops generalizing s with
  | nil => simp [runBuffer, publishedBy]
  | cons op rest ih =>
    cases op with
    | publish batch =>
      simp only [runBuffer, publishedBy, List.flatten_cons]
      rw [ih]; simp [publish]
    | drain =>
      simp only [runBuffer, publishedBy, List.flatten_cons, List.append_assoc]
      rw [ih]; simp [items]

theorem runBuffer_publishes (batches : List (List Nat)) (s : AircraftScanThread) :
    runBuffer (batches.map BufferOp.publish ++ [BufferOp.drain]) s
      = ([s.m_items ++ batches.flatten], { s with m_items := [] }) := by
  induction batches generalizing s with
  | nil => simp [runBuffer, items]
  | cons b rest ih =>
    show runBuffer (List.map BufferOp.publish rest ++ [BufferOp.drain]) (publish s b) = _
    rw [ih]; simp [publish]

/-- What `items()` does to the pending buffer: it returns the buffer and leaves
it empty; a later call returns the batches published in between; over any
sequence of publications and calls, every published element is returned
once, in order. -/
theorem items_drains (s : AircraftScanThread) (batches : List (List Nat)) (ops : List BufferOp) :
    (items s).1 = s.m_items ∧ (items s).2.m_items = [] ∧ (items (items s).2).1 = [] ∧
    (runBuffer (batches.map BufferOp.publish ++ [BufferOp.drain]) (items s).2).1
        = [batches.flatten] ∧
    (runBuffer (batches.map BufferOp.publish ++ [BufferOp.drain]) (items s).2).2.m_items = [] ∧
    (runBuffer ops s).1.flatten ++ (runBuffer ops s).2.m_items
        = s.m_items ++ (publishedBy ops).flatten := by
  refine ⟨rfl, rfl, rfl, ?_, ?_, runBuffer_flatten ops s⟩
  · rw [runBuffer_publishes]; simp [items]
  · rw [runBuffer_publishes]

/-! ### catalog -/

theorem appendDefaults_eq (n : Nat) (l : List Nat) :
    appendDefaults n l = l ++ List.replicate n 0 := by
  induction n generalizing l with
  | zero => simp [appendDefaults]
  | succ n ih => simp [appendDefaults, ih, List.replicate_succ]

theorem onScanResults_eq (m : AircraftItemModel) (t : AircraftScanThread) :
    (onScanResults m t).1.m_items = m.m_items ++ (items t).1 ∧
    (onScanResults m t).1.m_activeVariant
      = m.m_activeVariant ++ List.replicate (items t).1.length 0 ∧
    ((items t).1 = [] → (onScanResults m t).1 = m) ∧
    (onScanResults m t).2 = (items t).2 := by
  unfold onScanResults
  cases h : (items t).1 with
  | nil => simp [h]
  | cons a l => simp [h, appendDefaults_eq]

/-- C9. `onScanResults` appends only: with `L` the list drained from the scan
thread, the items afterwards are the old items followed by `L`, the active
variants the old ones followed by one zero per element of `L`, the catalog is
unchanged when `L` is empty, and the thread is left as `items()` leaves it. -/
theorem onScanResults_appends (m : AircraftItemModel) (t : AircraftScanThread) :
    (onScanResults m t).1.m_items = m.m_items ++ (items t).1 ∧
    (onScanResults m t).1.m_activeVariant
      = m.m_activeVariant ++ List.replicate (items t).1.length 0 ∧
    ((items t).1 = [] → (onScanResults m t).1 = m) ∧
    (onScanResults m t).2 = (items t).2 :=
  onScanResults_eq m t

theorem onScanResults_lengths (m : AircraftItemModel) (t : AircraftScanThread)
    (h : m.m_activeVariant.length = m.m_items.length) :
    (onScanResults m t).1.m_activeVariant.length = (onScanResults m t).1.m_items.length := by
  obtain ⟨h1, h2, _, _⟩ := onScanResults_eq m t
  rw [h1, h2]; simp [h]

theorem setData_lengths (m : AircraftItemModel) (row value role : Int) (r : AircraftItemModel × Bool)
    (hr : setData m row value role = some r)
    (h : m.m_activeVariant.length = m.m_items.length) :
    r.1.m_activeVariant.length = r.1.m_items.length := by
  unfold setData at hr
  split at hr
  · split at hr
    · injection hr with hr; subst hr; simpa using h
    · exact Option.noConfusion hr
  · injection hr with hr; subst hr; exact h

theorem applyCalls_lengths (calls : List ModelCall) (m0 m : AircraftItemModel)
    (h0 : m0.m_activeVariant.length = m0.m_items.length)
    (h : applyCalls calls m0 = some m) :
    m.m_activeVariant.length = m.m_items.length := by
  induction calls generalizing m0 with
  | nil => simp [applyCalls] at h; subst h; exact h0
  | cons c rest ih =>
    cases c with
    | scanResults t =>
      simp only [applyCalls] at h
      exact ih _ (onScanResults_lengths m0 t h0) h
    | setData row value role =>
      simp only [applyCalls] at h
      cases hs : setData m0 row value role with
      | none => rw [hs] at h; exact Option.noConfusion h
      | some r =>
        rw [hs] at h
        exact ih _ (setData_lengths m0 row value role r hs h0) h

theorem setData_defined (m : AircraftItemModel) (row value role : Int)
    (h : m.m_activeVariant.length = m.m_items.length)
    (h0 : 0 ≤ row) (h1 : row.toNat < m.rowCount) :
    (setData m row value role).isSome = true := by
  unfold setData
  unfold AircraftItemModel.rowCount at h1
  split
  · rw [if_pos ⟨h0, by rw [h]; exact h1⟩]; rfl
  · rfl

/-- C10. Catalog invariant: after any sequence of `onScanResults` and `setData`
calls on the empty catalog, the active-variant list is as long as the record
list; and in the catalog so reached `setData` is defined on every row. -/
theorem catalog_lengths_agree (calls : List ModelCall) (m : AircraftItemModel)
    (h : applyCalls calls AircraftItemModel.init = some m) :
    m.m_activeVariant.length = m.m_items.length ∧
    ∀ row value role : Int, 0 ≤ row → row.toNat < m.rowCount →
      (setData m row value role).isSome = true :=
  ⟨applyCalls_lengths calls AircraftItemModel.init m rfl h,
   fun row value role h0 h1 =>
     setData_defined m row value role (applyCalls_lengths calls AircraftItemModel.init m rfl h)
       h0 h1⟩

/-- C10, witness: two batches with a variant selection between them. -/
theorem catalog_lengths_agree_witness :
    applyCalls
      [ModelCall.scanResults (publish (AircraftScanThread.init [] Heap.init []) [1, 2]),
       ModelCall.setData 1 1 AircraftVariantRole,
       ModelCall.scanResults (publish (AircraftScanThread.init [] Heap.init []) [3])]
      AircraftItemModel.init = some { m_items := [1, 2, 3], m_activeVariant := [0, 1, 0] } ∧
    ([0, 1, 0] : List Nat).length = ([1, 2, 3] : List Nat).length :=
  ⟨by decide,
   (catalog_lengths_agree
     [ModelCall.scanResults (publish (AircraftScanThread.init [] Heap.init []) [1, 2]),
      ModelCall.setData 1 1 AircraftVariantRole,
      ModelCall.scanResults (publish (AircraftScanThread.init [] Heap.init []) [3])]
     { m_items := [1, 2, 3], m_activeVariant := [0, 1, 0] } (by decide)).1⟩

/-! ### version tag -/

/-- C5. When the version tag read from the stored payload is not
`CACHE_VERSION`, `readCache` leaves the thread as it is, whatever follows the
tag: `m_cachedItems` stays the empty map of the constructor. -/
theorem readCache_version_mismatch (env : Env) (s : AircraftScanThread)
    (h : (readWord s.settings).1 ≠ wordOfInt CACHE_VERSION) :
    readCache env s = s ∧
    (s.m_cachedItems = QMap.empty → (readCache env s).m_cachedItems = QMap.empty) := by
  have : readCache env s = s := by
    unfold readCache
    by_cases he : s.settings.isEmpty = true
    · simp [he]
    · simp [he, h]
  exact ⟨this, fun h0 => by rw [this]; exact h0⟩

/-- C5, witness: a payload of version 1. -/
theorem readCache_version_mismatch_witness :
    (readWord [Datum.word 1, Datum.word 1, Datum.str (some "/r/a/p-set.xml")]).1
        ≠ wordOfInt CACHE_VERSION ∧
    (readCache ⟨fun _ => [], fun _ => [], fun _ => none, fun _ => true, fun _ => none, none⟩
      (AircraftScanThread.init ["/r"] Heap.init
        [Datum.word 1, Datum.word 1, Datum.str (some "/r/a/p-set.xml")])).m_cachedItems
      = QMap.empty :=
  ⟨by decide, (readCache_version_mismatch _ _ (by decide)).2 rfl⟩

theorem SameFrame.refl (s : AircraftScanThread) : SameFrame s s :=
  ⟨rfl, rfl, rfl, rfl, le_refl _⟩

theorem SameFrame.trans {a b c : AircraftScanThread} (h1 : SameFrame a b) (h2 : SameFrame b c) :
    SameFrame a c :=
  ⟨h2.1.trans h1.1, h2.2.1.trans h1.2.1, h2.2.2.1.trans h1.2.2.1,
   h2.2.2.2.1.trans h1.2.2.2.1, le_trans h1.2.2.2.2 h2.2.2.2.2⟩

theorem loadItem_frame {env : Env} {s s1 : AircraftScanThread} {f : QString} {p : Nat}
    (h : loadItem env s f = some (p, s1)) : SameFrame s s1 ∧ s1.m_items = s.m_items := by
  unfold loadItem at h
  split at h
  · injection h with h; injection h with _ h; subst h; exact ⟨SameFrame.refl _, rfl⟩
  · split at h
    · exact Option.noConfusion h
    · injection h with h; injection h with _ h; subst h
      exact ⟨⟨rfl, rfl, rfl, rfl, le_refl _⟩, rfl⟩

theorem scanSetXml_frame (env : Env) (fs : List QString) (s : AircraftScanThread)
    (l : SubdirLocals) :
    SameFrame s (scanSetXml env fs s l).1 ∧ (scanSetXml env fs s l).1.m_items = s.m_items := by
  induction fs generalizing s l with
  | nil => exact ⟨SameFrame.refl _, rfl⟩
  | cons f rest ih =>
    simp only [scanSetXml]
    cases hl : loadItem env s f with
    | none => exact ih s l
    | some r =>
      obtain ⟨p, s1⟩ := r
      have h1 := loadItem_frame hl
      have h2 : SameFrame s1 (afterRead (fileItem s1 l f p).1) :=
        ⟨rfl, rfl, rfl, rfl, Nat.le_succ _⟩
      have h2i : (afterRead (fileItem s1 l f p).1).m_items = s1.m_items := rfl
      simp only []
      split
      · exact ⟨h1.1.trans h2, h2i.trans h1.2⟩
      · have h3 := ih (afterRead (fileItem s1 l f p).1) (fileItem s1 l f p).2
        exact ⟨(h1.1.trans h2).trans h3.1, h3.2.trans (h2i.trans h1.2)⟩

theorem readCacheItems_frame (env : Env) (n : Nat) (ds : QByteArray) (s : AircraftScanThread) :
    (readCacheItems env n ds s).m_dirs = s.m_dirs ∧
    (readCacheItems env n ds s).settings = s.settings ∧
    (readCacheItems env n ds s).cacheWrites = s.cacheWrites ∧
    (readCacheItems env n ds s).doneReads = s.doneReads ∧
    (readCacheItems env n ds s).m_items = s.m_items ∧
    (readCacheItems env n ds s).m_nextCache = s.m_nextCache := by
  induction n generalizing ds s with
  | zero => exact ⟨rfl, rfl, rfl, rfl, rfl, rfl⟩
  | succ n ih =>
    simp only [readCacheItems]
    split
    · exact ih _ _
    · exact ih _ _

theorem readCache_frame (env : Env) (s : AircraftScanThread) :
    (readCache env s).m_dirs = s.m_dirs ∧
    (readCache env s).settings = s.settings ∧
    (readCache env s).cacheWrites = s.cacheWrites ∧
    (readCache env s).doneReads = s.doneReads ∧
    (readCache env s).m_items = s.m_items ∧
    (readCache env s).m_nextCache = s.m_nextCache := by
  unfold readCache
  simp only []
  split
  · exact ⟨rfl, rfl, rfl, rfl, rfl, rfl⟩
  · split
    · exact ⟨rfl, rfl, rfl, rfl, rfl, rfl⟩
    · exact readCacheItems_frame env _ _ s

@[simp] theorem Heap.get_alloc (h : Heap) (item : AircraftItem) (p : Nat) :
    (h.alloc item).2.get p = if p = h.next then item else h.get p := by
  unfold Heap.alloc Heap.get
  by_cases hp : p = h.next
  · subst hp; simp
  · simp [Function.update_noteq hp, hp]

@[simp] theorem Heap.next_alloc (h : Heap) (item : AircraftItem) :
    (h.alloc item).2.next = h.next + 1 := rfl

@[simp] theorem Heap.fst_alloc (h : Heap) (item : AircraftItem) : (h.alloc item).1 = h.next := rfl

@[simp] theorem Heap.deleted_alloc (h : Heap) (item : AircraftItem) :
    (h.alloc item).2.deleted = h.deleted := rfl

@[simp] theorem Heap.get_delete (h : Heap) (q p : Nat) : (h.delete q).get p = h.get p := rfl

@[simp] theorem Heap.next_delete (h : Heap) (q : Nat) : (h.delete q).next = h.next := rfl

@[simp] theorem Heap.get_access (h : Heap) (q p : Nat) : (h.access q).get p = h.get p := rfl

@[simp] theorem Heap.next_access (h : Heap) (q : Nat) : (h.access q).next = h.next := rfl

@[simp] theorem Heap.deleted_access (h : Heap) (q : Nat) : (h.access q).deleted = h.deleted := rfl

@[simp] theorem Heap.deleted_delete (h : Heap) (q : Nat) :
    (h.delete q).deleted = q :: h.deleted := rfl

@[simp] theorem Heap.undefined_access (h : Heap) (q : Nat) :
    (h.access q).undefined = (h.undefined || decide (q ∈ h.deleted)) := rfl

@[simp] theorem Heap.undefined_delete (h : Heap) (q : Nat) :
    (h.delete q).undefined = (h.undefined || decide (q ∈ h.deleted)) := rfl

@[simp] theorem Heap.undefined_alloc (h : Heap) (item : AircraftItem) :
    (h.alloc item).2.undefined = h.undefined := rfl

theorem Heap.foldl_access (ps : List Nat) (h : Heap) :
    (ps.foldl Heap.access h).cell = h.cell ∧ (ps.foldl Heap.access h).next = h.next ∧
    (ps.foldl Heap.access h).deleted = h.deleted := by
  induction ps generalizing h with
  | nil => exact ⟨rfl, rfl, rfl⟩
  | cons p rest ih =>
    rw [List.foldl_cons]
    obtain ⟨i1, i2, i3⟩ := ih (h.access p)
    exact ⟨i1, i2, i3⟩

@[simp] theorem writeCache_get (s : AircraftScanThread) (p : Nat) :
    (writeCache s).heap.get p = s.heap.get p := by
  show (s.m_nextCache.values.foldl Heap.access s.heap).cell p = s.heap.cell p
  rw [(Heap.foldl_access _ _).1]

@[simp] theorem writeCache_deleted (s : AircraftScanThread) :
    (writeCache s).heap.deleted = s.heap.deleted := (Heap.foldl_access _ _).2.2

@[simp] theorem writeCache_m_items (s : AircraftScanThread) :
    (writeCache s).m_items = s.m_items := rfl

/-! ### the stream -/

theorem intOfWord_wordOfInt (i : Int) (h : IsInt32 i) : intOfWord (wordOfInt i % 4294967296) = i := by
  unfold IsInt32 at h
  unfold intOfWord wordOfInt
  split <;> omega

theorem fromDataStream_toDataStream (item : AircraftItem) (rest : QByteArray)
    (h : item.ratingsInt32) :
    AircraftItem.fromDataStream (item.toDataStream ++ rest)
      = ({ item with variants := [] }, rest) := by
  obtain ⟨h1, h2, h3, h4⟩ := h
  simp [AircraftItem.fromDataStream, AircraftItem.toDataStream, readString, readNullableString,
    readInt, readWord, readDateTime, intOfWord_wordOfInt _ h1, intOfWord_wordOfInt _ h2,
    intOfWord_wordOfInt _ h3, intOfWord_wordOfInt _ h4]

theorem invalid_iff (env : Env) (item : AircraftItem) :
    (!env.fileExists item.path || env.lastModified item.path != item.pathModTime)
      = !validEntry env item := by
  unfold validEntry
  cases env.fileExists item.path <;> simp [bne]

/-! ### readCache -/

theorem readCacheItems_spec (env : Env) (n : Nat) (ds : QByteArray) (s : AircraftScanThread) :
    s.heap.next ≤ (readCacheItems env n ds s).heap.next ∧
    (∀ p, p < s.heap.next → (readCacheItems env n ds s).heap.get p = s.heap.get p) ∧
    (∀ k p, (readCacheItems env n ds s).m_cachedItems.lookup k = some p →
      s.m_cachedItems.lookup k = some p ∨
      (s.heap.next ≤ p ∧ (readCacheItems env n ds s).heap.get p ∈ storedEntries n ds ∧
        validEntry env ((readCacheItems env n ds s).heap.get p) = true ∧
        ((readCacheItems env n ds s).heap.get p).path = k)) ∧
    (∀ k, (readCacheItems env n ds s).m_cachedItems.contains k = true ↔
      (s.m_cachedItems.contains k = true ∨
        ∃ e ∈ storedEntries n ds, e.path = k ∧ validEntry env e = true)) := by
  induction n generalizing ds s with
  | zero =>
    refine ⟨le_refl _, fun _ _ => rfl, fun k p h => Or.inl h, fun k => ?_⟩
    simp [readCacheItems, storedEntries]
  | succ n ih =>
    simp only [readCacheItems, storedEntries, invalid_iff]
    generalize hrd : AircraftItem.fromDataStream ds = rd
    obtain ⟨e, ds'⟩ := rd
    simp only []
    by_cases hv : validEntry env e = true
    · simp only [hv, Bool.not_true, Bool.false_eq_true, if_false, Heap.fst_alloc]
      obtain ⟨ha, hb, hc, hd⟩ := ih ds'
        { s with heap := (s.heap.alloc e).2,
                 m_cachedItems := s.m_cachedItems.insert e.path (s.heap.alloc e).1 }
      simp only [Heap.next_alloc, Heap.get_alloc, Heap.fst_alloc] at ha hb hc hd
      refine ⟨by omega, ?_, ?_, ?_⟩
      · intro p hp
        rw [hb p (by omega)]; simp [Nat.ne_of_lt hp]
      · intro k p hk
        rcases hc k p hk with h | ⟨h1, h2, h3, h4⟩
        · rw [QMap.lookup_insert] at h
          by_cases hek : e.path = k
          · rw [if_pos hek] at h
            injection h with h
            subst h
            have hg := hb s.heap.next (by omega)
            simp only [if_true] at hg
            refine Or.inr ⟨le_refl _, ?_, ?_, ?_⟩
            · rw [hg]; exact List.mem_cons_self _ _
            · rw [hg]; exact hv
            · rw [hg]; exact hek
          · rw [if_neg hek] at h; exact Or.inl h
        · exact Or.inr ⟨by omega, List.mem_cons_of_mem _ h2, h3, h4⟩
      · intro k
        rw [hd k]
        simp only [QMap.contains, QMap.lookup_insert]
        by_cases hek : e.path = k
        · simp [hek, hv]
        · simp [hek]
    · have hv' : validEntry env e = false := by simpa using hv
      simp only [hv', Bool.not_false, if_true, Heap.fst_alloc]
      obtain ⟨ha, hb, hc, hd⟩ := ih ds'
        { s with heap := (s.heap.alloc e).2.delete (s.heap.alloc e).1 }
      simp only [Heap.next_alloc, Heap.get_alloc, Heap.fst_alloc, Heap.next_delete,
        Heap.get_delete] at ha hb hc hd
      refine ⟨by omega, ?_, ?_, ?_⟩
      · intro p hp
        rw [hb p (by omega)]; simp [Nat.ne_of_lt hp]
      · intro k p hk
        rcases hc k p hk with h | ⟨h1, h2, h3, h4⟩
        · exact Or.inl h
        · exact Or.inr ⟨by omega, List.mem_cons_of_mem _ h2, h3, h4⟩
      · intro k
        rw [hd k]
        constructor
        · rintro (h | ⟨x, hx, h1, h2⟩)
          · exact Or.inl h
          · exact Or.inr ⟨x, List.mem_cons_of_mem _ hx, h1, h2⟩
        · rintro (h | ⟨x, hx, h1, h2⟩)
          · exact Or.inl h
          · rcases List.mem_cons.mp hx with hx | hx
            · subst hx; rw [hv'] at h2; exact Bool.noConfusion h2
            · exact Or.inr ⟨x, hx, h1, h2⟩

theorem lookupEntries_map {V W : Type} (f : V → W) (k : QString) (l : List (QString × V)) :
    QMap.lookupEntries k (l.map (fun e => (e.1, f e.2))) = (QMap.lookupEntries k l).map f := by
  induction l with
  | nil => rfl
  | cons e rest ih =>
    obtain ⟨k1, v1⟩ := e
    simp only [List.map_cons, QMap.lookupEntries]
    by_cases h : k1 = k
    · simp [h]
    · simp [h, ih]

theorem readCacheItems_sorted (env : Env) (its : List AircraftItem) (rest : QByteArray)
    (s : AircraftScanThread)
    (hvalid : ∀ it ∈ its, validEntry env it = true)
    (hint : ∀ it ∈ its, it.ratingsInt32)
    (hsorted : its.Pairwise (fun a b => qLess a.path b.path = true))
    (hlt : ∀ e ∈ s.m_cachedItems.entries, ∀ it ∈ its, qLess e.1 it.path = true)
    (hwf : ∀ e ∈ s.m_cachedItems.entries, e.2 < s.heap.next) :
    (readCacheItems env its.length ((its.map AircraftItem.toDataStream).flatten ++ rest)
        s).m_cachedItems.entries.map
      (fun e => (e.1, ((readCacheItems env its.length
        ((its.map AircraftItem.toDataStream).flatten ++ rest) s).heap.get e.2).stored))
    = s.m_cachedItems.entries.map (fun e => (e.1, (s.heap.get e.2).stored))
      ++ its.map (fun it => (it.path, it.stored)) := by
  induction its generalizing s with
  | nil => simp [readCacheItems]
  | cons it tl ih =>
    have hv := hvalid it (List.mem_cons_self _ _)
    have hi := hint it (List.mem_cons_self _ _)
    simp only [List.length_cons, List.map_cons, List.flatten_cons, List.append_assoc,
      readCacheItems, invalid_iff, fromDataStream_toDataStream it _ hi]
    have hv' : validEntry env { it with variants := [] } = true := hv
    simp only [hv, hv', Bool.not_true, Bool.false_eq_true, if_false, Heap.fst_alloc]
    rw [ih]
    · have hins : (s.m_cachedItems.insert it.path s.heap.next).entries
          = s.m_cachedItems.entries ++ [(it.path, s.heap.next)] :=
        QMap.insertEntries_of_lt _ _ _ (fun e he => hlt e he it (List.mem_cons_self _ _))
      simp only [hins, List.map_append, List.map_cons, List.map_nil, Heap.get_alloc, if_true,
        List.append_assoc, List.singleton_append]
      congr 1
      · apply List.map_congr_left
        intro e he
        have := hwf e he
        simp [Nat.ne_of_lt this]
    · exact fun x hx => hvalid x (List.mem_cons_of_mem _ hx)
    · exact fun x hx => hint x (List.mem_cons_of_mem _ hx)
    · exact (List.pairwise_cons.mp hsorted).2
    · intro e he x hx
      rcases QMap.mem_entries_insert he with h | h
      · rw [h]; exact (List.pairwise_cons.mp hsorted).1 x hx
      · exact hlt e h x (List.mem_cons_of_mem _ hx)
    · intro e he
      rcases QMap.mem_entries_insert he with h | h
      · rw [h]; simp
      · have := hwf e h
        simp only [Heap.next_alloc]; omega

/-- C3. Cache round trip: let the map `m_nextCache` of a thread `w` hold each
record under its own path, with ratings that are C++ `int`s and fewer than
2^32 entries, and let every file named in it exist with the recorded
modification time. Then `readCache`, run by a thread with an empty
`m_cachedItems` on the bytes that `writeCache` stores for `w`, yields a map
with the same paths in the same order and, under each path, a record with
the same path, description, authors, variant-of, ratings and modification
time; the same holds looked up path by path. -/
theorem cache_round_trip (env : Env) (w r0 : AircraftScanThread)
    (hsorted : w.m_nextCache.Sorted)
    (hcount : w.m_nextCache.count < 4294967296)
    (hown : ∀ e ∈ w.m_nextCache.entries, (w.heap.get e.2).path = e.1)
    (hint : ∀ e ∈ w.m_nextCache.entries, (w.heap.get e.2).ratingsInt32)
    (hvalid : ∀ e ∈ w.m_nextCache.entries, validEntry env (w.heap.get e.2) = true)
    (hempty : r0.m_cachedItems = QMap.empty)
    (hbytes : r0.settings = (writeCache w).settings) :
    (readCache env r0).m_cachedItems.entries.map
        (fun e => (e.1, ((readCache env r0).heap.get e.2).stored))
      = w.m_nextCache.entries.map (fun e => (e.1, (w.heap.get e.2).stored)) ∧
    ∀ k, ((readCache env r0).m_cachedItems.lookup k).map
          (fun p => ((readCache env r0).heap.get p).stored)
      = (w.m_nextCache.lookup k).map (fun p => (w.heap.get p).stored) := by
  have hlen : (w.m_nextCache.values.map (fun item => w.heap.get item)).length
      = w.m_nextCache.count := by simp [QMap.values, QMap.count]
  have hread : readCache env r0
      = readCacheItems env (w.m_nextCache.values.map (fun item => w.heap.get item)).length
          (((w.m_nextCache.values.map (fun item => w.heap.get item)).map
              AircraftItem.toDataStream).flatten ++ []) r0 := by
    have hc : w.m_nextCache.count % 4294967296 % 4294967296 = w.m_nextCache.count := by omega
    have hv : (wordOfInt CACHE_VERSION % 4294967296 != wordOfInt CACHE_VERSION) = false := by
      decide
    unfold readCache
    simp only [hbytes, writeCache, cacheBytes, List.isEmpty_cons, Bool.false_eq_true, if_false,
      readWord, hv, hc, hlen, List.append_nil, List.map_map]
    rfl
  have hmain := readCacheItems_sorted env (w.m_nextCache.values.map (fun item => w.heap.get item))
    [] r0
    (by
      intro it hit
      obtain ⟨p, hp, rfl⟩ := List.mem_map.mp hit
      obtain ⟨e, he, rfl⟩ := List.mem_map.mp hp
      exact hvalid e he)
    (by
      intro it hit
      obtain ⟨p, hp, rfl⟩ := List.mem_map.mp hit
      obtain ⟨e, he, rfl⟩ := List.mem_map.mp hp
      exact hint e he)
    (by
      unfold QMap.values
      rw [List.map_map, List.pairwise_map]
      refine List.Pairwise.imp_of_mem ?_ hsorted
      intro a b ha hb hab
      simp only [Function.comp]
      rw [hown a ha, hown b hb]; exact hab)
    (by rw [hempty]; intro e he; simp [QMap.empty] at he)
    (by rw [hempty]; intro e he; simp [QMap.empty] at he)
  rw [← hread] at hmain
  have hfirst : (readCache env r0).m_cachedItems.entries.map
        (fun e => (e.1, ((readCache env r0).heap.get e.2).stored))
      = w.m_nextCache.entries.map (fun e => (e.1, (w.heap.get e.2).stored)) := by
    rw [hmain, hempty]
    simp only [QMap.empty, List.map_nil, List.nil_append, QMap.values, List.map_map]
    apply List.map_congr_left
    intro e he
    simp only [Function.comp]
    rw [hown e he]
  refine ⟨hfirst, fun k => ?_⟩
  have h1 := lookupEntries_map (fun p => ((readCache env r0).heap.get p).stored) k
    (readCache env r0).m_cachedItems.entries
  have h2 := lookupEntries_map (fun p => (w.heap.get p).stored) k w.m_nextCache.entries
  unfold QMap.lookup
  rw [← h1, ← h2, hfirst]

/-- C4. Cache entry validation: when the stored version tag is the current
one, `m_cachedItems` after `readCache` contains a path exactly when a stored
entry of that path passes the validation (its file exists and has the recorded
modification time); every record it keeps is a stored entry that passes the
validation, kept under its own path; a stored entry that is the only one of
its path is kept exactly when it passes; and a path the map does not contain
is loaded by the scan through the constructor, not from the cache. -/
theorem readCache_validates (env : Env) (s : AircraftScanThread)
    (hver : (readWord s.settings).1 = wordOfInt CACHE_VERSION)
    (hempty : s.m_cachedItems = QMap.empty) :
    (∀ k, (readCache env s).m_cachedItems.contains k = true ↔
      ∃ e ∈ storedEntries (readWord (readWord s.settings).2).1 (readWord (readWord s.settings).2).2,
        e.path = k ∧ validEntry env e = true) ∧
    (∀ k p, (readCache env s).m_cachedItems.lookup k = some p →
      (readCache env s).heap.get p
          ∈ storedEntries (readWord (readWord s.settings).2).1 (readWord (readWord s.settings).2).2 ∧
        validEntry env ((readCache env s).heap.get p) = true ∧
        ((readCache env s).heap.get p).path = k) ∧
    (∀ e ∈ storedEntries (readWord (readWord s.settings).2).1 (readWord (readWord s.settings).2).2,
      (∀ e' ∈ storedEntries (readWord (readWord s.settings).2).1
          (readWord (readWord s.settings).2).2, e'.path = e.path → e' = e) →
      (validEntry env e = true ↔
        ∃ p, (readCache env s).m_cachedItems.lookup e.path = some p ∧
          (readCache env s).heap.get p = e)) ∧
    (∀ k, (readCache env s).m_cachedItems.contains k = false →
      recordOf env (readCache env s) k = AircraftItem.construct env k) := by
  have hne : s.settings.isEmpty = false := by
    cases hs : s.settings with
    | nil => rw [hs] at hver; exact absurd hver (by decide)
    | cons a l => rfl
  have hread : readCache env s
      = readCacheItems env (readWord (readWord s.settings).2).1
          (readWord (readWord s.settings).2).2 s := by
    unfold readCache
    simp [hne, hver]
  obtain ⟨_, _, hc, hd⟩ := readCacheItems_spec env (readWord (readWord s.settings).2).1
    (readWord (readWord s.settings).2).2 s
  rw [← hread] at hc hd
  have hnone : ∀ k, s.m_cachedItems.lookup k = none := by
    intro k; rw [hempty]; rfl
  have h1 : ∀ k, (readCache env s).m_cachedItems.contains k = true ↔
      ∃ e ∈ storedEntries (readWord (readWord s.settings).2).1 (readWord (readWord s.settings).2).2,
        e.path = k ∧ validEntry env e = true := by
    intro k
    rw [hd k]
    simp [QMap.contains, hnone]
  have h2 : ∀ k p, (readCache env s).m_cachedItems.lookup k = some p →
      (readCache env s).heap.get p
          ∈ storedEntries (readWord (readWord s.settings).2).1 (readWord (readWord s.settings).2).2 ∧
        validEntry env ((readCache env s).heap.get p) = true ∧
        ((readCache env s).heap.get p).path = k := by
    intro k p hk
    rcases hc k p hk with h | ⟨_, h2, h3, h4⟩
    · rw [hnone] at h; exact Option.noConfusion h
    · exact ⟨h2, h3, h4⟩
  refine ⟨h1, h2, ?_, ?_⟩
  · intro e he huniq
    constructor
    · intro hv
      obtain ⟨p, hp⟩ := QMap.contains_iff.mp ((h1 e.path).mpr ⟨e, he, rfl, hv⟩)
      obtain ⟨hm, _, hpath⟩ := h2 e.path p hp
      exact ⟨p, hp, huniq _ hm hpath⟩
    · rintro ⟨p, hp, hget⟩
      have := (h2 e.path p hp).2.1
      rw [hget] at this; exact this
  · intro k hk
    unfold recordOf
    rw [hk]; simp

theorem Heap.get_appendVariant (h : Heap) (q i p : Nat) :
    (h.appendVariant q i).get p
      = if p = q then { (h.get q) with variants := (h.get q).variants ++ [i] } else h.get p := by
  unfold Heap.appendVariant Heap.get
  by_cases hp : p = q
  · subst hp; simp
  · simp [Function.update_noteq hp, hp]

@[simp] theorem Heap.next_appendVariant (h : Heap) (q i : Nat) :
    (h.appendVariant q i).next = h.next := rfl

@[simp] theorem Heap.deleted_appendVariant (h : Heap) (q i : Nat) :
    (h.appendVariant q i).deleted = h.deleted := rfl

theorem construct_path {env : Env} {f : QString} {item : AircraftItem}
    (h : AircraftItem.construct env f = some item) : item.path = f ∧ item.variants = [] := by
  unfold AircraftItem.construct at h
  split at h
  · exact Option.noConfusion h
  · split at h
    · exact Option.noConfusion h
    · injection h with h; subst h; exact ⟨rfl, rfl⟩

theorem recordOf_path {env : Env} {s : AircraftScanThread} (hwf : CacheWF s) {f : QString}
    {r : AircraftItem} (h : recordOf env s f = some r) : r.path = f := by
  unfold recordOf at h
  split at h
  · rename_i hc
    obtain ⟨p, hp⟩ := QMap.contains_iff.mp hc
    rw [QMap.value_of_lookup hp] at h
    injection h with h; subst h
    exact (hwf f p hp).2
  · exact (construct_path h).1

/-- What one successful load does. -/
theorem loadItem_spec {env : Env} {s s1 : AircraftScanThread} {f : QString} {p : Nat}
    (hwf : CacheWF s) (h : loadItem env s f = some (p, s1)) :
    s1.m_cachedItems = s.m_cachedItems ∧ s1.m_nextCache = s.m_nextCache ∧
    s1.m_items = s.m_items ∧ s1.heap.deleted = s.heap.deleted ∧
    s.heap.next ≤ s1.heap.next ∧ p < s1.heap.next ∧
    (∀ q, q < s.heap.next → s1.heap.get q = s.heap.get q) ∧
    (∀ q, s.heap.next ≤ q → q < s1.heap.next → (s1.heap.get q).variants = []) ∧
    recordOf env s f = some (s1.heap.get p) := by
  unfold loadItem at h
  by_cases hc : s.m_cachedItems.contains f = true
  · rw [if_pos hc] at h
    injection h with h; injection h with h1 h2; subst h1; subst h2
    obtain ⟨p, hp⟩ := QMap.contains_iff.mp hc
    refine ⟨rfl, rfl, rfl, rfl, le_refl _, ?_, fun _ _ => rfl, ?_, ?_⟩
    · rw [QMap.value_of_lookup hp]; exact (hwf f p hp).1
    · intro q h1 h2; omega
    · unfold recordOf; rw [if_pos hc]
  · rw [if_neg hc] at h
    cases hcon : AircraftItem.construct env f with
    | none => rw [hcon] at h; exact Option.noConfusion h
    | some item =>
      rw [hcon] at h
      injection h with h; injection h with h1 h2; subst h1; subst h2
      refine ⟨rfl, rfl, rfl, rfl, ?_, ?_, ?_, ?_, ?_⟩
      · simp
      · simp
      · intro q hq; simp [Nat.ne_of_lt hq]
      · intro q h1 h2
        simp only [Heap.next_alloc] at h2
        have : q = s.heap.next := by omega
        simp [this, (construct_path hcon).2]
      · unfold recordOf; rw [if_neg hc, hcon]; simp

theorem loadItem_none {env : Env} {s : AircraftScanThread} {f : QString}
    (h : loadItem env s f = none) : recordOf env s f = none := by
  unfold loadItem at h
  unfold recordOf
  split at h
  · exact Option.noConfusion h
  · rename_i hc
    rw [if_neg hc]
    split at h
    · assumption
    · exact Option.noConfusion h

/-- The records loaded for the files do not depend on how far the scan of the
directory has come. -/
theorem recordOf_stable {env : Env} {s s2 : AircraftScanThread} (hwf : CacheWF s)
    (hc : s2.m_cachedItems = s.m_cachedItems)
    (hg : ∀ q, q < s.heap.next → s2.heap.get q = s.heap.get q) (f : QString) :
    recordOf env s2 f = recordOf env s f := by
  unfold recordOf
  rw [hc]
  by_cases hcf : s.m_cachedItems.contains f = true
  · rw [if_pos hcf, if_pos hcf]
    obtain ⟨p, hp⟩ := QMap.contains_iff.mp hcf
    rw [QMap.value_of_lookup hp, hg p (hwf f p hp).1]
  · rw [if_neg hcf, if_neg hcf]

theorem CacheWF_of_ext {s s2 : AircraftScanThread} (hwf : CacheWF s)
    (hc : s2.m_cachedItems = s.m_cachedItems) (hn : s.heap.next ≤ s2.heap.next)
    (hg : ∀ q, q < s.heap.next → (s2.heap.get q).path = (s.heap.get q).path) : CacheWF s2 := by
  intro k p hp
  rw [hc] at hp
  obtain ⟨h1, h2⟩ := hwf k p hp
  exact ⟨lt_of_lt_of_le h1 hn, by rw [hg p h1]; exact h2⟩

theorem scanSetXml_cons_none {env : Env} {f : QString} {rest : List QString}
    {s : AircraftScanThread} {l : SubdirLocals} (h : loadItem env s f = none) :
    scanSetXml env (f :: rest) s l = scanSetXml env rest s l := by
  simp only [scanSetXml, h]

theorem scanSetXml_cons_some {env : Env} {f : QString} {rest : List QString}
    {s s1 : AircraftScanThread} {l : SubdirLocals} {p : Nat}
    (h : loadItem env s f = some (p, s1)) :
    scanSetXml env (f :: rest) s l
      = if m_done env (fileItem s1 l f p).1 then
          (afterRead (fileItem s1 l f p).1, (fileItem s1 l f p).2, true)
        else scanSetXml env rest (afterRead (fileItem s1 l f p).1) (fileItem s1 l f p).2 := by
  simp only [scanSetXml, h]

/-- The heap after the file loop: old objects untouched, new objects without
variants, nothing deleted. -/
theorem scanSetXml_heap (env : Env) (fs : List QString) (s : AircraftScanThread)
    (l : SubdirLocals) (hwf : CacheWF s) :
    s.heap.next ≤ (scanSetXml env fs s l).1.heap.next ∧
    (∀ q, q < s.heap.next → (scanSetXml env fs s l).1.heap.get q = s.heap.get q) ∧
    (∀ q, s.heap.next ≤ q → q < (scanSetXml env fs s l).1.heap.next →
      ((scanSetXml env fs s l).1.heap.get q).variants = []) ∧
    (scanSetXml env fs s l).1.heap.deleted = s.heap.deleted := by
  induction fs generalizing s l with
  | nil => exact ⟨le_refl _, fun _ _ => rfl, fun q h1 h2 => by simp only [scanSetXml] at h2; omega, rfl⟩
  | cons f rest ih =>
    cases hl : loadItem env s f with
    | none => rw [scanSetXml_cons_none hl]; exact ih s l hwf
    | some r =>
      obtain ⟨p, s1⟩ := r
      obtain ⟨hc, _, _, hdel, hn, hp, hg, hv, _⟩ := loadItem_spec hwf hl
      rw [scanSetXml_cons_some hl]
      have hwf2 : CacheWF (afterRead (fileItem s1 l f p).1) :=
        CacheWF_of_ext hwf hc hn (fun q hq => by
          show (s1.heap.get q).path = _
          rw [hg q hq])
      split
      · exact ⟨hn, hg, hv, hdel⟩
      · obtain ⟨i1, i2, i3, i4⟩ := ih (afterRead (fileItem s1 l f p).1) (fileItem s1 l f p).2 hwf2
        have e1 : (afterRead (fileItem s1 l f p).1).heap = s1.heap.access p := rfl
        rw [e1] at i1 i2 i3 i4
        simp only [Heap.next_access, Heap.get_access, Heap.deleted_access] at i1 i2 i3 i4
        refine ⟨le_trans hn i1, ?_, ?_, i4.trans hdel⟩
        · intro q hq
          rw [i2 q (lt_of_lt_of_le hq hn), hg q hq]
        · intro q h1 h2
          by_cases hq : q < s1.heap.next
          · rw [i2 q hq]; exact hv q h1 hq
          · exact i3 q (by omega) h2

/-- The result of the file loop when it is not left through `return`: one
object per file that loads, in the order of the listing; the variants among
them appended to `variants`, the principals inserted under their base names,
and all of them recorded in `m_nextCache`. -/
theorem scanSetXml_spec (env : Env) (fs : List QString) (s : AircraftScanThread)
    (l : SubdirLocals) (hwf : CacheWF s) (hns : (scanSetXml env fs s l).2.2 = false) :
    ∃ ps : List Nat,
      ps.map (scanSetXml env fs s l).1.heap.get = fs.filterMap (recordOf env s) ∧
      (∀ p ∈ ps, p < (scanSetXml env fs s l).1.heap.next) ∧
      (scanSetXml env fs s l).2.1.variants
        = l.variants
          ++ ps.filter (fun p => ((scanSetXml env fs s l).1.heap.get p).variantOf.isSome) ∧
      (scanSetXml env fs s l).2.1.baseAircraft
        = (ps.filter (fun p => ((scanSetXml env fs s l).1.heap.get p).variantOf.isNone)).foldl
            (fun m p => m.insert ((scanSetXml env fs s l).1.heap.get p).baseName p)
            l.baseAircraft ∧
      (scanSetXml env fs s l).1.m_nextCache
        = ps.foldl (fun m p => m.insert ((scanSetXml env fs s l).1.heap.get p).path p)
            s.m_nextCache := by
  induction fs generalizing s l with
  | nil => exact ⟨[], rfl, fun p hp => by simp at hp, by simp [scanSetXml], rfl, rfl⟩
  | cons f rest ih =>
    cases hl : loadItem env s f with
    | none =>
      rw [scanSetXml_cons_none hl] at hns ⊢
      obtain ⟨ps, h1, h2, h3, h4, h5⟩ := ih s l hwf hns
      refine ⟨ps, ?_, h2, h3, h4, h5⟩
      rw [h1, List.filterMap_cons, loadItem_none hl]
    | some r =>
      obtain ⟨p, s1⟩ := r
      obtain ⟨hc, hnc, _, hdel, hn, hp, hg, hv, hrec⟩ := loadItem_spec hwf hl
      have hwf2 : CacheWF (afterRead (fileItem s1 l f p).1) :=
        CacheWF_of_ext hwf hc hn (fun q hq => by
          show (s1.heap.get q).path = _
          rw [hg q hq])
      have hheap := scanSetXml_heap env rest (afterRead (fileItem s1 l f p).1)
        (fileItem s1 l f p).2 hwf2
      rw [scanSetXml_cons_some hl] at hns ⊢
      by_cases hd : m_done env (fileItem s1 l f p).1 = true
      · rw [if_pos hd] at hns; exact Bool.noConfusion hns
      · rw [if_neg hd] at hns ⊢
        obtain ⟨ps, h1, h2, h3, h4, h5⟩ :=
          ih (afterRead (fileItem s1 l f p).1) (fileItem s1 l f p).2 hwf2 hns
        have e1 : (afterRead (fileItem s1 l f p).1).heap = s1.heap.access p := rfl
        have e2 : (afterRead (fileItem s1 l f p).1).m_cachedItems = s.m_cachedItems := hc
        have hgp : (scanSetXml env rest (afterRead (fileItem s1 l f p).1)
            (fileItem s1 l f p).2).1.heap.get p = s1.heap.get p := by
          have := hheap.2.1 p (by rw [e1]; exact hp)
          rw [this, e1]; rfl
        have hpath : (s1.heap.get p).path = f := recordOf_path hwf hrec
        have e3 : (afterRead (fileItem s1 l f p).1).m_nextCache = s.m_nextCache.insert f p := by
          show s1.m_nextCache.insert f p = _
          rw [hnc]
        have hfv : (fileItem s1 l f p).2.variants
            = if (s1.heap.get p).variantOf.isNone then l.variants else l.variants ++ [p] := by
          unfold fileItem; simp only []; split <;> rfl
        have hfb : (fileItem s1 l f p).2.baseAircraft
            = if (s1.heap.get p).variantOf.isNone then
                l.baseAircraft.insert (s1.heap.get p).baseName p
              else l.baseAircraft := by
          unfold fileItem; simp only []; split <;> rfl
        refine ⟨p :: ps, ?_, ?_, ?_, ?_, ?_⟩
        · rw [List.map_cons, List.filterMap_cons, hrec, hgp, h1]
          congr 1
          apply List.filterMap_congr
          intro x _
          exact recordOf_stable hwf e2 (fun q hq => by rw [e1]; exact hg q hq) x
        · intro q hq
          rcases List.mem_cons.mp hq with h | h
          · subst h
            exact lt_of_lt_of_le (by rw [e1]; exact hp) hheap.1
          · exact h2 q h
        · rw [h3, List.filter_cons, hgp, hfv]
          cases hvo : (s1.heap.get p).variantOf with
          | none => simp
          | some k => simp
        · rw [h4, List.filter_cons, hgp, hfb]
          cases hvo : (s1.heap.get p).variantOf with
          | none => simp [hgp]
          | some k => simp
        · rw [h5, List.foldl_cons, hgp, hpath, e3]

/-- The key under which the binding loop looks a variant up. -/
theorem bindVariants_spec (base : QMap Nat) (vs : List Nat) (h : Heap) :
    (bindVariants base vs h).next = h.next ∧
    ∀ p, ((bindVariants base vs h).get p).stored = (h.get p).stored ∧
      ((bindVariants base vs h).get p).variants
        = (h.get p).variants
          ++ vs.filter (fun v => decide (base.lookup ((h.get v).variantOf.getD "") = some p)) := by
  induction vs generalizing h with
  | nil => exact ⟨rfl, fun p => ⟨rfl, by simp [bindVariants]⟩⟩
  | cons item rest ih =>
    simp only [bindVariants]
    cases hl : base.lookup ((h.get item).variantOf.getD "") with
    | none =>
      have hc : base.contains ((h.get item).variantOf.getD "") = false := by
        unfold QMap.contains; rw [hl]; rfl
      simp only [hc, Bool.not_false, if_true]
      obtain ⟨i1, i2⟩ := ih ((h.access item).delete item)
      refine ⟨i1, fun p => ?_⟩
      obtain ⟨j1, j2⟩ := i2 p
      refine ⟨j1, ?_⟩
      rw [j2]
      simp [List.filter_cons, hl]
    | some q =>
      have hc : base.contains ((h.get item).variantOf.getD "") = true := by
        unfold QMap.contains; rw [hl]; rfl
      have hv : base.value ((h.get item).variantOf.getD "") = q := QMap.value_of_lookup hl
      simp only [hc, Bool.not_true, Bool.false_eq_true, if_false, hv]
      obtain ⟨i1, i2⟩ := ih ((h.access item).appendVariant q item)
      refine ⟨i1, fun p => ?_⟩
      obtain ⟨j1, j2⟩ := i2 p
      have hvo : ∀ v, (((h.access item).appendVariant q item).get v).variantOf
          = (h.get v).variantOf := by
        intro v
        rw [Heap.get_appendVariant]
        simp only [Heap.get_access]
        split
        · rename_i hvq; rw [hvq]
        · rfl
      constructor
      · rw [j1, Heap.get_appendVariant]
        simp only [Heap.get_access]
        split
        · rename_i hpq; rw [hpq]; rfl
        · rfl
      · rw [j2]
        simp only [hvo]
        rw [Heap.get_appendVariant, List.filter_cons, hl]
        simp only [Heap.get_access]
        by_cases hpq : p = q
        · subst hpq; simp
        · have : ¬ (some q = some p) := fun h => hpq (Option.some.inj h).symm
          simp [hpq, this]

theorem foldl_insert_lookup_of_ne (key : Nat → QString) (ps : List Nat) (m : QMap Nat)
    (k : QString) (h : ∀ x ∈ ps, key x ≠ k) :
    (ps.foldl (fun m p => m.insert (key p) p) m).lookup k = m.lookup k := by
  induction ps generalizing m with
  | nil => rfl
  | cons p rest ih =>
    rw [List.foldl_cons, ih _ (fun x hx => h x (List.mem_cons_of_mem _ hx)), QMap.lookup_insert,
      if_neg (h p (List.mem_cons_self _ _))]

theorem foldl_insert_lookup_some (key : Nat → QString) (ps : List Nat) (m : QMap Nat)
    (k : QString) (q : Nat)
    (h : (ps.foldl (fun m p => m.insert (key p) p) m).lookup k = some q) :
    (q ∈ ps ∧ key q = k) ∨ m.lookup k = some q := by
  induction ps generalizing m with
  | nil => exact Or.inr h
  | cons p rest ih =>
    rw [List.foldl_cons] at h
    rcases ih _ h with ⟨h1, h2⟩ | h1
    · exact Or.inl ⟨List.mem_cons_of_mem _ h1, h2⟩
    · rw [QMap.lookup_insert] at h1
      by_cases hk : key p = k
      · rw [if_pos hk] at h1
        injection h1 with h1; subst h1
        exact Or.inl ⟨List.mem_cons_self _ _, hk⟩
      · rw [if_neg hk] at h1; exact Or.inr h1

theorem foldl_insert_lookup_mem (key : Nat → QString) (ps : List Nat) (m : QMap Nat)
    (k : QString) (h : ∃ x ∈ ps, key x = k) :
    ∃ q ∈ ps, key q = k ∧ (ps.foldl (fun m p => m.insert (key p) p) m).lookup k = some q := by
  induction ps generalizing m with
  | nil => obtain ⟨x, hx, _⟩ := h; simp at hx
  | cons p rest ih =>
    by_cases hr : ∃ x ∈ rest, key x = k
    · obtain ⟨q, hq, h1, h2⟩ := ih (m.insert (key p) p) hr
      exact ⟨q, List.mem_cons_of_mem _ hq, h1, h2⟩
    · have hne : ∀ x ∈ rest, key x ≠ k := fun x hx hk => hr ⟨x, hx, hk⟩
      obtain ⟨x, hx, hk⟩ := h
      have hp : key p = k := by
        rcases List.mem_cons.mp hx with h | h
        · rw [← h]; exact hk
        · exact absurd hk (hne x h)
      refine ⟨p, List.mem_cons_self _ _, hp, ?_⟩
      rw [List.foldl_cons, foldl_insert_lookup_of_ne key rest _ k hne, QMap.lookup_insert,
        if_pos hp]

theorem foldl_insert_values (key : Nat → QString) (ps : List Nat) (m : QMap Nat) (q : Nat)
    (h : q ∈ (ps.foldl (fun m p => m.insert (key p) p) m).values) : q ∈ ps ∨ q ∈ m.values := by
  induction ps generalizing m with
  | nil => exact Or.inr h
  | cons p rest ih =>
    rw [List.foldl_cons] at h
    rcases ih _ h with h1 | h1
    · exact Or.inl (List.mem_cons_of_mem _ h1)
    · rcases QMap.mem_values_insert h1 with h2 | h2
      · exact Or.inl (by rw [h2]; exact List.mem_cons_self _ _)
      · exact Or.inr h2

/-- Every value of a map is found under some key. -/
theorem QMap.exists_key_of_mem_values {m : QMap Nat} {q : Nat} (h : q ∈ m.values) :
    ∃ k, (k, q) ∈ m.entries := by
  obtain ⟨e, he, rfl⟩ := List.mem_map.mp h
  exact ⟨e.1, he⟩

/-- One subdirectory scanned to its end: the heap `h1` after the file loop,
the objects `ps` loaded for the files in listing order, the map
`baseAircraft` built from the principals among them, and what the binding
loop and the publication make of them. -/
theorem scanSubdir_spec (env : Env) (s : AircraftScanThread) (childDir : QString)
    (hwf : CacheWF s) (hns : (scanSubdir env s childDir).2 = false) :
    ∃ (ps : List Nat) (h1 : Heap) (base : QMap Nat),
      ps.map h1.get = (env.setXmlEntries childDir).filterMap (recordOf env s) ∧
      (∀ p ∈ ps, p < h1.next) ∧
      s.heap.next ≤ h1.next ∧
      (∀ q, q < s.heap.next → h1.get q = s.heap.get q) ∧
      (∀ q, s.heap.next ≤ q → q < h1.next → (h1.get q).variants = []) ∧
      base = (ps.filter (fun p => (h1.get p).variantOf.isNone)).foldl
          (fun m p => m.insert (h1.get p).baseName p) QMap.empty ∧
      (scanSubdir env s childDir).1.m_items = s.m_items ++ base.values ∧
      (scanSubdir env s childDir).1.heap.next = h1.next ∧
      (scanSubdir env s childDir).1.m_cachedItems = s.m_cachedItems ∧
      (scanSubdir env s childDir).1.m_nextCache
        = ps.foldl (fun m p => m.insert (h1.get p).path p) s.m_nextCache ∧
      ∀ p, ((scanSubdir env s childDir).1.heap.get p).stored = (h1.get p).stored ∧
        ((scanSubdir env s childDir).1.heap.get p).variants
          = (h1.get p).variants
            ++ (ps.filter (fun p => (h1.get p).variantOf.isSome)).filter
                (fun v => decide (base.lookup ((h1.get v).variantOf.getD "") = some p)) := by
  have hns' : (scanSetXml env (env.setXmlEntries childDir) s ⟨QMap.empty, []⟩).2.2 = false := by
    unfold scanSubdir at hns
    simp only [] at hns
    by_cases hb : (scanSetXml env (env.setXmlEntries childDir) s ⟨QMap.empty, []⟩).2.2 = true
    · rw [if_pos hb] at hns; exact Bool.noConfusion hns
    · simpa using hb
  obtain ⟨ps, a1, a2, a3, a4, a5⟩ :=
    scanSetXml_spec env (env.setXmlEntries childDir) s ⟨QMap.empty, []⟩ hwf hns'
  obtain ⟨b1, b2, b3, _⟩ :=
    scanSetXml_heap env (env.setXmlEntries childDir) s ⟨QMap.empty, []⟩ hwf
  obtain ⟨c1, c2⟩ := scanSetXml_frame env (env.setXmlEntries childDir) s ⟨QMap.empty, []⟩
  have hres : (scanSubdir env s childDir).1
      = publish
          { (scanSetXml env (env.setXmlEntries childDir) s ⟨QMap.empty, []⟩).1 with
            heap := bindVariants
              (scanSetXml env (env.setXmlEntries childDir) s ⟨QMap.empty, []⟩).2.1.baseAircraft
              (scanSetXml env (env.setXmlEntries childDir) s ⟨QMap.empty, []⟩).2.1.variants
              (scanSetXml env (env.setXmlEntries childDir) s ⟨QMap.empty, []⟩).1.heap }
          (scanSetXml env (env.setXmlEntries childDir) s
            ⟨QMap.empty, []⟩).2.1.baseAircraft.values := by
    unfold scanSubdir
    simp only []
    rw [if_neg (by rw [hns']; exact Bool.false_ne_true)]
  obtain ⟨d1, d2⟩ := bindVariants_spec
    (scanSetXml env (env.setXmlEntries childDir) s ⟨QMap.empty, []⟩).2.1.baseAircraft
    (scanSetXml env (env.setXmlEntries childDir) s ⟨QMap.empty, []⟩).2.1.variants
    (scanSetXml env (env.setXmlEntries childDir) s ⟨QMap.empty, []⟩).1.heap
  refine ⟨ps, (scanSetXml env (env.setXmlEntries childDir) s ⟨QMap.empty, []⟩).1.heap,
    (scanSetXml env (env.setXmlEntries childDir) s ⟨QMap.empty, []⟩).2.1.baseAircraft,
    a1, a2, b1, b2, b3, a4, ?_, ?_, ?_, ?_, ?_⟩
  · rw [hres]; show _ ++ _ = _; rw [c2]
  · rw [hres]; exact d1
  · rw [hres]; exact c1.2.1
  · rw [hres]; exact a5
  · intro p
    rw [hres]
    obtain ⟨e1, e2⟩ := d2 p
    refine ⟨e1, ?_⟩
    show (Heap.get (bindVariants _ _ _) p).variants = _
    rw [e2, a3]
    simp

theorem scanSubdirs_invariant (env : Env) (I : AircraftScanThread → Prop) (D : QString → Prop)
    (hsub : ∀ s d, I s → D d → I (scanSubdir env s d).1)
    (ds : List QString) (hD : ∀ d ∈ ds, D d) (s : AircraftScanThread) (h0 : I s) :
    I (scanSubdirs env ds s).1 := by
  induction ds generalizing s with
  | nil => exact h0
  | cons d rest ih =>
    simp only [scanSubdirs]
    have h1 := hsub s d h0 (hD d (List.mem_cons_self _ _))
    split
    · exact h1
    · exact ih (fun x hx => hD x (List.mem_cons_of_mem _ hx)) _ h1

theorem runDirs_invariant (env : Env) (I : AircraftScanThread → Prop) (D : QString → Prop)
    (hsub : ∀ s d, I s → D d → I (scanSubdir env s d).1)
    (hread : ∀ s, I s → I (afterRead s))
    (dirs : List QString) (hD : ∀ root ∈ dirs, ∀ d ∈ env.dirEntries root, D d)
    (s : AircraftScanThread) (h0 : I s) : I (runDirs env dirs s).1 := by
  induction dirs generalizing s with
  | nil => exact h0
  | cons root rest ih =>
    simp only [runDirs]
    have h1 : I (scanAircraftDir env s root).1 :=
      scanSubdirs_invariant env I D hsub _ (hD root (List.mem_cons_self _ _)) s h0
    split
    · exact hread _ h1
    · exact ih (fun x hx => hD x (List.mem_cons_of_mem _ hx)) _ (hread _ h1)

theorem run_invariant (env : Env) (I : AircraftScanThread → Prop) (D : QString → Prop)
    (hsub : ∀ s d, I s → D d → I (scanSubdir env s d).1)
    (hread : ∀ s, I s → I (afterRead s))
    (hwrite : ∀ s, I s → I (writeCache s))
    (s : AircraftScanThread) (hD : ∀ root ∈ s.m_dirs, ∀ d ∈ env.dirEntries root, D d)
    (h0 : I (readCache env s)) : I (run env s) := by
  have hd : (readCache env s).m_dirs = s.m_dirs := (readCache_frame env s).1
  have h1 := runDirs_invariant env I D hsub hread (readCache env s).m_dirs
    (by rw [hd]; exact hD) _ h0
  unfold run
  simp only []
  split
  · exact h1
  · exact hwrite _ h1

/-! ### the state after `readCache` -/

theorem readCacheItems_wf (env : Env) (n : Nat) (ds : QByteArray) (s : AircraftScanThread)
    (hwf : CacheWF s) (hfresh : ∀ p, (s.heap.get p).variants = []) :
    CacheWF (readCacheItems env n ds s) ∧
    ∀ p, ((readCacheItems env n ds s).heap.get p).variants = [] := by
  induction n generalizing ds s with
  | zero => exact ⟨hwf, hfresh⟩
  | succ n ih =>
    simp only [readCacheItems]
    have hv0 : (AircraftItem.fromDataStream ds).1.variants = [] := rfl
    split
    · apply ih
      · intro k p hp
        obtain ⟨h1, h2⟩ := hwf k p hp
        refine ⟨Nat.lt_succ_of_lt h1, ?_⟩
        simp only [Heap.get_delete, Heap.get_alloc, if_neg (Nat.ne_of_lt h1)]
        exact h2
      · intro p
        simp only [Heap.get_delete, Heap.get_alloc]
        split
        · exact hv0
        · exact hfresh p
    · apply ih
      · intro k p hp
        simp only [QMap.lookup_insert, Heap.fst_alloc] at hp
        simp only [Heap.next_alloc, Heap.get_alloc]
        by_cases hk : (AircraftItem.fromDataStream ds).1.path = k
        · rw [if_pos hk] at hp
          injection hp with hp
          subst hp
          exact ⟨Nat.lt_succ_self _, by simp [hk]⟩
        · rw [if_neg hk] at hp
          obtain ⟨h1, h2⟩ := hwf k p hp
          exact ⟨Nat.lt_succ_of_lt h1, by simp [Nat.ne_of_lt h1, h2]⟩
      · intro p
        simp only [Heap.get_alloc]
        split
        · exact hv0
        · exact hfresh p

theorem readCache_init (env : Env) (dirs : List QString) (settings : QByteArray) :
    CacheWF (readCache env (AircraftScanThread.init dirs Heap.init settings)) ∧
    (∀ p, ((readCache env (AircraftScanThread.init dirs Heap.init settings)).heap.get p).variants
      = []) ∧
    (readCache env (AircraftScanThread.init dirs Heap.init settings)).m_items = [] ∧
    (readCache env (AircraftScanThread.init dirs Heap.init settings)).m_dirs = dirs := by
  have hwf0 : CacheWF (AircraftScanThread.init dirs Heap.init settings) := by
    intro k p hp; exact Option.noConfusion hp
  have hf0 : ∀ p, ((AircraftScanThread.init dirs Heap.init settings).heap.get p).variants = [] :=
    fun _ => rfl
  obtain ⟨f1, _, _, _, f5, _⟩ := readCache_frame env (AircraftScanThread.init dirs Heap.init settings)
  refine ⟨?_, ?_, f5, f1⟩
  · unfold readCache
    simp only []
    split
    · exact hwf0
    · split
      · exact hwf0
      · exact (readCacheItems_wf env _ _ _ hwf0 hf0).1
  · unfold readCache
    simp only []
    split
    · exact hf0
    · split
      · exact hf0
      · exact (readCacheItems_wf env _ _ _ hwf0 hf0).2

/-! ### the map of principals -/

theorem baseAircraft_lookup {h1 : Heap} {ps : List Nat} {base : QMap Nat}
    (hbase : base = (ps.filter (fun p => (h1.get p).variantOf.isNone)).foldl
        (fun m p => m.insert (h1.get p).baseName p) QMap.empty)
    {k : QString} {q : Nat} (hk : base.lookup k = some q) :
    q ∈ ps ∧ (h1.get q).variantOf = none ∧ (h1.get q).baseName = k := by
  rw [hbase] at hk
  rcases foldl_insert_lookup_some (fun p => (h1.get p).baseName) _ _ k q hk with ⟨h, h'⟩ | h
  · obtain ⟨hq1, hq2⟩ := List.mem_filter.mp h
    refine ⟨hq1, ?_, h'⟩
    cases hv : (h1.get q).variantOf with
    | none => rfl
    | some k => rw [hv] at hq2; exact Bool.noConfusion hq2
  · exact Option.noConfusion h

theorem baseAircraft_values {h1 : Heap} {ps : List Nat} {base : QMap Nat}
    (hbase : base = (ps.filter (fun p => (h1.get p).variantOf.isNone)).foldl
        (fun m p => m.insert (h1.get p).baseName p) QMap.empty)
    {q : Nat} (hq : q ∈ base.values) : q ∈ ps ∧ (h1.get q).variantOf = none := by
  rw [hbase] at hq
  rcases foldl_insert_values (fun p => (h1.get p).baseName) _ _ q hq with h | h
  · obtain ⟨hq1, hq2⟩ := List.mem_filter.mp h
    refine ⟨hq1, ?_⟩
    cases hv : (h1.get q).variantOf with
    | none => rfl
    | some k => rw [hv] at hq2; exact Bool.noConfusion hq2
  · simp [QMap.values, QMap.empty] at h

theorem stored_path {a b : AircraftItem} (h : a.stored = b.stored) : a.path = b.path := by
  simp only [AircraftItem.stored, Prod.mk.injEq] at h; exact h.1

theorem stored_variantOf {a b : AircraftItem} (h : a.stored = b.stored) :
    a.variantOf = b.variantOf := by
  simp only [AircraftItem.stored, Prod.mk.injEq] at h; exact h.2.2.2.1

theorem stored_baseName {a b : AircraftItem} (h : a.stored = b.stored) :
    a.baseName = b.baseName := by
  unfold AircraftItem.baseName; rw [stored_path h]

theorem PrincipalsInv_scanSubdir (env : Env) (D : QString → Prop) (s : AircraftScanThread)
    (d : QString) (hI : PrincipalsInv env D s) (hd : D d) :
    PrincipalsInv env D (scanSubdir env s d).1 := by
  obtain ⟨hwf, hi, hii⟩ := hI
  by_cases hstop : (scanSubdir env s d).2 = true
  · -- the file loop returned: only new objects, none with variants
    have hres : (scanSubdir env s d).1
        = (scanSetXml env (env.setXmlEntries d) s ⟨QMap.empty, []⟩).1 := by
      have hb : (scanSetXml env (env.setXmlEntries d) s ⟨QMap.empty, []⟩).2.2 = true := by
        unfold scanSubdir at hstop
        simp only [] at hstop
        by_cases hb : (scanSetXml env (env.setXmlEntries d) s ⟨QMap.empty, []⟩).2.2 = true
        · exact hb
        · rw [if_neg hb] at hstop; exact Bool.noConfusion hstop
      unfold scanSubdir
      simp only []
      rw [if_pos hb]
    obtain ⟨b1, b2, b3, _⟩ := scanSetXml_heap env (env.setXmlEntries d) s ⟨QMap.empty, []⟩ hwf
    obtain ⟨c1, c2⟩ := scanSetXml_frame env (env.setXmlEntries d) s ⟨QMap.empty, []⟩
    rw [hres]
    refine ⟨CacheWF_of_ext hwf c1.2.1 b1 (fun q hq => by rw [b2 q hq]), ?_, ?_⟩
    · intro p hp
      rw [c2] at hp
      obtain ⟨h1, h2⟩ := hi p hp
      exact ⟨lt_of_lt_of_le h1 b1, by rw [b2 p h1]; exact h2⟩
    · intro p hp v hv
      by_cases hps : p < s.heap.next
      · rw [b2 p hps] at hv ⊢
        obtain ⟨h1, h2, h3⟩ := hii p hps v hv
        rw [b2 v h1]
        exact ⟨lt_of_lt_of_le h1 b1, h2, h3⟩
      · rw [b3 p (by omega) hp] at hv
        simp at hv
  · have hns : (scanSubdir env s d).2 = false := by simpa using hstop
    obtain ⟨ps, h1, base, a1, a2, a3, a4, a5, hbase, hitems, hnext, hcached, _, hget⟩ :=
      scanSubdir_spec env s d hwf hns
    have hfile : ∀ p ∈ ps, (h1.get p).path ∈ env.setXmlEntries d := by
      intro p hp
      have : h1.get p ∈ ps.map h1.get := List.mem_map.mpr ⟨p, hp, rfl⟩
      rw [a1] at this
      obtain ⟨g, hg, hr⟩ := List.mem_filterMap.mp this
      rw [recordOf_path hwf hr]; exact hg
    -- stored members of old objects are those of the state before
    have hold : ∀ q, q < s.heap.next →
        ((scanSubdir env s d).1.heap.get q).stored = (s.heap.get q).stored := by
      intro q hq
      rw [(hget q).1, a4 q hq]
    refine ⟨CacheWF_of_ext hwf hcached (by rw [hnext]; exact a3)
      (fun q hq => stored_path (hold q hq)), ?_, ?_⟩
    · intro p hp
      rw [hitems] at hp
      rcases List.mem_append.mp hp with hp | hp
      · obtain ⟨i1, i2⟩ := hi p hp
        refine ⟨by rw [hnext]; exact lt_of_lt_of_le i1 a3, ?_⟩
        rw [stored_variantOf (hold p i1)]; exact i2
      · obtain ⟨j1, j2⟩ := baseAircraft_values hbase hp
        refine ⟨by rw [hnext]; exact a2 p j1, ?_⟩
        rw [stored_variantOf (hget p).1]; exact j2
    · intro p hp v hv
      rw [hnext] at hp
      rw [(hget p).2] at hv
      rw [hnext, stored_variantOf (hget v).1, stored_baseName (hget p).1,
        stored_path (hget p).1, stored_path (hget v).1]
      rcases List.mem_append.mp hv with hv | hv
      · by_cases hps : p < s.heap.next
        · rw [a4 p hps] at hv ⊢
          obtain ⟨i1, i2, i3⟩ := hii p hps v hv
          rw [a4 v i1]
          exact ⟨lt_of_lt_of_le i1 a3, i2, i3⟩
        · rw [a5 p (by omega) hp] at hv
          simp at hv
      · obtain ⟨hv1, hv2⟩ := List.mem_filter.mp hv
        obtain ⟨hv3, hv4⟩ := List.mem_filter.mp hv1
        have hl := of_decide_eq_true hv2
        obtain ⟨k1, k2, k3⟩ := baseAircraft_lookup hbase hl
        refine ⟨a2 v hv3, ?_, d, hd, hfile p k1, hfile v hv3⟩
        rw [k3]
        cases hvo : (h1.get v).variantOf with
        | none => rw [hvo] at hv4; exact Bool.noConfusion hv4
        | some k => rfl

/-- C8. When `run` leaves its loop over the roots without having used a
deleted object, every item in the pending buffer, which is where every
published batch goes, has no variant-of; every variant attached to it declares
`variant-of` equal to its base name and is listed, with it, in one
subdirectory of one of the roots. -/
theorem published_are_principals (env : Env) (dirs : List QString) (settings : QByteArray)
    (p : Nat)
    (hdef : (scanned env dirs settings).heap.undefined = false)
    (hp : p ∈ (scanned env dirs settings).m_items) :
    ((scanned env dirs settings).heap.get p).variantOf = none ∧
    ∀ v ∈ ((scanned env dirs settings).heap.get p).variants,
      ((scanned env dirs settings).heap.get v).variantOf
        = some ((scanned env dirs settings).heap.get p).baseName ∧
      ∃ root ∈ dirs, ∃ d ∈ env.dirEntries root,
        ((scanned env dirs settings).heap.get p).path ∈ env.setXmlEntries d ∧
        ((scanned env dirs settings).heap.get v).path ∈ env.setXmlEntries d := by
  obtain ⟨r1, r2, r3, _⟩ := readCache_init env dirs settings
  have hinv : PrincipalsInv env (fun d => ∃ root ∈ dirs, d ∈ env.dirEntries root)
      (scanned env dirs settings) := by
    apply runDirs_invariant env _ (fun d => ∃ root ∈ dirs, d ∈ env.dirEntries root)
    · exact fun s d hI hd => PrincipalsInv_scanSubdir env _ s d hI hd
    · exact fun s hI => hI
    · exact fun root hroot d hd => ⟨root, hroot, hd⟩
    · refine ⟨r1, ?_, ?_⟩
      · intro q hq; rw [r3] at hq; simp at hq
      · intro q _ v hv; rw [r2 q] at hv; simp at hv
  obtain ⟨_, hi, hii⟩ := hinv
  obtain ⟨i1, i2⟩ := hi p hp
  refine ⟨i2, fun v hv => ?_⟩
  obtain ⟨_, j2, d, ⟨root, hroot, hd⟩, j3, j4⟩ := hii p i1 v hv
  exact ⟨j2, root, hroot, d, hd, j3, j4⟩

theorem recordOf_extends {env : Env} {s0 s : AircraftScanThread} (hwf0 : CacheWF s0)
    (hext : Extends s0 s) {g : QString} {r : AircraftItem} (h : recordOf env s g = some r) :
    ∃ r0, recordOf env s0 g = some r0 ∧ r.stored = r0.stored := by
  obtain ⟨e1, _, e3⟩ := hext
  unfold recordOf at h ⊢
  rw [e1] at h
  by_cases hc : s0.m_cachedItems.contains g = true
  · rw [if_pos hc] at h ⊢
    obtain ⟨p, hp⟩ := QMap.contains_iff.mp hc
    rw [QMap.value_of_lookup hp] at h ⊢
    injection h with h
    exact ⟨_, rfl, by rw [← h]; exact e3 p (hwf0 g p hp).1⟩
  · rw [if_neg hc] at h ⊢
    exact ⟨r, h, rfl⟩

theorem AbsentInv_scanSubdir (env : Env) (f k : QString) (rf : AircraftItem)
    (s0 s : AircraftScanThread) (d : QString)
    (hwf0 : CacheWF s0) (hrec : recordOf env s0 f = some rf) (hvar : rf.variantOf = some k)
    (hnone : f ∈ env.setXmlEntries d → ∀ g ∈ env.setXmlEntries d, ∀ r,
      recordOf env s0 g = some r → r.variantOf = none → r.baseName ≠ k)
    (hI : AbsentInv f s0 s) : AbsentInv f s0 (scanSubdir env s d).1 := by
  obtain ⟨hwf, hext, hi, hii⟩ := hI
  by_cases hstop : (scanSubdir env s d).2 = true
  · have hres : (scanSubdir env s d).1
        = (scanSetXml env (env.setXmlEntries d) s ⟨QMap.empty, []⟩).1 := by
      have hb : (scanSetXml env (env.setXmlEntries d) s ⟨QMap.empty, []⟩).2.2 = true := by
        unfold scanSubdir at hstop
        simp only [] at hstop
        by_cases hb : (scanSetXml env (env.setXmlEntries d) s ⟨QMap.empty, []⟩).2.2 = true
        · exact hb
        · rw [if_neg hb] at hstop; exact Bool.noConfusion hstop
      unfold scanSubdir
      simp only []
      rw [if_pos hb]
    obtain ⟨b1, b2, b3, _⟩ := scanSetXml_heap env (env.setXmlEntries d) s ⟨QMap.empty, []⟩ hwf
    obtain ⟨c1, c2⟩ := scanSetXml_frame env (env.setXmlEntries d) s ⟨QMap.empty, []⟩
    rw [hres]
    refine ⟨CacheWF_of_ext hwf c1.2.1 b1 (fun q hq => by rw [b2 q hq]), ?_, ?_, ?_⟩
    · refine ⟨c1.2.1.trans hext.1, le_trans hext.2.1 b1, fun q hq => ?_⟩
      rw [b2 q (lt_of_lt_of_le hq hext.2.1)]; exact hext.2.2 q hq
    · intro p hp
      rw [c2] at hp
      obtain ⟨h1, h2⟩ := hi p hp
      exact ⟨lt_of_lt_of_le h1 b1, by rw [b2 p h1]; exact h2⟩
    · intro p hp v hv
      by_cases hps : p < s.heap.next
      · rw [b2 p hps] at hv
        obtain ⟨h1, h2⟩ := hii p hps v hv
        rw [b2 v h1]
        exact ⟨lt_of_lt_of_le h1 b1, h2⟩
      · rw [b3 p (by omega) hp] at hv
        simp at hv
  · have hns : (scanSubdir env s d).2 = false := by simpa using hstop
    obtain ⟨ps, h1, base, a1, a2, a3, a4, a5, hbase, hitems, hnext, hcached, _, hget⟩ :=
      scanSubdir_spec env s d hwf hns
    -- each loaded object is the record of a listed file, also seen from `s0`
    have hfile : ∀ p ∈ ps, (h1.get p).path ∈ env.setXmlEntries d ∧
        ∃ r0, recordOf env s0 (h1.get p).path = some r0 ∧ (h1.get p).stored = r0.stored := by
      intro p hp
      have : h1.get p ∈ ps.map h1.get := List.mem_map.mpr ⟨p, hp, rfl⟩
      rw [a1] at this
      obtain ⟨g, hg, hr⟩ := List.mem_filterMap.mp this
      rw [recordOf_path hwf hr]
      exact ⟨hg, recordOf_extends hwf0 hext hr⟩
    have hold : ∀ q, q < s.heap.next →
        ((scanSubdir env s d).1.heap.get q).stored = (s.heap.get q).stored := by
      intro q hq
      rw [(hget q).1, a4 q hq]
    -- an object loaded for `f` is a variant of `k`
    have hf : ∀ p ∈ ps, (h1.get p).path = f → (h1.get p).variantOf = some k := by
      intro p hp hpath
      obtain ⟨_, r0, hr0, hst⟩ := hfile p hp
      rw [hpath, hrec] at hr0
      rw [stored_variantOf hst, ← Option.some.inj hr0]; exact hvar
    refine ⟨CacheWF_of_ext hwf hcached (by rw [hnext]; exact a3)
      (fun q hq => stored_path (hold q hq)), ?_, ?_, ?_⟩
    · refine ⟨hcached.trans hext.1, by rw [hnext]; exact le_trans hext.2.1 a3, fun q hq => ?_⟩
      rw [hold q (lt_of_lt_of_le hq hext.2.1)]; exact hext.2.2 q hq
    · intro p hp
      rw [hitems] at hp
      rcases List.mem_append.mp hp with hp | hp
      · obtain ⟨i1, i2⟩ := hi p hp
        refine ⟨by rw [hnext]; exact lt_of_lt_of_le i1 a3, ?_⟩
        rw [stored_path (hold p i1)]; exact i2
      · obtain ⟨j1, j2⟩ := baseAircraft_values hbase hp
        refine ⟨by rw [hnext]; exact a2 p j1, ?_⟩
        rw [stored_path (hget p).1]
        intro hpath
        have := hf p j1 hpath
        rw [j2] at this
        exact Option.noConfusion this
    · intro p hp v hv
      rw [hnext] at hp
      rw [(hget p).2] at hv
      rw [hnext, stored_path (hget v).1]
      rcases List.mem_append.mp hv with hv | hv
      · by_cases hps : p < s.heap.next
        · rw [a4 p hps] at hv
          obtain ⟨i1, i2⟩ := hii p hps v hv
          rw [a4 v i1]
          exact ⟨lt_of_lt_of_le i1 a3, i2⟩
        · rw [a5 p (by omega) hp] at hv
          simp at hv
      · obtain ⟨hv1, hv2⟩ := List.mem_filter.mp hv
        obtain ⟨hv3, _⟩ := List.mem_filter.mp hv1
        have hl := of_decide_eq_true hv2
        refine ⟨a2 v hv3, fun hpath => ?_⟩
        rw [hf v hv3 hpath] at hl
        simp only [Option.getD_some] at hl
        obtain ⟨k1, k2, k3⟩ := baseAircraft_lookup hbase hl
        obtain ⟨m1, r0, m2, m3⟩ := hfile p k1
        have hfin : f ∈ env.setXmlEntries d := by rw [← hpath]; exact (hfile v hv3).1
        refine hnone hfin _ m1 r0 m2 ?_ ?_
        · rw [← stored_variantOf m3]; exact k2
        · rw [← stored_baseName m3]; exact k3

/-- The thread that `run` leaves: the state at the end of the loop over the
roots when the loop returned, else that state after `writeCache`. -/
theorem run_eq_scanned (env : Env) (dirs : List QString) (settings : QByteArray) :
    run env (AircraftScanThread.init dirs Heap.init settings)
      = if (runDirs env dirs
            (readCache env (AircraftScanThread.init dirs Heap.init settings))).2 then
          scanned env dirs settings
        else writeCache (scanned env dirs settings) := by
  have hd : (readCache env (AircraftScanThread.init dirs Heap.init settings)).m_dirs = dirs :=
    (readCache_frame env _).1
  unfold run scanned
  simp only []
  rw [hd]

/-- A definition file that is bound in none of the subdirectories that list it
is the path of no pending item and of no attached variant when `run` leaves
its loop over the roots. -/
theorem scanned_absent (env : Env) (dirs : List QString) (settings : QByteArray)
    (f k : QString) (rf : AircraftItem)
    (hrec : recordOf env (readCache env (AircraftScanThread.init dirs Heap.init settings)) f
      = some rf)
    (hvar : rf.variantOf = some k)
    (hnone : ∀ root ∈ dirs, ∀ d ∈ env.dirEntries root, f ∈ env.setXmlEntries d →
      ∀ g ∈ env.setXmlEntries d, ∀ r,
        recordOf env (readCache env (AircraftScanThread.init dirs Heap.init settings)) g = some r →
        r.variantOf = none → r.baseName ≠ k) :
    ∀ p ∈ (scanned env dirs settings).m_items,
      ((scanned env dirs settings).heap.get p).path ≠ f ∧
      ∀ v ∈ ((scanned env dirs settings).heap.get p).variants,
        ((scanned env dirs settings).heap.get v).path ≠ f := by
  obtain ⟨r1, r2, r3, r4⟩ := readCache_init env dirs settings
  have hinv : AbsentInv f (readCache env (AircraftScanThread.init dirs Heap.init settings))
      (scanned env dirs settings) := by
    apply runDirs_invariant env _ (fun d => ∃ root ∈ dirs, d ∈ env.dirEntries root)
    · intro s d hI ⟨root, hroot, hd⟩
      exact AbsentInv_scanSubdir env f k rf _ s d r1 hrec hvar (hnone root hroot d hd) hI
    · exact fun s hI => hI
    · exact fun root hroot d hd => ⟨root, hroot, hd⟩
    · refine ⟨r1, ⟨rfl, le_refl _, fun _ _ => rfl⟩, ?_, ?_⟩
      · intro q hq; rw [r3] at hq; simp at hq
      · intro q _ v hv; rw [r2 q] at hv; simp at hv
  obtain ⟨_, _, hi, hii⟩ := hinv
  intro p hp
  obtain ⟨i1, i2⟩ := hi p hp
  exact ⟨i2, fun v hv => (hii p i1 v hv).2⟩

/-- C3, witness: the cache written by a complete scan of the root of
`pairEnv`. -/
theorem cache_round_trip_witness :
    (readCache pairEnv
        (AircraftScanThread.init ["/r"] Heap.init pairCache)).m_cachedItems.entries.map
        (fun e => (e.1, ((readCache pairEnv
          (AircraftScanThread.init ["/r"] Heap.init pairCache)).heap.get e.2).stored))
      = pairScanned.m_nextCache.entries.map (fun e => (e.1, (pairScanned.heap.get e.2).stored)) ∧
    ∀ k, ((readCache pairEnv
          (AircraftScanThread.init ["/r"] Heap.init pairCache)).m_cachedItems.lookup k).map
          (fun p => ((readCache pairEnv
            (AircraftScanThread.init ["/r"] Heap.init pairCache)).heap.get p).stored)
      = (pairScanned.m_nextCache.lookup k).map (fun p => (pairScanned.heap.get p).stored) :=
  cache_round_trip pairEnv pairScanned
    (AircraftScanThread.init ["/r"] Heap.init pairCache)
    (by unfold QMap.Sorted; decide) (by decide) (by decide) (by decide) (by decide) rfl
    (by decide)

/-- C4, witness: a stored cache of two entries, one of them stale; only the
path of the other is kept. -/
theorem readCache_validates_witness :
    (readCache (sampleEnv none)
      (AircraftScanThread.init ["/r"] Heap.init staleCache)).m_cachedItems.keys
      = ["/r/a/p-set.xml"] ∧
    storedEntries (readWord (readWord staleCache).2).1 (readWord (readWord staleCache).2).2
      = [sampleItem "/r/a/p-set.xml" none,
         { sampleItem "/r/a/v1-set.xml" (some "p") with pathModTime := some 4 }] ∧
    ∀ k, (readCache (sampleEnv none)
        (AircraftScanThread.init ["/r"] Heap.init staleCache)).m_cachedItems.contains k = true ↔
      ∃ e ∈ storedEntries (readWord (readWord staleCache).2).1 (readWord (readWord staleCache).2).2,
        e.path = k ∧ validEntry (sampleEnv none) e = true :=
  ⟨by decide, by decide,
   (readCache_validates (sampleEnv none) (AircraftScanThread.init ["/r"] Heap.init staleCache)
      (by decide) rfl).1⟩

theorem listAt_natCast {α : Type} (l : List α) (i : Nat) : listAt l (i : Int) = l[i]? := by
  unfold listAt
  simp

theorem roleValue_recordRoles (item : AircraftItem) (rv : Int × QVariant)
    (h : rv ∈ recordRoles item) : roleValue item rv.1 = some rv.2 := by
  simp only [recordRoles, List.mem_cons, List.mem_singleton, List.not_mem_nil, or_false] at h
  rcases h with h | h | h | h | h | h | h <;> subst h <;>
    simp [roleValue, AircraftItem.rating, Qt_DisplayRole, Qt_DecorationRole, Qt_ToolTipRole,
      AircraftPathRole, AircraftAuthorsRole, AircraftRatingRole, AircraftVariantDescriptionRole,
      Qt_UserRole]

theorem recordRoles_role (item : AircraftItem) (rv : Int × QVariant)
    (h : rv ∈ recordRoles item) :
    rv.1 ≠ AircraftVariantRole ∧ rv.1 ≠ AircraftVariantCountRole ∧
    ¬ rv.1 ≥ AircraftVariantDescriptionRole := by
  simp only [recordRoles, List.mem_cons, List.mem_singleton, List.not_mem_nil, or_false] at h
  rcases h with h | h | h | h | h | h | h <;> subst h <;>
    simp [Qt_DisplayRole, AircraftPathRole, AircraftAuthorsRole, AircraftRatingRole,
      AircraftVariantDescriptionRole, AircraftVariantRole, AircraftVariantCountRole, Qt_UserRole]

/-- `data` for a record role, in terms of the item shown. -/
theorem data_record_role (heap : Heap) (m : AircraftItemModel) (i p av : Nat) (role : Int)
    (hp : m.m_items[i]? = some p) (hav : m.m_activeVariant[i]? = some av)
    (h1 : role ≠ AircraftVariantRole) (h2 : role ≠ AircraftVariantCountRole)
    (h3 : ¬ role ≥ AircraftVariantDescriptionRole) :
    data heap m i role
      = (shownItem heap (heap.get p) av).bind (fun item => roleValue item role) := by
  unfold data
  rw [if_neg h1, listAt_natCast, hp]
  simp only []
  rw [if_neg h2, if_neg h3, listAt_natCast, hav]
  simp only []
  cases shownItem heap (heap.get p) av <;> rfl

theorem shownItem_zero (heap : Heap) (item : AircraftItem) : shownItem heap item 0 = some item := by
  simp [shownItem]

theorem shownItem_variant (heap : Heap) (item : AircraftItem) (k v : Nat) (hk : 1 ≤ k)
    (hv : item.variants[k - 1]? = some v) : shownItem heap item k = some (heap.get v) := by
  have hlen : k - 1 < item.variants.length := by
    rcases List.getElem?_eq_some_iff.mp hv with ⟨h, _⟩
    exact h
  unfold shownItem
  rw [if_pos (by omega), if_pos (by omega)]
  have : ((k : Int) - 1) = ((k - 1 : Nat) : Int) := by omega
  rw [this, listAt_natCast, hv]
  rfl

theorem shownItem_out_of_range (heap : Heap) (item : AircraftItem) (k : Nat)
    (hk : item.variants.length < k) : shownItem heap item k = some item := by
  unfold shownItem
  split
  · rw [if_neg (by omega)]
  · rfl

/-- C14. Record access with the active variant: for a row `i` of the catalog
with principal `p` and active-variant index `av`, when `av` is 0 the
description, path, authors and the four ratings that `data(i, role)` returns
are those of `p`, and when `1 <= av <= N`, with `N` the number of variants of
`p`, they are those of element `av - 1` of the variants of `p`. -/
theorem data_shows_active_variant (heap : Heap) (m : AircraftItemModel) (i p av : Nat)
    (hp : m.m_items[i]? = some p) (hav : m.m_activeVariant[i]? = some av) :
    (av = 0 → ∀ rv ∈ recordRoles (heap.get p), data heap m i rv.1 = some rv.2) ∧
    (∀ v, 1 ≤ av → av ≤ (heap.get p).variants.length →
      (heap.get p).variants[av - 1]? = some v →
      ∀ rv ∈ recordRoles (heap.get v), data heap m i rv.1 = some rv.2) := by
  constructor
  · intro h0 rv hrv
    obtain ⟨r1, r2, r3⟩ := recordRoles_role _ rv hrv
    rw [data_record_role heap m i p av rv.1 hp hav r1 r2 r3, h0, shownItem_zero]
    exact roleValue_recordRoles _ rv hrv
  · intro v h1 _ hv rv hrv
    obtain ⟨r1, r2, r3⟩ := recordRoles_role _ rv hrv
    rw [data_record_role heap m i p av rv.1 hp hav r1 r2 r3, shownItem_variant heap _ av v h1 hv]
    exact roleValue_recordRoles _ rv hrv

theorem wordOfInt_nonneg (k : Int) (h0 : 0 ≤ k) (hint : IsInt32 k) : wordOfInt k = k.toNat := by
  unfold IsInt32 at hint
  unfold wordOfInt
  omega

theorem wordOfInt_neg (k : Int) (h0 : k < 0) (hint : IsInt32 k) :
    2147483648 ≤ wordOfInt k := by
  unfold IsInt32 at hint
  unfold wordOfInt
  omega

/-- What `setData` does with the variant role on a valid row. -/
theorem setData_variant_role (heap : Heap) (m : AircraftItemModel) (i : Nat) (k : Int)
    (hinv : m.m_activeVariant.length = m.m_items.length) (hi : i < m.rowCount) :
    setData m i k AircraftVariantRole
        = some ({ m with m_activeVariant := m.m_activeVariant.set i (wordOfInt k) }, true) ∧
    ({ m with m_activeVariant := m.m_activeVariant.set i (wordOfInt k) }
        : AircraftItemModel).m_activeVariant[i]? = some (wordOfInt k) ∧
    data heap { m with m_activeVariant := m.m_activeVariant.set i (wordOfInt k) } i
        AircraftVariantRole = some (QVariant.uint (wordOfInt k)) ∧
    (∀ j, j ≠ i →
      ({ m with m_activeVariant := m.m_activeVariant.set i (wordOfInt k) }
        : AircraftItemModel).m_activeVariant[j]? = m.m_activeVariant[j]?) := by
  unfold AircraftItemModel.rowCount at hi
  have hi' : i < m.m_activeVariant.length := by rw [hinv]; exact hi
  have hget : (m.m_activeVariant.set i (wordOfInt k))[i]? = some (wordOfInt k) := by
    simp [hi']
  refine ⟨?_, hget, ?_, ?_⟩
  · unfold setData
    rw [if_pos rfl, if_pos ⟨by omega, by simpa using hi'⟩]
    simp
  · unfold data
    rw [if_pos rfl, listAt_natCast, hget]
    rfl
  · intro j hj
    simp [List.getElem?_set_ne (Ne.symm hj)]

/-- C12. Selection in the range: in a catalog whose two lists have the same
length, for a valid row `i` with `N` the variant count that `data` reports and
an `int` `k` with `0 <= k <= N`, `setData(i, k, AircraftVariantRole)` returns
true, a following `data(i, AircraftVariantRole)` returns `k`, the
active-variant index of every other row is unchanged, and the records and the
lengths of both lists are unchanged. -/
theorem setData_in_range (heap : Heap) (m : AircraftItemModel) (i : Nat) (k N : Int)
    (hinv : m.m_activeVariant.length = m.m_items.length) (hi : i < m.rowCount)
    (_hN : data heap m i AircraftVariantCountRole = some (QVariant.int N))
    (hk0 : 0 ≤ k) (_hkN : k ≤ N) (hint : IsInt32 k) :
    ∃ m', setData m i k AircraftVariantRole = some (m', true) ∧
      data heap m' i AircraftVariantRole = some (QVariant.uint k.toNat) ∧
      (∀ j, j ≠ i → m'.m_activeVariant[j]? = m.m_activeVariant[j]?) ∧
      m'.m_items = m.m_items ∧ m'.rowCount = m.rowCount ∧
      m'.m_activeVariant.length = m.m_activeVariant.length := by
  obtain ⟨h1, _, h3, h4⟩ := setData_variant_role heap m i k hinv hi
  refine ⟨_, h1, ?_, h4, rfl, rfl, by simp⟩
  rw [h3, wordOfInt_nonneg k hk0 hint]

/-- C11 (amended). Selection outside the range: in a catalog whose two lists
have the same length, for a row `i` whose principal has fewer than 2^31
variants and an `int` `k` that is negative or greater than the number of
variants, `setData(i, k, AircraftVariantRole)` returns true and stores `k`,
converted to `quint32`, as the active-variant index of row `i`; a following
`data(i, AircraftVariantRole)` returns it; the indices of the other rows and
the records are unchanged; and the description, path, authors and ratings that
`data` then returns for row `i` are those of the principal. -/
theorem setData_out_of_range (heap : Heap) (m : AircraftItemModel) (i p : Nat) (k : Int)
    (hinv : m.m_activeVariant.length = m.m_items.length)
    (hp : m.m_items[i]? = some p) (hint : IsInt32 k)
    (hN : (heap.get p).variants.length < 2147483648)
    (hout : k < 0 ∨ ((heap.get p).variants.length : Int) < k) :
    ∃ m', setData m i k AircraftVariantRole = some (m', true) ∧
      m'.m_activeVariant[i]? = some (wordOfInt k) ∧
      data heap m' i AircraftVariantRole = some (QVariant.uint (wordOfInt k)) ∧
      (∀ j, j ≠ i → m'.m_activeVariant[j]? = m.m_activeVariant[j]?) ∧
      m'.m_items = m.m_items ∧
      ∀ rv ∈ recordRoles (heap.get p), data heap m' i rv.1 = some rv.2 := by
  have hi : i < m.rowCount := by
    rcases List.getElem?_eq_some_iff.mp hp with ⟨h, _⟩
    exact h
  obtain ⟨h1, h2, h3, h4⟩ := setData_variant_role heap m i k hinv hi
  refine ⟨_, h1, h2, h3, h4, rfl, ?_⟩
  intro rv hrv
  obtain ⟨r1, r2, r3⟩ := recordRoles_role _ rv hrv
  rw [data_record_role heap { m with m_activeVariant := m.m_activeVariant.set i (wordOfInt k) }
    i p (wordOfInt k) rv.1 hp h2 r1 r2 r3]
  have hbig : (heap.get p).variants.length < wordOfInt k := by
    rcases hout with h | h
    · have := wordOfInt_neg k h hint
      omega
    · have h0 : 0 ≤ k := by omega
      rw [wordOfInt_nonneg k h0 hint]
      omega
  rw [shownItem_out_of_range heap _ _ hbig]
  exact roleValue_recordRoles _ rv hrv

/-! ### lookup by path -/

theorem indexOfAircraftPathFrom_some (heap : Heap) (path : QString) (l : List Nat)
    (start r : Nat) :
    indexOfAircraftPathFrom heap path l start = some r ↔
      ∃ k, r = start + k ∧ (∃ p, l[k]? = some p ∧ (heap.get p).path = path) ∧
        ∀ j, j < k → ∀ q, l[j]? = some q → (heap.get q).path ≠ path := by
  induction l generalizing start with
  | nil => simp [indexOfAircraftPathFrom]
  | cons a rest ih =>
    simp only [indexOfAircraftPathFrom]
    by_cases ha : (heap.get a).path = path
    · rw [if_pos ha]
      constructor
      · intro h
        injection h with h
        exact ⟨0, by omega, ⟨a, by simp, ha⟩, fun j hj => by omega⟩
      · rintro ⟨k, hk, _, hall⟩
        cases k with
        | zero => simp [hk]
        | succ k => exact absurd ha (hall 0 (by omega) a (by simp))
    · rw [if_neg ha, ih]
      constructor
      · rintro ⟨k, hk, ⟨p, hp1, hp2⟩, hall⟩
        refine ⟨k + 1, by omega, ⟨p, by simpa using hp1, hp2⟩, ?_⟩
        intro j hj q hq
        cases j with
        | zero =>
          simp at hq; subst hq; exact ha
        | succ j => exact hall j (by omega) q (by simpa using hq)
      · rintro ⟨k, hk, ⟨p, hp1, hp2⟩, hall⟩
        cases k with
        | zero => simp at hp1; subst hp1; exact absurd hp2 ha
        | succ k =>
          refine ⟨k, by omega, ⟨p, by simpa using hp1, hp2⟩, ?_⟩
          intro j hj q hq
          exact hall (j + 1) (by omega) q (by simpa using hq)

theorem indexOfAircraftPathFrom_none (heap : Heap) (path : QString) (l : List Nat) (start : Nat) :
    indexOfAircraftPathFrom heap path l start = none ↔ ∀ q ∈ l, (heap.get q).path ≠ path := by
  induction l generalizing start with
  | nil => simp [indexOfAircraftPathFrom]
  | cons a rest ih =>
    simp only [indexOfAircraftPathFrom]
    by_cases ha : (heap.get a).path = path
    · rw [if_pos ha]
      simp [ha]
    · rw [if_neg ha, ih]
      simp [ha]

theorem indexOfAircraftPathFrom_append (heap heap2 : Heap) (path : QString) (l extra : List Nat)
    (start r : Nat) (h : indexOfAircraftPathFrom heap path l start = some r)
    (hsame : ∀ q ∈ l, (heap2.get q).path = (heap.get q).path) :
    indexOfAircraftPathFrom heap2 path (l ++ extra) start = some r := by
  induction l generalizing start with
  | nil => simp [indexOfAircraftPathFrom] at h
  | cons a rest ih =>
    simp only [indexOfAircraftPathFrom, List.cons_append,
      hsame a (List.mem_cons_self _ _)] at h ⊢
    by_cases ha : (heap.get a).path = path
    · rw [if_pos ha] at h ⊢; exact h
    · rw [if_neg ha] at h ⊢
      exact ih _ h (fun q hq => hsame q (List.mem_cons_of_mem _ hq))

/-- C15. Lookup by path: `indexOfAircraftPath` returns the row `r` exactly when
the principal of row `r` has the path and no earlier row has it; it returns
the invalid index exactly when no principal of the catalog has the path; and a
row found stays the result after `onScanResults` has appended a batch, the
paths of the objects already in the catalog being unchanged. -/
theorem indexOfAircraftPath_first (heap : Heap) (m : AircraftItemModel) (path : QString) :
    (∀ r, indexOfAircraftPath heap m path = some r ↔
      (∃ p, m.m_items[r]? = some p ∧ (heap.get p).path = path) ∧
      ∀ j, j < r → ∀ q, m.m_items[j]? = some q → (heap.get q).path ≠ path) ∧
    (indexOfAircraftPath heap m path = none ↔ ∀ q ∈ m.m_items, (heap.get q).path ≠ path) ∧
    (∀ r (t : AircraftScanThread) (heap2 : Heap), indexOfAircraftPath heap m path = some r →
      (∀ q ∈ m.m_items, (heap2.get q).path = (heap.get q).path) →
      indexOfAircraftPath heap2 (onScanResults m t).1 path = some r) := by
  refine ⟨fun r => ?_, indexOfAircraftPathFrom_none heap path m.m_items 0, ?_⟩
  · unfold indexOfAircraftPath
    rw [indexOfAircraftPathFrom_some]
    constructor
    · rintro ⟨k, hk, h1, h2⟩
      have : r = k := by omega
      subst this
      exact ⟨h1, h2⟩
    · rintro ⟨h1, h2⟩
      exact ⟨r, by omega, h1, h2⟩
  · intro r t heap2 h hsame
    unfold indexOfAircraftPath at h ⊢
    rw [(onScanResults_eq m t).1]
    exact indexOfAircraftPathFrom_append heap heap2 path m.m_items _ 0 r h hsame

/-- The file loop reads the environment only through `readProperties`,
`lastModified` and the stop flag. -/
theorem scanSetXml_congr (env env2 : Env) (h1 : env2.readProperties = env.readProperties)
    (h2 : env2.lastModified = env.lastModified) (h3 : env2.setDoneAfter = env.setDoneAfter)
    (fs : List QString) (s : AircraftScanThread) (l : SubdirLocals) :
    scanSetXml env2 fs s l = scanSetXml env fs s l := by
  have hload : ∀ s f, loadItem env2 s f = loadItem env s f := by
    intro s f
    unfold loadItem AircraftItem.construct
    rw [h1, h2]
  have hdone : ∀ s, m_done env2 s = m_done env s := by
    intro s
    unfold m_done
    rw [h3]
  induction fs generalizing s l with
  | nil => rfl
  | cons f rest ih =>
    simp only [scanSetXml, hload, hdone]
    cases loadItem env s f with
    | none => exact ih s l
    | some r =>
      simp only []
      split
      · rfl
      · exact ih _ _

theorem recordOf_none {env : Env} {s : AircraftScanThread} {f : QString}
    (h : recordOf env s f = none) :
    s.m_cachedItems.contains f = false ∧ AircraftItem.construct env f = none := by
  unfold recordOf at h
  by_cases hc : s.m_cachedItems.contains f = true
  · rw [if_pos hc] at h; exact Option.noConfusion h
  · rw [if_neg hc] at h
    exact ⟨by simpa using hc, h⟩

theorem loadItem_of_recordOf_none {env : Env} {s : AircraftScanThread} {f : QString}
    (h : recordOf env s f = none) : loadItem env s f = none := by
  obtain ⟨h1, h2⟩ := recordOf_none h
  unfold loadItem
  rw [h1, h2]
  simp

/-- A file that does not load can be left out of the listing. -/
theorem scanSetXml_filter (env : Env) (f : QString) (fs : List QString)
    (s : AircraftScanThread) (l : SubdirLocals)
    (hc : s.m_cachedItems.contains f = false) (hcon : AircraftItem.construct env f = none) :
    scanSetXml env (fs.filter (fun x => x != f)) s l = scanSetXml env fs s l := by
  induction fs generalizing s l with
  | nil => rfl
  | cons x rest ih =>
    by_cases hx : x = f
    · subst hx
      have hl : loadItem env s x = none := by
        unfold loadItem
        rw [hc, hcon]
        simp
      rw [scanSetXml_cons_none hl]
      simp only [List.filter_cons, bne_self_eq_false, Bool.false_eq_true, if_false]
      exact ih s l hc
    · have hne : (x != f) = true := by simpa using hx
      simp only [List.filter_cons, hne, if_true]
      cases hl : loadItem env s x with
      | none =>
        rw [scanSetXml_cons_none hl, scanSetXml_cons_none hl]
        exact ih s l hc
      | some r =>
        obtain ⟨p, s1⟩ := r
        rw [scanSetXml_cons_some hl, scanSetXml_cons_some hl]
        split
        · rfl
        · apply ih
          have := (loadItem_frame hl).1.2.1
          show s1.m_cachedItems.contains f = false
          rw [this]; exact hc

/-- The file loop records in `m_nextCache` only files of its listing. -/
theorem scanSetXml_nextCache (env : Env) (f : QString) (fs : List QString)
    (s : AircraftScanThread) (l : SubdirLocals) (hf : f ∉ fs) :
    (scanSetXml env fs s l).1.m_nextCache.lookup f = s.m_nextCache.lookup f := by
  induction fs generalizing s l with
  | nil => rfl
  | cons x rest ih =>
    have hx : x ≠ f := fun h => hf (by rw [h]; exact List.mem_cons_self _ _)
    have hrest : f ∉ rest := fun h => hf (List.mem_cons_of_mem _ h)
    cases hl : loadItem env s x with
    | none =>
      rw [scanSetXml_cons_none hl]
      exact ih s l hrest
    | some r =>
      obtain ⟨p, s1⟩ := r
      have hnc : s1.m_nextCache = s.m_nextCache := by
        unfold loadItem at hl
        split at hl
        · injection hl with hl; injection hl with _ hl; rw [← hl]
        · split at hl
          · exact Option.noConfusion hl
          · injection hl with hl; injection hl with _ hl; rw [← hl]
      have hstep : (afterRead (fileItem s1 l x p).1).m_nextCache.lookup f
          = s.m_nextCache.lookup f := by
        show (s1.m_nextCache.insert x p).lookup f = _
        rw [QMap.lookup_insert, if_neg hx, hnc]
      rw [scanSetXml_cons_some hl]
      split
      · exact hstep
      · rw [ih _ _ hrest]; exact hstep

/-- C16. Malformed files are skipped: when the load of the file `f` throws
(it is not in the cache and its constructor fails), the scan of a subdirectory
ends in the same thread state, with the same batch, the same new cache and the
same flag result, as the scan of the listing with `f` removed; the new cache
entry of `f` is what it was before; and when the scan is not cut short, no
item of the published batch has the path `f`, and no variant attached during
the scan to an object has the path `f`. -/
theorem malformed_file_skipped (env : Env) (s : AircraftScanThread) (childDir f : QString)
    (hwf : CacheWF s) (hfail : recordOf env s f = none) :
    scanSubdir
        { env with setXmlEntries := fun d => (env.setXmlEntries d).filter (fun x => x != f) }
        s childDir
      = scanSubdir env s childDir ∧
    (scanSubdir env s childDir).1.m_nextCache.lookup f = s.m_nextCache.lookup f ∧
    ((scanSubdir env s childDir).2 = false →
      (∃ batch, (scanSubdir env s childDir).1.m_items = s.m_items ++ batch ∧
        ∀ p ∈ batch, ((scanSubdir env s childDir).1.heap.get p).path ≠ f) ∧
      ∀ p, p < (scanSubdir env s childDir).1.heap.next →
        ∀ v ∈ ((scanSubdir env s childDir).1.heap.get p).variants,
          v ∈ (s.heap.get p).variants ∨ ((scanSubdir env s childDir).1.heap.get v).path ≠ f) := by
  obtain ⟨hc, hcon⟩ := recordOf_none hfail
  have heq : scanSetXml
        { env with setXmlEntries := fun d => (env.setXmlEntries d).filter (fun x => x != f) }
        ((env.setXmlEntries childDir).filter (fun x => x != f)) s ⟨QMap.empty, []⟩
      = scanSetXml env (env.setXmlEntries childDir) s ⟨QMap.empty, []⟩ := by
    exact (scanSetXml_congr env
      { env with setXmlEntries := fun d => (env.setXmlEntries d).filter (fun x => x != f) }
      rfl rfl rfl _ _ _).trans (scanSetXml_filter env f _ s _ hc hcon)
  have hfirst : scanSubdir
        { env with setXmlEntries := fun d => (env.setXmlEntries d).filter (fun x => x != f) }
        s childDir
      = scanSubdir env s childDir := by
    unfold scanSubdir
    simp only []
    rw [heq]
  refine ⟨hfirst, ?_, ?_⟩
  · have hnc : (scanSetXml env (env.setXmlEntries childDir) s
        ⟨QMap.empty, []⟩).1.m_nextCache.lookup f = s.m_nextCache.lookup f := by
      rw [← scanSetXml_filter env f _ s _ hc hcon]
      apply scanSetXml_nextCache
      intro hmem
      have := (List.mem_filter.mp hmem).2
      simp at this
    unfold scanSubdir
    simp only []
    split
    · exact hnc
    · exact hnc
  · intro hns
    obtain ⟨ps, h1, base, a1, a2, a3, a4, a5, hbase, hitems, hnext, _, _, hget⟩ :=
      scanSubdir_spec env s childDir hwf hns
    have hpath : ∀ p ∈ ps, ((scanSubdir env s childDir).1.heap.get p).path ≠ f := by
      intro p hp hpf
      have hm : h1.get p ∈ ps.map h1.get := List.mem_map.mpr ⟨p, hp, rfl⟩
      rw [a1] at hm
      obtain ⟨g, _, hr⟩ := List.mem_filterMap.mp hm
      have hg : (h1.get p).path = g := recordOf_path hwf hr
      rw [stored_path (hget p).1, hg] at hpf
      rw [hpf, hfail] at hr
      exact Option.noConfusion hr
    refine ⟨⟨base.values, hitems, fun p hp => hpath p (baseAircraft_values hbase hp).1⟩, ?_⟩
    intro p hpn v hv
    rw [hnext] at hpn
    rw [(hget p).2] at hv
    rcases List.mem_append.mp hv with hv | hv
    · by_cases hps : p < s.heap.next
      · rw [a4 p hps] at hv; exact Or.inl hv
      · rw [a5 p (by omega) hpn] at hv
        simp at hv
    · exact Or.inr (hpath v (List.mem_filter.mp (List.mem_filter.mp hv).1).1)

/-! ### the size of the map of principals -/

theorem QMap.sorted_insertEntries {V : Type} (k : QString) (v : V) (l : List (QString × V))
    (hs : l.Pairwise (fun a b => qLess a.1 b.1 = true)) :
    (QMap.insertEntries k v l).Pairwise (fun a b => qLess a.1 b.1 = true) := by
  induction l with
  | nil => simp [QMap.insertEntries]
  | cons e rest ih =>
    obtain ⟨k1, v1⟩ := e
    rw [List.pairwise_cons] at hs
    simp only [QMap.insertEntries]
    cases h1 : qLess k k1 with
    | true =>
      simp only [if_true]
      refine List.pairwise_cons.mpr ⟨?_, List.pairwise_cons.mpr hs⟩
      intro e he
      rcases List.mem_cons.mp he with he | he
      · rw [he]; exact h1
      · exact qLess_trans h1 (hs.1 e he)
    | false =>
      cases h2 : qLess k1 k with
      | true =>
        simp only [Bool.false_eq_true, if_false, if_true]
        refine List.pairwise_cons.mpr ⟨?_, ih hs.2⟩
        intro e he
        rcases QMap.mem_insertEntries he with he | he
        · rw [he]; exact h2
        · exact hs.1 e he
      | false =>
        simp only [Bool.false_eq_true, if_false]
        have heq : k = k1 := eq_of_not_qLess h1 h2
        refine List.pairwise_cons.mpr ⟨?_, hs.2⟩
        intro e he
        rw [heq]
        exact hs.1 e he

theorem scanSetXml_never_stopped (env : Env) (h : env.setDoneAfter = none) (fs : List QString)
    (s : AircraftScanThread) (l : SubdirLocals) : (scanSetXml env fs s l).2.2 = false := by
  induction fs generalizing s l with
  | nil => rfl
  | cons f rest ih =>
    cases hl : loadItem env s f with
    | none => rw [scanSetXml_cons_none hl]; exact ih s l
    | some r =>
      obtain ⟨p, s1⟩ := r
      rw [scanSetXml_cons_some hl]
      have : m_done env (fileItem s1 l f p).1 = false := by unfold m_done; rw [h]
      rw [this]
      exact ih _ _

theorem scanSubdir_never_stopped (env : Env) (h : env.setDoneAfter = none)
    (s : AircraftScanThread) (d : QString) : (scanSubdir env s d).2 = false := by
  unfold scanSubdir
  simp only []
  rw [scanSetXml_never_stopped env h]
  rfl

/-! ### the states of one scan -/

theorem extends_refl (s : AircraftScanThread) : Extends s s :=
  ⟨rfl, le_refl _, fun _ _ => rfl⟩

theorem extends_trans {a b c : AircraftScanThread} (h1 : Extends a b) (h2 : Extends b c) :
    Extends a c :=
  ⟨h2.1.trans h1.1, le_trans h1.2.1 h2.2.1,
   fun q hq => (h2.2.2 q (lt_of_lt_of_le hq h1.2.1)).trans (h1.2.2 q hq)⟩

theorem scanSubdir_extends (env : Env) (s : AircraftScanThread) (d : QString)
    (hwf : CacheWF s) : CacheWF (scanSubdir env s d).1 ∧ Extends s (scanSubdir env s d).1 := by
  by_cases hstop : (scanSubdir env s d).2 = true
  · have hres : (scanSubdir env s d).1
        = (scanSetXml env (env.setXmlEntries d) s ⟨QMap.empty, []⟩).1 := by
      have hb : (scanSetXml env (env.setXmlEntries d) s ⟨QMap.empty, []⟩).2.2 = true := by
        unfold scanSubdir at hstop
        simp only [] at hstop
        by_cases hb : (scanSetXml env (env.setXmlEntries d) s ⟨QMap.empty, []⟩).2.2 = true
        · exact hb
        · rw [if_neg hb] at hstop; exact Bool.noConfusion hstop
      unfold scanSubdir
      simp only []
      rw [if_pos hb]
    obtain ⟨b1, b2, _, _⟩ := scanSetXml_heap env (env.setXmlEntries d) s ⟨QMap.empty, []⟩ hwf
    obtain ⟨c1, _⟩ := scanSetXml_frame env (env.setXmlEntries d) s ⟨QMap.empty, []⟩
    rw [hres]
    exact ⟨CacheWF_of_ext hwf c1.2.1 b1 (fun q hq => by rw [b2 q hq]),
      c1.2.1, b1, fun q hq => by rw [b2 q hq]⟩
  · have hns : (scanSubdir env s d).2 = false := by simpa using hstop
    obtain ⟨ps, h1, base, _, _, a3, a4, _, _, _, hnext, hcached, _, hget⟩ :=
      scanSubdir_spec env s d hwf hns
    have hold : ∀ q, q < s.heap.next →
        ((scanSubdir env s d).1.heap.get q).stored = (s.heap.get q).stored := by
      intro q hq
      rw [(hget q).1, a4 q hq]
    exact ⟨CacheWF_of_ext hwf hcached (by rw [hnext]; exact a3)
        (fun q hq => stored_path (hold q hq)),
      hcached, by rw [hnext]; exact a3, hold⟩

theorem isSpace_ne_hyphen {c : Char} (h : isSpace c = true) : c ≠ '-' := by
  intro hc
  rw [hc] at h
  exact absurd h (by decide)

theorem isSpace_ne_eq {c : Char} (h : isSpace c = true) : c ≠ '=' := by
  intro hc
  rw [hc] at h
  exact absurd h (by decide)

theorem isSpace_ne_quote {c : Char} (h : isSpace c = true) : c ≠ '"' := by
  intro hc
  rw [hc] at h
  exact absurd h (by decide)

theorem tokenizeFrom_start_skip (c : Char) (hc : c ≠ '-') (rest : List Char)
    (key value : QString) (result : List Arg) :
    tokenizeFrom (c :: rest) TokenizerState.Start key value result
      = tokenizeFrom rest TokenizerState.Start key value result := by
  cases rest with
  | nil => simp [tokenizeFrom, hc]
  | cons nc rest => simp [tokenizeFrom, hc]

theorem tokenizeFrom_start_spaces (ws : List Char) (hws : ∀ c ∈ ws, isSpace c = true)
    (rest : List Char) (key value : QString) (result : List Arg) :
    tokenizeFrom (ws ++ rest) TokenizerState.Start key value result
      = tokenizeFrom rest TokenizerState.Start key value result := by
  induction ws with
  | nil => rfl
  | cons c ws ih =>
    rw [List.cons_append,
      tokenizeFrom_start_skip c (isSpace_ne_hyphen (hws c (List.mem_cons_self _ _)))]
    exact ih (fun x hx => hws x (List.mem_cons_of_mem _ hx))

theorem tokenizeFrom_start_hyphens (rest : List Char) (key value : QString)
    (result : List Arg) :
    tokenizeFrom ('-' :: '-' :: rest) TokenizerState.Start key value result
      = tokenizeFrom rest TokenizerState.Key "" value result := by
  simp [tokenizeFrom]

theorem tokenizeFrom_start_single_hyphen (tail : List Char) (htail : tail.head? ≠ some '-')
    (key value : QString) (result : List Arg) :
    tokenizeFrom ('-' :: tail) TokenizerState.Start key value result = [] := by
  cases tail with
  | nil => simp [tokenizeFrom]
  | cons nc rest =>
    have : nc ≠ '-' := fun h => htail (by rw [h]; rfl)
    simp [tokenizeFrom, this]

theorem appendChars (s : QString) (c : Char) (cs : List Char) :
    String.mk ((appendChar s c).data ++ cs) = String.mk (s.data ++ c :: cs) := by
  simp [appendChar]

theorem tokenizeFrom_key_chars (cs : List Char)
    (hcs : ∀ c ∈ cs, isSpace c = false ∧ c ≠ '=') (rest : List Char)
    (key value : QString) (result : List Arg) :
    tokenizeFrom (cs ++ rest) TokenizerState.Key key value result
      = tokenizeFrom rest TokenizerState.Key (String.mk (key.data ++ cs)) value result := by
  induction cs generalizing key with
  | nil => simp
  | cons c cs ih =>
    obtain ⟨h1, h2⟩ := hcs c (List.mem_cons_self _ _)
    rw [List.cons_append]
    simp only [tokenizeFrom, h1, h2, if_false, Bool.false_eq_true]
    rw [ih (fun x hx => hcs x (List.mem_cons_of_mem _ hx)), appendChars]

theorem tokenizeFrom_value_chars (cs : List Char)
    (hcs : ∀ c ∈ cs, isSpace c = false ∧ c ≠ '"') (rest : List Char)
    (key value : QString) (result : List Arg) :
    tokenizeFrom (cs ++ rest) TokenizerState.Value key value result
      = tokenizeFrom rest TokenizerState.Value key (String.mk (value.data ++ cs)) result := by
  induction cs generalizing value with
  | nil => simp
  | cons c cs ih =>
    obtain ⟨h1, h2⟩ := hcs c (List.mem_cons_self _ _)
    rw [List.cons_append]
    simp only [tokenizeFrom, h1, h2, if_false, Bool.false_eq_true]
    rw [ih (fun x hx => hcs x (List.mem_cons_of_mem _ hx)), appendChars]

theorem tokenizeFrom_quoted_char (c : Char) (h1 : c ≠ '"') (h2 : c ≠ '\\') (rest : List Char)
    (key value : QString) (result : List Arg) :
    tokenizeFrom (c :: rest) TokenizerState.Quoted key value result
      = tokenizeFrom rest TokenizerState.Quoted key (appendChar value c) result := by
  cases rest with
  | nil => simp [tokenizeFrom, h1, h2]
  | cons nc rest => simp [tokenizeFrom, h1, h2]

theorem tokenizeFrom_quoted_close (rest : List Char) (key value : QString)
    (result : List Arg) :
    tokenizeFrom ('"' :: rest) TokenizerState.Quoted key value result
      = tokenizeFrom rest TokenizerState.Value key value result := by
  cases rest with
  | nil => simp [tokenizeFrom]
  | cons nc rest => simp [tokenizeFrom]

theorem tokenizeFrom_quoted_chars (cs : List Char)
    (hcs : ∀ c ∈ cs, c ≠ '"' ∧ c ≠ '\\') (rest : List Char)
    (key value : QString) (result : List Arg) :
    tokenizeFrom (cs ++ '"' :: rest) TokenizerState.Quoted key value result
      = tokenizeFrom rest TokenizerState.Value key (String.mk (value.data ++ cs)) result := by
  induction cs generalizing value with
  | nil => simp [tokenizeFrom_quoted_close]
  | cons c cs ih =>
    obtain ⟨h1, h2⟩ := hcs c (List.mem_cons_self _ _)
    rw [List.cons_append, tokenizeFrom_quoted_char c h1 h2,
      ih (fun x hx => hcs x (List.mem_cons_of_mem _ hx)), appendChars]

/-- In the state `Key`, whitespace (or the end of the input) ends the argument. -/
theorem tokenizeFrom_key_end (sep rest : List Char) (hsep : ∀ c ∈ sep, isSpace c = true)
    (hne : sep ≠ [] ∨ rest = []) (key value : QString) (result : List Arg) :
    tokenizeFrom (sep ++ rest) TokenizerState.Key key value result
      = tokenizeFrom rest TokenizerState.Start key value (result ++ [⟨key, ""⟩]) := by
  cases sep with
  | nil =>
    rcases hne with h | h
    · exact absurd rfl h
    · subst h; simp [tokenizeFrom]
  | cons c ws =>
    have hc := hsep c (List.mem_cons_self _ _)
    rw [List.cons_append]
    simp only [tokenizeFrom, isSpace_ne_eq hc, hc, if_false, if_true]
    exact tokenizeFrom_start_spaces ws (fun x hx => hsep x (List.mem_cons_of_mem _ hx)) _ _ _ _

/-- In the state `Value`, whitespace (or the end of the input) ends the argument. -/
theorem tokenizeFrom_value_end (sep rest : List Char) (hsep : ∀ c ∈ sep, isSpace c = true)
    (hne : sep ≠ [] ∨ rest = []) (key value : QString) (result : List Arg) :
    tokenizeFrom (sep ++ rest) TokenizerState.Value key value result
      = tokenizeFrom rest TokenizerState.Start key value (result ++ [⟨key, value⟩]) := by
  cases sep with
  | nil =>
    rcases hne with h | h
    · exact absurd rfl h
    · subst h; simp [tokenizeFrom]
  | cons c ws =>
    have hc := hsep c (List.mem_cons_self _ _)
    rw [List.cons_append]
    simp only [tokenizeFrom, isSpace_ne_quote hc, hc, if_false, if_true]
    exact tokenizeFrom_start_spaces ws (fun x hx => hsep x (List.mem_cons_of_mem _ hx)) _ _ _ _

/-- One well-formed argument and its separator, read from the state `Start`. -/
theorem tokenizeFrom_arg (a : ArgText) (hwf : a.WellFormed) (sep rest : List Char)
    (hsep : ∀ c ∈ sep, isSpace c = true) (hne : sep ≠ [] ∨ rest = [])
    (key value : QString) (result : List Arg) :
    ∃ key' value', tokenizeFrom (a.text ++ sep ++ rest) TokenizerState.Start key value result
      = tokenizeFrom rest TokenizerState.Start key' value' (result ++ [a.entry]) := by
  cases a with
  | flag k =>
    refine ⟨String.mk k, value, ?_⟩
    simp only [ArgText.text, ArgText.entry, List.cons_append, List.append_assoc]
    rw [tokenizeFrom_start_hyphens, tokenizeFrom_key_chars k hwf.2,
      tokenizeFrom_key_end sep rest hsep hne]
    rfl
  | plain k v =>
    refine ⟨String.mk k, String.mk v, ?_⟩
    simp only [ArgText.text, ArgText.entry, List.cons_append, List.append_assoc]
    rw [tokenizeFrom_start_hyphens, tokenizeFrom_key_chars k hwf.1.2]
    simp only [tokenizeFrom, if_true]
    rw [tokenizeFrom_value_chars v hwf.2, tokenizeFrom_value_end sep rest hsep hne]
    rfl
  | quoted k v =>
    refine ⟨String.mk k, String.mk v, ?_⟩
    simp only [ArgText.text, ArgText.entry, List.cons_append, List.append_assoc,
      List.nil_append]
    rw [tokenizeFrom_start_hyphens, tokenizeFrom_key_chars k hwf.1.2]
    simp only [tokenizeFrom, if_true]
    rw [tokenizeFrom_quoted_chars v hwf.2, tokenizeFrom_value_end sep rest hsep hne]
    rfl

theorem tokenizeFrom_args (args : List (ArgText × List Char))
    (hwf : ∀ a ∈ args, a.1.WellFormed) (hsep : Separated args)
    (key value : QString) (result : List Arg) :
    tokenizeFrom (argsText args) TokenizerState.Start key value result
      = result ++ args.map (fun a => a.1.entry) := by
  induction args generalizing key value result with
  | nil => simp [argsText, tokenizeFrom]
  | cons a rest ih =>
    have hwfa := hwf a (List.mem_cons_self _ _)
    have hrest : Separated rest ∧ (∀ c ∈ a.2, isSpace c = true) ∧
        (a.2 ≠ [] ∨ argsText rest = []) := by
      cases rest with
      | nil => exact ⟨trivial, hsep, Or.inr rfl⟩
      | cons b rest => exact ⟨hsep.2.2, hsep.2.1, Or.inl hsep.1⟩
    obtain ⟨k1, v1, h1⟩ := tokenizeFrom_arg a.1 hwfa a.2 (argsText rest) hrest.2.1 hrest.2.2
      key value result
    simp only [argsText]
    rw [h1, ih (fun x hx => hwf x (List.mem_cons_of_mem _ hx)) hrest.1]
    simp

/-- The arguments read so far, when every separator is not empty: the
tokenizer is back in the state `Start` with one entry for every argument. -/
theorem tokenizeFrom_args_then (args : List (ArgText × List Char))
    (hwf : ∀ a ∈ args, a.1.WellFormed)
    (hsep : ∀ a ∈ args, a.2 ≠ [] ∧ ∀ c ∈ a.2, isSpace c = true)
    (tail : List Char) (key value : QString) (result : List Arg) :
    ∃ key' value', tokenizeFrom (argsText args ++ tail) TokenizerState.Start key value result
      = tokenizeFrom tail TokenizerState.Start key' value'
          (result ++ args.map (fun a => a.1.entry)) := by
  induction args generalizing key value result with
  | nil => exact ⟨key, value, by simp [argsText]⟩
  | cons a rest ih =>
    have hwfa := hwf a (List.mem_cons_self _ _)
    have hsa := hsep a (List.mem_cons_self _ _)
    obtain ⟨k1, v1, h1⟩ := tokenizeFrom_arg a.1 hwfa a.2 (argsText rest ++ tail) hsa.2
      (Or.inl hsa.1) key value result
    obtain ⟨k2, v2, h2⟩ := ih (fun x hx => hwf x (List.mem_cons_of_mem _ hx))
      (fun x hx => hsep x (List.mem_cons_of_mem _ hx)) k1 v1 (result ++ [a.1.entry])
    refine ⟨k2, v2, ?_⟩
    simp only [argsText, List.append_assoc] at h1 ⊢
    rw [h1, h2]
    simp

/-- C17. Tokenizer on input that follows the grammar: for arguments written
`--key`, `--key=value` or `--key="value"` (key not empty, without whitespace
and `=`; unquoted value without whitespace and double quote; quoted value
without double quote and backslash), each followed by whitespace that may be
empty only after the last one, and possibly preceded by whitespace, `tokenize`
returns one entry for every argument, in order, with that key and that value
(the empty value for `--key`, the quotes removed). -/
theorem tokenize_well_formed (lead : List Char) (args : List (ArgText × List Char))
    (hlead : ∀ c ∈ lead, isSpace c = true)
    (hwf : ∀ a ∈ args, a.1.WellFormed) (hsep : Separated args) :
    tokenize (String.mk (lead ++ argsText args)) = args.map (fun a => a.1.entry) ∧
    (tokenize (String.mk (lead ++ argsText args))).length = args.length := by
  have h : tokenize (String.mk (lead ++ argsText args)) = args.map (fun a => a.1.entry) := by
    unfold tokenize
    show tokenizeFrom (lead ++ argsText args) _ _ _ _ = _
    rw [tokenizeFrom_start_spaces lead hlead, tokenizeFrom_args args hwf hsep]
    rfl
  exact ⟨h, by rw [h, List.length_map]⟩

/-- C18. Single hyphen: an input made of arguments that follow the grammar,
each followed by whitespace that is not empty, and then a `-` that is not
followed by a second `-`, gives the empty list, whatever follows. More
generally, read in the state `Start`, or in the states `Key` and `Value` after
whitespace that is not empty, such a `-` makes the loop return the empty list
whatever the key, the value and the entries collected so far. -/
theorem tokenize_single_hyphen (lead : List Char) (args : List (ArgText × List Char))
    (tail : List Char)
    (hlead : ∀ c ∈ lead, isSpace c = true)
    (hwf : ∀ a ∈ args, a.1.WellFormed)
    (hsep : ∀ a ∈ args, a.2 ≠ [] ∧ ∀ c ∈ a.2, isSpace c = true)
    (htail : tail.head? ≠ some '-') :
    tokenize (String.mk (lead ++ argsText args ++ '-' :: tail)) = [] ∧
    (∀ key value result,
      tokenizeFrom ('-' :: tail) TokenizerState.Start key value result = []) ∧
    (∀ ws, ws ≠ [] → (∀ c ∈ ws, isSpace c = true) → ∀ key value result,
      tokenizeFrom (ws ++ '-' :: tail) TokenizerState.Key key value result = [] ∧
      tokenizeFrom (ws ++ '-' :: tail) TokenizerState.Value key value result = []) := by
  refine ⟨?_, fun key value result => tokenizeFrom_start_single_hyphen tail htail _ _ _, ?_⟩
  · unfold tokenize
    show tokenizeFrom (lead ++ argsText args ++ '-' :: tail) _ _ _ _ = _
    obtain ⟨k, v, h⟩ := tokenizeFrom_args_then args hwf hsep ('-' :: tail) "" "" []
    rw [List.append_assoc, tokenizeFrom_start_spaces lead hlead, h]
    exact tokenizeFrom_start_single_hyphen tail htail _ _ _
  · intro ws hne hws key value result
    rw [tokenizeFrom_key_end ws _ hws (Or.inl hne), tokenizeFrom_value_end ws _ hws (Or.inl hne)]
    exact ⟨tokenizeFrom_start_single_hyphen tail htail _ _ _,
      tokenizeFrom_start_single_hyphen tail htail _ _ _⟩

theorem tokenizeFrom_quoted_run (cs : List Char)
    (hcs : ∀ c ∈ cs, c ≠ '"' ∧ c ≠ '\\') (rest : List Char)
    (key value : QString) (result : List Arg) :
    tokenizeFrom (cs ++ rest) TokenizerState.Quoted key value result
      = tokenizeFrom rest TokenizerState.Quoted key (String.mk (value.data ++ cs)) result := by
  induction cs generalizing value with
  | nil => simp
  | cons c cs ih =>
    obtain ⟨h1, h2⟩ := hcs c (List.mem_cons_self _ _)
    rw [List.cons_append, tokenizeFrom_quoted_char c h1 h2,
      ih (fun x hx => hcs x (List.mem_cons_of_mem _ hx)), appendChars]

theorem tokenizeFrom_quoted_escape (rest : List Char) (key value : QString)
    (result : List Arg) :
    tokenizeFrom ('\\' :: '"' :: rest) TokenizerState.Quoted key value result
      = tokenizeFrom rest TokenizerState.Quoted key value result := by
  simp [tokenizeFrom]

/-- C19. Escaped quote as the code has it: inside a quoted value, a backslash
followed by a double quote does not end the quoted section, and neither
character is appended to the value: for a key and two pieces of quoted text
without double quote and backslash, the input `--key="before\"after"` gives
the single entry with the value `beforeafter`, which is not the value with a
double quote between the two pieces. -/
theorem escaped_quote_dropped (key before after : List Char) (hkey : KeyOk key)
    (hbefore : ∀ c ∈ before, c ≠ '"' ∧ c ≠ '\\')
    (hafter : ∀ c ∈ after, c ≠ '"' ∧ c ≠ '\\') :
    tokenize (String.mk ('-' :: '-' :: (key ++ '=' :: '"' ::
        (before ++ '\\' :: '"' :: (after ++ ['"'])))))
      = [⟨String.mk key, String.mk (before ++ after)⟩] ∧
    tokenize (String.mk ('-' :: '-' :: (key ++ '=' :: '"' ::
        (before ++ '\\' :: '"' :: (after ++ ['"'])))))
      ≠ [⟨String.mk key, String.mk (before ++ '"' :: after)⟩] := by
  have h : tokenize (String.mk ('-' :: '-' :: (key ++ '=' :: '"' ::
        (before ++ '\\' :: '"' :: (after ++ ['"'])))))
      = [⟨String.mk key, String.mk (before ++ after)⟩] := by
    unfold tokenize
    show tokenizeFrom ('-' :: '-' :: (key ++ '=' :: '"' ::
        (before ++ '\\' :: '"' :: (after ++ ['"'])))) _ _ _ _ = _
    rw [tokenizeFrom_start_hyphens, tokenizeFrom_key_chars key hkey.2]
    simp only [tokenizeFrom, if_true]
    rw [tokenizeFrom_quoted_run before hbefore, tokenizeFrom_quoted_escape,
      tokenizeFrom_quoted_chars after hafter]
    simp [tokenizeFrom]
  refine ⟨h, ?_⟩
  rw [h]
  intro hc
  have h1 := congrArg (fun l => l.map (fun a => a.value.data.length)) hc
  simp at h1

/-! ### the stop flag in the file loop -/

theorem m_done_mono (env : Env) {s s' : AircraftScanThread} (h : s.doneReads ≤ s'.doneReads)
    (hset : m_done env s = true) : m_done env s' = true := by
  unfold m_done at hset ⊢
  cases hd : env.setDoneAfter with
  | none => rw [hd] at hset; exact Bool.noConfusion hset
  | some n =>
    rw [hd] at hset
    simp only [decide_eq_true_eq] at hset ⊢
    omega

theorem handledSetXml_failures (env : Env) (bad rest : List QString) (s : AircraftScanThread)
    (l : SubdirLocals) (hbad : ∀ g ∈ bad, recordOf env s g = none) :
    handledSetXml env (bad ++ rest) s l = bad ++ handledSetXml env rest s l ∧
    scanSetXml env (bad ++ rest) s l = scanSetXml env rest s l := by
  induction bad with
  | nil => exact ⟨rfl, rfl⟩
  | cons g bad ih =>
    have hg := loadItem_of_recordOf_none (hbad g (List.mem_cons_self _ _))
    obtain ⟨i1, i2⟩ := ih (fun x hx => hbad x (List.mem_cons_of_mem _ hx))
    constructor
    · rw [List.cons_append]
      simp only [handledSetXml, hg]
      exact congrArg (List.cons g) i1
    · rw [List.cons_append, scanSetXml_cons_none hg, i2]

/-- C20. Stop flag and files that do not load: with the stop flag set, the
file loop of a subdirectory handles every file of a run of files whose load
throws and goes on with the files after them, without reading the flag (the
loop over such files alone ends without the stop result); a file that loads
is the last one handled. -/
theorem stop_check_skipped_on_failure (env : Env) (s : AircraftScanThread) (l : SubdirLocals)
    (bad rest : List QString) (hset : m_done env s = true)
    (hbad : ∀ g ∈ bad, recordOf env s g = none) :
    handledSetXml env (bad ++ rest) s l = bad ++ handledSetXml env rest s l ∧
    handledSetXml env bad s l = bad ∧
    (scanSetXml env bad s l).2.2 = false ∧
    (∀ f, recordOf env s f ≠ none → handledSetXml env (f :: rest) s l = [f]) := by
  obtain ⟨h1, _⟩ := handledSetXml_failures env bad rest s l hbad
  obtain ⟨h3, h4⟩ := handledSetXml_failures env bad [] s l hbad
  rw [List.append_nil] at h3 h4
  refine ⟨h1, by rw [h3]; simp [handledSetXml], by rw [h4]; rfl, ?_⟩
  intro f hf
  cases hl : loadItem env s f with
  | none =>
    exfalso
    apply hf
    unfold loadItem at hl
    unfold recordOf
    by_cases hc : s.m_cachedItems.contains f = true
    · rw [if_pos hc] at hl; exact Option.noConfusion hl
    · rw [if_neg hc] at hl ⊢
      cases hcon : AircraftItem.construct env f with
      | none => rfl
      | some item => rw [hcon] at hl; exact Option.noConfusion hl
  | some r =>
    obtain ⟨p, s1⟩ := r
    have hfr := (loadItem_frame hl).1.2.2.2.2
    have hfi : (fileItem s1 l f p).1.doneReads = s1.doneReads := by
      unfold fileItem
      split <;> rfl
    have hd : m_done env (fileItem s1 l f p).1 = true :=
      m_done_mono env (by rw [hfi]; exact hfr) hset
    simp only [handledSetXml, hl, hd, if_true]

/-- C11, counterexample. The sample catalog has one row, with one variant and
the active-variant index 0. `setData` with the value 5 returns true and the
index read back is 5, not 0; with the value -1 the index stored is
4294967295. -/
theorem setData_stores_out_of_range :
    pairCatalog = { m_items := [2], m_activeVariant := [0] } ∧
    data pairScanned.heap pairCatalog 0 AircraftVariantCountRole = some (QVariant.int 1) ∧
    data pairScanned.heap pairCatalog 0 AircraftVariantRole = some (QVariant.uint 0) ∧
    setData pairCatalog 0 5 AircraftVariantRole
      = some ({ m_items := [2], m_activeVariant := [5] }, true) ∧
    data pairScanned.heap { m_items := [2], m_activeVariant := [5] } 0 AircraftVariantRole
      = some (QVariant.uint 5) ∧
    setData pairCatalog 0 (-1) AircraftVariantRole
      = some ({ m_items := [2], m_activeVariant := [4294967295] }, true) := by
  refine ⟨by decide, by decide, by decide, by decide, by decide, by decide⟩

/-- C11, witness: the variant index 5 set on the one row of the sample
catalog, whose principal has one variant. -/
theorem setData_out_of_range_witness :
    ∃ m', setData pairCatalog ((0 : Nat) : Int) 5 AircraftVariantRole = some (m', true) ∧
      m'.m_activeVariant[0]? = some (wordOfInt 5) ∧
      data pairScanned.heap m' ((0 : Nat) : Int) AircraftVariantRole
        = some (QVariant.uint (wordOfInt 5)) ∧
      (∀ j, j ≠ 0 → m'.m_activeVariant[j]? = pairCatalog.m_activeVariant[j]?) ∧
      m'.m_items = pairCatalog.m_items ∧
      ∀ rv ∈ recordRoles (pairScanned.heap.get 2),
        data pairScanned.heap m' ((0 : Nat) : Int) rv.1 = some rv.2 :=
  setData_out_of_range pairScanned.heap pairCatalog 0 2 5 (by decide) (by decide) (by decide)
    (by decide) (Or.inr (by decide))

/-- C12, witness: the variant 1 selected on the one row of the sample
catalog. -/
theorem setData_in_range_witness :
    ∃ m', setData pairCatalog ((0 : Nat) : Int) 1 AircraftVariantRole = some (m', true) ∧
      data pairScanned.heap m' ((0 : Nat) : Int) AircraftVariantRole
        = some (QVariant.uint (1 : Int).toNat) ∧
      (∀ j, j ≠ 0 → m'.m_activeVariant[j]? = pairCatalog.m_activeVariant[j]?) ∧
      m'.m_items = pairCatalog.m_items ∧ m'.rowCount = pairCatalog.rowCount ∧
      m'.m_activeVariant.length = pairCatalog.m_activeVariant.length :=
  setData_in_range pairScanned.heap pairCatalog 0 1 1 (by decide) (by decide) (by decide)
    (by decide) (by decide) (by decide)

/-- C14, witness: the sample catalog with the variant 1 selected; the record
shown is that of `v1`. -/
theorem data_shows_active_variant_witness :
    ((1 : Nat) = 0 → ∀ rv ∈ recordRoles (pairScanned.heap.get 2),
      data pairScanned.heap { m_items := [2], m_activeVariant := [1] } ((0 : Nat) : Int) rv.1
        = some rv.2) ∧
    (∀ v, 1 ≤ 1 → 1 ≤ (pairScanned.heap.get 2).variants.length →
      (pairScanned.heap.get 2).variants[1 - 1]? = some v →
      ∀ rv ∈ recordRoles (pairScanned.heap.get v),
        data pairScanned.heap { m_items := [2], m_activeVariant := [1] } ((0 : Nat) : Int) rv.1
          = some rv.2) :=
  data_shows_active_variant pairScanned.heap { m_items := [2], m_activeVariant := [1] } 0 2 1
    (by decide) (by decide)

/-- C16, witness: the file `x` of `brokenEnv`, which is in the listing of
`/r/a` and does not parse. -/
theorem malformed_file_skipped_witness :
    recordOf (brokenEnv none) (AircraftScanThread.init ["/r"] Heap.init []) "/r/a/x-set.xml"
      = none ∧
    "/r/a/x-set.xml" ∈ (brokenEnv none).setXmlEntries "/r/a" ∧
    scanSubdir { brokenEnv none with setXmlEntries := fun d => ((brokenEnv none).setXmlEntries d).filter (fun x => x != "/r/a/x-set.xml") }
        (AircraftScanThread.init ["/r"] Heap.init []) "/r/a"
      = scanSubdir (brokenEnv none) (AircraftScanThread.init ["/r"] Heap.init []) "/r/a" :=
  ⟨by decide, by decide,
   (malformed_file_skipped (brokenEnv none) (AircraftScanThread.init ["/r"] Heap.init [])
      "/r/a" "/r/a/x-set.xml" (by intro k p hp; exact Option.noConfusion hp) (by decide)).1⟩

/-- C17, witness: the input `--foo=bar --baz="hello world" --flag` gives the
three entries (foo, bar), (baz, hello world) and (flag, empty). -/
theorem tokenize_well_formed_witness :
    tokenize "--foo=bar --baz=\"hello world\" --flag"
      = [⟨"foo", "bar"⟩, ⟨"baz", "hello world"⟩, ⟨"flag", ""⟩] :=
  (tokenize_well_formed []
    [(ArgText.plain ['f', 'o', 'o'] ['b', 'a', 'r'], [' ']),
     (ArgText.quoted ['b', 'a', 'z'] "hello world".data, [' ']),
     (ArgText.flag ['f', 'l', 'a', 'g'], [])]
    (by simp) (by simp [ArgText.WellFormed, KeyOk]; decide)
    (by simp [Separated]; decide)).1

/-- C18, witness: `--a=1 -x` and `-x` give no entry, while `--a=1` alone gives
the entry (a, 1). -/
theorem tokenize_single_hyphen_witness :
    tokenize "--a=1 -x" = [] ∧ tokenize "-x" = [] ∧ tokenize "--a=1" = [⟨"a", "1"⟩] :=
  ⟨(tokenize_single_hyphen [] [(ArgText.plain ['a'] ['1'], [' '])] ['x']
      (by simp) (by simp [ArgText.WellFormed, KeyOk]; decide) (by simp; decide) (by decide)).1,
   by decide, by decide⟩

/-- C19, witness: `--k="a\"b"` gives the entry (k, ab), not (k, a"b). -/
theorem escaped_quote_dropped_witness :
    tokenize "--k=\"a\\\"b\"" = [⟨"k", "ab"⟩] ∧
    tokenize "--k=\"a\\\"b\"" ≠ [⟨"k", "a\"b"⟩] :=
  escaped_quote_dropped ['k'] ['a'] ['b'] (by simp [KeyOk]; decide) (by simp) (by simp)

/-- C20, witness: in `brokenEnv` with the flag set before the worker starts,
`run` handles the two files that do not parse and then `p`, three files; in
the sample tree, whose files all load, it handles one. -/
theorem stop_check_skipped_on_failure_witness :
    m_done (brokenEnv (some 0)) (AircraftScanThread.init ["/r"] Heap.init []) = true ∧
    handledSetXml (brokenEnv (some 0)) ["/r/a/x-set.xml", "/r/a/y-set.xml"]
        (AircraftScanThread.init ["/r"] Heap.init []) ⟨QMap.empty, []⟩
      = ["/r/a/x-set.xml", "/r/a/y-set.xml"] ∧
    handledByRun (brokenEnv (some 0)) (AircraftScanThread.init ["/r"] Heap.init [])
      = ["/r/a/x-set.xml", "/r/a/y-set.xml", "/r/a/p-set.xml"] ∧
    handledByRun (sampleEnv (some 0)) (AircraftScanThread.init ["/r"] Heap.init [])
      = ["/r/a/v1-set.xml"] :=
  ⟨by decide,
   (stop_check_skipped_on_failure (brokenEnv (some 0))
      (AircraftScanThread.init ["/r"] Heap.init []) ⟨QMap.empty, []⟩
      ["/r/a/x-set.xml", "/r/a/y-set.xml"] [] (by decide)
      (by
        intro g hg
        have hg' : g = "/r/a/x-set.xml" ∨ g = "/r/a/y-set.xml" := by simpa using hg
        rcases hg' with h | h <;> subst h <;> decide)).2.1,
   by decide, by decide⟩

/-! ### ratings -/

theorem toInt32_of_int32 (i : Int) (h : IsInt32 i) : toInt32 i = i := by
  unfold IsInt32 at h
  unfold toInt32 intOfWord wordOfInt
  split <;> omega

theorem construct_ratings (env : Env) (f : QString) (item : AircraftItem)
    (h : AircraftItem.construct env f = some item) :
    ∃ root sim, env.readProperties f = some root ∧ root.sim = some sim ∧
      item.ratings = ratingsOfSim sim := by
  unfold AircraftItem.construct at h
  cases hr : env.readProperties f with
  | none => rw [hr] at h; exact Option.noConfusion h
  | some root =>
    rw [hr] at h
    simp only [] at h
    cases hs : root.sim with
    | none => rw [hs] at h; exact Option.noConfusion h
    | some sim =>
      rw [hs] at h
      simp only [] at h
      refine ⟨root, sim, rfl, hs, ?_⟩
      rw [← Option.some.inj h]
      unfold ratingsOfSim
      cases sim.rating <;> rfl

/-- C24 (amended). Ratings as read: a record built by the constructor from a
definition file has the ratings (0, 0, 0, 0) when the `sim` node has no
`rating` child, and otherwise the values of `FDM`, `systems`, `cockpit` and
`model` (zero for an absent child) as C++ `int`s, unchanged when they are
in the `int` range: the four ratings are in 0..4 exactly when the four values
are. A record read back from the stream that `toDataStream` wrote has the
ratings that were written. -/
theorem ratings_not_clamped (env : Env) (f : QString) (item : AircraftItem)
    (h : AircraftItem.construct env f = some item) :
    (∃ root sim, env.readProperties f = some root ∧ root.sim = some sim ∧
      item.ratings = ratingsOfSim sim ∧
      (sim.rating = none → item.ratings = (0, 0, 0, 0)) ∧
      (∀ r, sim.rating = some r →
        IsInt32 r.FDM → IsInt32 r.systems → IsInt32 r.cockpit → IsInt32 r.model →
        item.ratings = (r.FDM, r.systems, r.cockpit, r.model) ∧
        ((RatingOk item.ratings.1 ∧ RatingOk item.ratings.2.1 ∧ RatingOk item.ratings.2.2.1 ∧
            RatingOk item.ratings.2.2.2) ↔
          (RatingOk r.FDM ∧ RatingOk r.systems ∧ RatingOk r.cockpit ∧ RatingOk r.model)))) ∧
    (∀ rest, item.ratingsInt32 →
      (AircraftItem.fromDataStream (item.toDataStream ++ rest)).1.ratings = item.ratings) := by
  obtain ⟨root, sim, h1, h2, h3⟩ := construct_ratings env f item h
  refine ⟨⟨root, sim, h1, h2, h3, ?_, ?_⟩, ?_⟩
  · intro hn
    rw [h3]; unfold ratingsOfSim; rw [hn]; rfl
  · intro r hr i1 i2 i3 i4
    have : item.ratings = (r.FDM, r.systems, r.cockpit, r.model) := by
      rw [h3]; unfold ratingsOfSim; rw [hr]
      simp [toInt32_of_int32 _ i1, toInt32_of_int32 _ i2, toInt32_of_int32 _ i3,
        toInt32_of_int32 _ i4]
    refine ⟨this, ?_⟩
    rw [this]
  · intro rest hint
    rw [fromDataStream_toDataStream item rest hint]

/-! ### the end of the input -/

/-- C26. The end of the input: after arguments that follow the grammar, each
followed by whitespace, a last argument `--key` or `--key=value` that the
input ends in is appended as the last entry, and a last argument
`--key="text` that the input ends in, inside the quotes, is not: the result
holds the entries of the earlier arguments only. After the loop the state
`Key` appends the key, the state `Value` appends key and value, and the
state `Quoted` appends nothing. -/
theorem unterminated_quote_lost (lead : List Char) (args : List (ArgText × List Char))
    (key text : List Char)
    (hlead : ∀ c ∈ lead, isSpace c = true)
    (hwf : ∀ a ∈ args, a.1.WellFormed)
    (hsep : ∀ a ∈ args, a.2 ≠ [] ∧ ∀ c ∈ a.2, isSpace c = true)
    (hkey : KeyOk key) (htext : ∀ c ∈ text, c ≠ '"' ∧ c ≠ '\\') :
    tokenize (String.mk (lead ++ argsText args ++ '-' :: '-' :: (key ++ '=' :: '"' :: text)))
      = args.map (fun a => a.1.entry) ∧
    tokenize (String.mk (lead ++ argsText args ++ '-' :: '-' :: key))
      = args.map (fun a => a.1.entry) ++ [⟨String.mk key, ""⟩] ∧
    (∀ value, (∀ c ∈ value, isSpace c = false ∧ c ≠ '"') →
      tokenize (String.mk (lead ++ argsText args ++ '-' :: '-' :: (key ++ '=' :: value)))
        = args.map (fun a => a.1.entry) ++ [⟨String.mk key, String.mk value⟩]) ∧
    (∀ k v result,
      tokenizeFrom [] TokenizerState.Key k v result = result ++ [⟨k, ""⟩] ∧
      tokenizeFrom [] TokenizerState.Value k v result = result ++ [⟨k, v⟩] ∧
      tokenizeFrom [] TokenizerState.Quoted k v result = result) := by
  refine ⟨?_, ?_, ?_, fun k v result => ⟨rfl, rfl, rfl⟩⟩
  · unfold tokenize
    show tokenizeFrom (lead ++ argsText args ++ '-' :: '-' :: (key ++ '=' :: '"' :: text))
      _ _ _ _ = _
    obtain ⟨k, v, h⟩ := tokenizeFrom_args_then args hwf hsep
      ('-' :: '-' :: (key ++ '=' :: '"' :: text)) "" "" []
    rw [List.append_assoc, tokenizeFrom_start_spaces lead hlead, h,
      tokenizeFrom_start_hyphens, tokenizeFrom_key_chars key hkey.2]
    simp only [tokenizeFrom, if_true]
    have := tokenizeFrom_quoted_run text htext [] (String.mk ("".data ++ key)) ""
      ([] ++ args.map (fun a => a.1.entry))
    rw [List.append_nil] at this
    rw [this]
    simp [tokenizeFrom]
  · unfold tokenize
    show tokenizeFrom (lead ++ argsText args ++ '-' :: '-' :: key) _ _ _ _ = _
    obtain ⟨k, v, h⟩ := tokenizeFrom_args_then args hwf hsep ('-' :: '-' :: key) "" "" []
    rw [List.append_assoc, tokenizeFrom_start_spaces lead hlead, h,
      tokenizeFrom_start_hyphens]
    have := tokenizeFrom_key_chars key hkey.2 [] "" v ([] ++ args.map (fun a => a.1.entry))
    rw [List.append_nil] at this
    rw [this]
    simp [tokenizeFrom]
  · intro value hvalue
    unfold tokenize
    show tokenizeFrom (lead ++ argsText args ++ '-' :: '-' :: (key ++ '=' :: value)) _ _ _ _ = _
    obtain ⟨k, v, h⟩ := tokenizeFrom_args_then args hwf hsep
      ('-' :: '-' :: (key ++ '=' :: value)) "" "" []
    rw [List.append_assoc, tokenizeFrom_start_spaces lead hlead, h,
      tokenizeFrom_start_hyphens, tokenizeFrom_key_chars key hkey.2]
    simp only [tokenizeFrom, if_true]
    have := tokenizeFrom_value_chars value hvalue [] (String.mk ("".data ++ key)) ""
      ([] ++ args.map (fun a => a.1.entry))
    rw [List.append_nil] at this
    rw [this]
    simp [tokenizeFrom]

/-! ### the path reported for a row, looked up again -/

theorem data_path_role (heap : Heap) (m : AircraftItemModel) (i p av : Nat)
    (hp : m.m_items[i]? = some p) (hav : m.m_activeVariant[i]? = some av) :
    data heap m i AircraftPathRole
      = (shownItem heap (heap.get p) av).map (fun item => QVariant.string item.path) := by
  rw [data_record_role heap m i p av AircraftPathRole hp hav (by decide) (by decide) (by decide)]
  cases shownItem heap (heap.get p) av with
  | none => rfl
  | some item =>
    simp [roleValue, Qt_DisplayRole, Qt_DecorationRole, AircraftPathRole, Qt_UserRole]

/-- C25. The path reported for a row, looked up again: for a row `i` with
principal `p` whose path no other row has, when the active-variant index is 0
or greater than the number of variants, `data(i, AircraftPathRole)` is the
path of `p` and `indexOfAircraftPath` of it is `i`; when the active-variant
index selects the variant `v` and no principal of the catalog has the path of
`v`, `data(i, AircraftPathRole)` is the path of `v` and `indexOfAircraftPath`
of it is the invalid index. -/
theorem resync_misses_variant (heap : Heap) (m : AircraftItemModel) (i p av : Nat)
    (hp : m.m_items[i]? = some p) (hav : m.m_activeVariant[i]? = some av)
    (hdistinct : ∀ j q, m.m_items[j]? = some q → (heap.get q).path = (heap.get p).path → j = i) :
    (av = 0 ∨ (heap.get p).variants.length < av →
      data heap m i AircraftPathRole = some (QVariant.string (heap.get p).path) ∧
      indexOfAircraftPath heap m (heap.get p).path = some i) ∧
    (∀ v, 1 ≤ av → (heap.get p).variants[av - 1]? = some v →
      (∀ q ∈ m.m_items, (heap.get q).path ≠ (heap.get v).path) →
      data heap m i AircraftPathRole = some (QVariant.string (heap.get v).path) ∧
      indexOfAircraftPath heap m (heap.get v).path = none) := by
  constructor
  · intro h
    constructor
    · rw [data_path_role heap m i p av hp hav]
      rcases h with h | h
      · rw [h, shownItem_zero]; rfl
      · rw [shownItem_out_of_range heap _ _ h]; rfl
    · unfold indexOfAircraftPath
      rw [indexOfAircraftPathFrom_some]
      refine ⟨i, by omega, ⟨p, hp, rfl⟩, ?_⟩
      intro j hj q hq hpath
      have := hdistinct j q hq hpath
      omega
  · intro v h1 hv hne
    constructor
    · rw [data_path_role heap m i p av hp hav, shownItem_variant heap _ av v h1 hv]; rfl
    · exact (indexOfAircraftPathFrom_none heap _ m.m_items 0).mpr hne

/-! ### a payload with fewer records than its count -/

theorem storedEntries_nil (n : Nat) : storedEntries n [] = List.replicate n emptyRead := by
  induction n with
  | zero => rfl
  | succ n ih =>
    have h2 : (AircraftItem.fromDataStream []).2 = [] := rfl
    simp only [storedEntries, h2, ih, List.replicate_succ]
    rfl

theorem storedEntries_records (records : List AircraftItem) (extra : Nat)
    (hint : ∀ r ∈ records, r.ratingsInt32) :
    storedEntries (records.length + extra) (records.map AircraftItem.toDataStream).flatten
      = records.map (fun r => { r with variants := [] }) ++ List.replicate extra emptyRead := by
  induction records with
  | nil => simpa using storedEntries_nil extra
  | cons r rest ih =>
    have hr := fromDataStream_toDataStream r (rest.map AircraftItem.toDataStream).flatten
      (hint r (List.mem_cons_self _ _))
    have hlen : (r :: rest).length + extra = (rest.length + extra) + 1 := by
      simp only [List.length_cons]; omega
    rw [hlen]
    simp only [List.map_cons, List.flatten_cons, storedEntries, hr, List.cons_append]
    rw [ih (fun x hx => hint x (List.mem_cons_of_mem _ hx))]

/-- C21 (amended). Payload cut off after complete records: let the stored
payload carry the current version tag and a count `n` below 2^32, followed by
the streams of `records` only, with `n` at least the number of records (their
ratings C++ `int`s), and let no file have the empty path. Then `readCache`,
started with an empty map, keeps exactly the paths of the records that
validate: the records missing at the end are read as default items, whose
path is empty, and dropped. Every entry kept points to an object with the
stored members of such a record, and the scan reuses that object for its
path; the map is not empty as soon as one record validates. -/
theorem readCache_truncated (env : Env) (s : AircraftScanThread) (records : List AircraftItem)
    (n : Nat)
    (hempty : s.m_cachedItems = QMap.empty)
    (hsettings : s.settings = Datum.word (wordOfInt CACHE_VERSION) :: Datum.word n ::
      (records.map AircraftItem.toDataStream).flatten)
    (hn : records.length ≤ n) (hn32 : n < 4294967296)
    (hint : ∀ r ∈ records, r.ratingsInt32)
    (hnofile : env.fileExists "" = false) :
    (∀ k, (readCache env s).m_cachedItems.contains k = true ↔
      ∃ e ∈ records, e.path = k ∧ validEntry env e = true) ∧
    (∀ k p, (readCache env s).m_cachedItems.lookup k = some p →
      ∃ e ∈ records, e.path = k ∧ validEntry env e = true ∧
        ((readCache env s).heap.get p).stored = e.stored ∧
        recordOf env (readCache env s) k = some ((readCache env s).heap.get p)) ∧
    ((∃ e ∈ records, validEntry env e = true) →
      (readCache env s).m_cachedItems ≠ QMap.empty) := by
  have hread : readCache env s
      = readCacheItems env n (records.map AircraftItem.toDataStream).flatten s := by
    unfold readCache
    rw [hsettings]
    have h1 : wordOfInt CACHE_VERSION % 4294967296 = wordOfInt CACHE_VERSION := by decide
    have h2 : n % 4294967296 = n := Nat.mod_eq_of_lt hn32
    simp [readWord, h1, h2]
  obtain ⟨_, _, hc, hd⟩ := readCacheItems_spec env n
    (records.map AircraftItem.toDataStream).flatten s
  rw [← hread] at hc hd
  have hnone : ∀ k, s.m_cachedItems.lookup k = none := by
    intro k; rw [hempty]; rfl
  have hst : storedEntries n (records.map AircraftItem.toDataStream).flatten
      = records.map (fun r => { r with variants := [] })
        ++ List.replicate (n - records.length) emptyRead := by
    have := storedEntries_records records (n - records.length) hint
    rwa [Nat.add_sub_cancel' hn] at this
  have hinvalid : validEntry env emptyRead = false := by
    unfold validEntry
    have h1 : emptyRead.path = "" := rfl
    have h2 : emptyRead.pathModTime = none := rfl
    rw [h1, h2, hnofile]
    rfl
  have hmem : ∀ e, e ∈ storedEntries n (records.map AircraftItem.toDataStream).flatten →
      validEntry env e = true → ∃ r ∈ records, e = { r with variants := [] } := by
    intro e he hv
    rw [hst] at he
    rcases List.mem_append.mp he with h | h
    · obtain ⟨r, hr, rfl⟩ := List.mem_map.mp h
      exact ⟨r, hr, rfl⟩
    · rw [List.eq_of_mem_replicate h, hinvalid] at hv
      exact Bool.noConfusion hv
  have h1 : ∀ k, (readCache env s).m_cachedItems.contains k = true ↔
      ∃ e ∈ records, e.path = k ∧ validEntry env e = true := by
    intro k
    rw [hd k]
    constructor
    · rintro (h | ⟨e, he, hp, hv⟩)
      · unfold QMap.contains at h; rw [hnone] at h; exact Bool.noConfusion h
      · obtain ⟨r, hr, rfl⟩ := hmem e he hv
        exact ⟨r, hr, hp, hv⟩
    · rintro ⟨r, hr, hp, hv⟩
      refine Or.inr ⟨{ r with variants := [] }, ?_, hp, hv⟩
      rw [hst]
      exact List.mem_append_left _ (List.mem_map.mpr ⟨r, hr, rfl⟩)
  refine ⟨h1, ?_, ?_⟩
  · intro k p hk
    rcases hc k p hk with h | ⟨_, he, hv, hp⟩
    · rw [hnone] at h; exact Option.noConfusion h
    · obtain ⟨r, hr, heq⟩ := hmem _ he hv
      refine ⟨r, hr, ?_, ?_, ?_, ?_⟩
      · rw [← hp, heq]
      · rw [heq] at hv; exact hv
      · rw [heq]; rfl
      · unfold recordOf
        have hcon : (readCache env s).m_cachedItems.contains k = true := by
          unfold QMap.contains; rw [hk]; rfl
        rw [if_pos hcon, QMap.value_of_lookup hk]
  · rintro ⟨e, he, hv⟩ hcontra
    have := (h1 e.path).mpr ⟨e, he, rfl, hv⟩
    rw [hcontra] at this
    exact Bool.noConfusion this

/-! ### the order of the catalog -/

theorem foldl_insert_sorted (key : Nat → QString) (ps : List Nat) (m : QMap Nat)
    (hm : m.entries.Pairwise (fun a b => qLess a.1 b.1 = true)) :
    (ps.foldl (fun m p => m.insert (key p) p) m).entries.Pairwise
      (fun a b => qLess a.1 b.1 = true) := by
  induction ps generalizing m with
  | nil => exact hm
  | cons p rest ih => exact ih _ (QMap.sorted_insertEntries _ _ _ hm)

theorem foldl_insert_entries (key : Nat → QString) (ps : List Nat) (m : QMap Nat)
    (e : QString × Nat) (he : e ∈ (ps.foldl (fun m p => m.insert (key p) p) m).entries) :
    (e.2 ∈ ps ∧ e.1 = key e.2) ∨ e ∈ m.entries := by
  induction ps generalizing m with
  | nil => exact Or.inr he
  | cons p rest ih =>
    rcases ih _ he with ⟨h1, h2⟩ | h1
    · exact Or.inl ⟨List.mem_cons_of_mem _ h1, h2⟩
    · rcases QMap.mem_entries_insert h1 with h2 | h2
      · rw [h2]; exact Or.inl ⟨List.mem_cons_self _ _, rfl⟩
      · exact Or.inr h2

theorem BatchOf_of_extends {env : Env} {s s2 : AircraftScanThread} (hext : Extends s s2)
    {d : QString} {batch : List Nat} (h : BatchOf env s.heap d batch) :
    BatchOf env s2.heap d batch := by
  obtain ⟨h1, h2⟩ := h
  have hst : ∀ p ∈ batch, (s2.heap.get p).stored = (s.heap.get p).stored :=
    fun p hp => hext.2.2 p (h2 p hp).1
  refine ⟨?_, fun p hp => ?_⟩
  · have : batch.map (fun p => (s2.heap.get p).baseName)
        = batch.map (fun p => (s.heap.get p).baseName) :=
      List.map_congr_left (fun p hp => stored_baseName (hst p hp))
    rw [this]; exact h1
  · obtain ⟨a, b, c⟩ := h2 p hp
    exact ⟨lt_of_lt_of_le a hext.2.1, by rw [stored_path (hst p hp)]; exact b,
      by rw [stored_variantOf (hst p hp)]; exact c⟩

/-- The batch of one subdirectory: principals of its listing in ascending
order of base name. -/
theorem scanSubdir_batch (env : Env) (s : AircraftScanThread) (d : QString)
    (hwf : CacheWF s) (hns : (scanSubdir env s d).2 = false) :
    ∃ batch, (scanSubdir env s d).1.m_items = s.m_items ++ batch ∧
      BatchOf env (scanSubdir env s d).1.heap d batch := by
  obtain ⟨ps, h1, base, a1, a2, _, _, _, hbase, hitems, hnext, _, _, hget⟩ :=
    scanSubdir_spec env s d hwf hns
  refine ⟨base.values, hitems, ?_, ?_⟩
  · have hsorted : base.entries.Pairwise (fun a b => qLess a.1 b.1 = true) := by
      rw [hbase]; exact foldl_insert_sorted _ _ _ List.Pairwise.nil
    have hkey : ∀ e ∈ base.entries, e.1 = ((scanSubdir env s d).1.heap.get e.2).baseName := by
      intro e he
      rw [hbase] at he
      rcases foldl_insert_entries (fun p => (h1.get p).baseName) _ _ e he with ⟨_, h⟩ | h
      · rw [h]; exact (stored_baseName (hget e.2).1).symm
      · exact absurd h (List.not_mem_nil _)
    unfold QMap.values
    rw [List.map_map, List.pairwise_map]
    refine (List.Pairwise.and_mem.mp hsorted).imp ?_
    rintro a b ⟨ha, hb, hab⟩
    show qLess ((scanSubdir env s d).1.heap.get a.2).baseName
      ((scanSubdir env s d).1.heap.get b.2).baseName = true
    rw [← hkey a ha, ← hkey b hb]
    exact hab
  · intro p hp
    obtain ⟨hp1, hp2⟩ := baseAircraft_values hbase hp
    refine ⟨by rw [hnext]; exact a2 p hp1, ?_, by rw [stored_variantOf (hget p).1]; exact hp2⟩
    have hmem : h1.get p ∈ (env.setXmlEntries d).filterMap (recordOf env s) := by
      rw [← a1]; exact List.mem_map.mpr ⟨p, hp1, rfl⟩
    obtain ⟨f, hf, hr⟩ := List.mem_filterMap.mp hmem
    rw [stored_path (hget p).1, recordOf_path hwf hr]
    exact hf

theorem bindVariants_deleted_mono (base : QMap Nat) (vs : List Nat) (h : Heap) (x : Nat)
    (hx : x ∈ h.deleted) : x ∈ (bindVariants base vs h).deleted := by
  induction vs generalizing h with
  | nil => exact hx
  | cons item rest ih =>
    simp only [bindVariants]
    split
    · exact ih _ (List.mem_cons_of_mem _ hx)
    · exact ih _ hx

theorem bindVariants_deleted (base : QMap Nat) (vs : List Nat) (h : Heap) (v : Nat)
    (hv : v ∈ vs) (hno : base.lookup ((h.get v).variantOf.getD "") = none) :
    v ∈ (bindVariants base vs h).deleted := by
  induction vs generalizing h with
  | nil => exact absurd hv (List.not_mem_nil _)
  | cons item rest ih =>
    simp only [bindVariants]
    rcases List.mem_cons.mp hv with h1 | h1
    · subst h1
      have hc : base.contains ((h.get v).variantOf.getD "") = false := by
        unfold QMap.contains; rw [hno]; rfl
      simp only [hc, Bool.not_false, if_true]
      exact bindVariants_deleted_mono _ _ _ _ (List.mem_cons_self _ _)
    · split
      · exact ih _ h1 (by rw [Heap.get_delete]; exact hno)
      · refine ih _ h1 ?_
        rw [Heap.get_appendVariant]
        split
        · rename_i heq; rw [← heq]; exact hno
        · exact hno

/-- The binding loop of one subdirectory deletes every variant whose principal
is not in the map of the subdirectory. -/
theorem scanSubdir_deleted (env : Env) (s : AircraftScanThread) (childDir : QString)
    (hns : (scanSubdir env s childDir).2 = false) (v : Nat)
    (hv : v ∈ (scanSetXml env (env.setXmlEntries childDir) s ⟨QMap.empty, []⟩).2.1.variants)
    (hno : (scanSetXml env (env.setXmlEntries childDir) s ⟨QMap.empty, []⟩).2.1.baseAircraft.lookup
      (((scanSetXml env (env.setXmlEntries childDir) s ⟨QMap.empty, []⟩).1.heap.get
        v).variantOf.getD "") = none) :
    v ∈ (scanSubdir env s childDir).1.heap.deleted := by
  have hns' : (scanSetXml env (env.setXmlEntries childDir) s ⟨QMap.empty, []⟩).2.2 = false := by
    unfold scanSubdir at hns
    simp only [] at hns
    by_cases hb : (scanSetXml env (env.setXmlEntries childDir) s ⟨QMap.empty, []⟩).2.2 = true
    · rw [if_pos hb] at hns; exact Bool.noConfusion hns
    · simpa using hb
  unfold scanSubdir
  simp only []
  rw [if_neg (by rw [hns']; exact Bool.false_ne_true)]
  exact bindVariants_deleted _ _ _ v hv hno

theorem scanSubdir_nextCache (env : Env) (s : AircraftScanThread) (childDir : QString)
    (hns : (scanSubdir env s childDir).2 = false) :
    (scanSubdir env s childDir).1.m_nextCache
      = (scanSetXml env (env.setXmlEntries childDir) s ⟨QMap.empty, []⟩).1.m_nextCache := by
  have hns' : (scanSetXml env (env.setXmlEntries childDir) s ⟨QMap.empty, []⟩).2.2 = false := by
    unfold scanSubdir at hns
    simp only [] at hns
    by_cases hb : (scanSetXml env (env.setXmlEntries childDir) s ⟨QMap.empty, []⟩).2.2 = true
    · rw [if_pos hb] at hns; exact Bool.noConfusion hns
    · simpa using hb
  unfold scanSubdir
  simp only []
  rw [if_neg (by rw [hns']; exact Bool.false_ne_true)]
  rfl

/-- C23. Entries of deleted objects: when the scan of a subdirectory is not
cut short, and a file `f` of its listing loads as a variant of `k` while no
file of the listing loads as a principal of base name `k`, then `m_nextCache`
has an entry for `f` after the scan, the object it points to has been passed
to `delete` by the binding loop, and the pointer is among the values that
`writeCache` serialises. -/
theorem unbound_variant_cached (env : Env) (s : AircraftScanThread) (d f k : QString)
    (r : AircraftItem) (hwf : CacheWF s) (hns : (scanSubdir env s d).2 = false)
    (hf : f ∈ env.setXmlEntries d) (hr : recordOf env s f = some r)
    (hk : r.variantOf = some k)
    (hno : ∀ g ∈ env.setXmlEntries d, ∀ r', recordOf env s g = some r' →
      r'.variantOf = none → r'.baseName ≠ k) :
    ∃ p, (scanSubdir env s d).1.m_nextCache.lookup f = some p ∧
      p ∈ (scanSubdir env s d).1.heap.deleted ∧
      p ∈ (scanSubdir env s d).1.m_nextCache.values := by
  have hns' : (scanSetXml env (env.setXmlEntries d) s ⟨QMap.empty, []⟩).2.2 = false := by
    unfold scanSubdir at hns
    simp only [] at hns
    by_cases hb : (scanSetXml env (env.setXmlEntries d) s ⟨QMap.empty, []⟩).2.2 = true
    · rw [if_pos hb] at hns; exact Bool.noConfusion hns
    · simpa using hb
  obtain ⟨ps, a1, _, a3, a4, a5⟩ :=
    scanSetXml_spec env (env.setXmlEntries d) s ⟨QMap.empty, []⟩ hwf hns'
  have hrec : ∀ q ∈ ps, ∃ g ∈ env.setXmlEntries d, recordOf env s g
      = some ((scanSetXml env (env.setXmlEntries d) s ⟨QMap.empty, []⟩).1.heap.get q) := by
    intro q hq
    have : (scanSetXml env (env.setXmlEntries d) s ⟨QMap.empty, []⟩).1.heap.get q
        ∈ (env.setXmlEntries d).filterMap (recordOf env s) := by
      rw [← a1]; exact List.mem_map.mpr ⟨q, hq, rfl⟩
    exact List.mem_filterMap.mp this
  have hmem : r ∈ ps.map (scanSetXml env (env.setXmlEntries d) s ⟨QMap.empty, []⟩).1.heap.get := by
    rw [a1]; exact List.mem_filterMap.mpr ⟨f, hf, hr⟩
  obtain ⟨x, hx, hxr⟩ := List.mem_map.mp hmem
  obtain ⟨q, hq, hqf, hlook⟩ := foldl_insert_lookup_mem
    (fun p => ((scanSetXml env (env.setXmlEntries d) s ⟨QMap.empty, []⟩).1.heap.get p).path)
    ps s.m_nextCache f ⟨x, hx, by simp only [hxr]; exact recordOf_path hwf hr⟩
  obtain ⟨g, _, hgr⟩ := hrec q hq
  have hgf : g = f := by rw [← recordOf_path hwf hgr]; exact hqf
  rw [hgf, hr] at hgr
  have hqr : (scanSetXml env (env.setXmlEntries d) s ⟨QMap.empty, []⟩).1.heap.get q = r :=
    (Option.some.inj hgr).symm
  have hbase : (scanSetXml env (env.setXmlEntries d) s ⟨QMap.empty, []⟩).2.1.baseAircraft.lookup k
      = none := by
    cases hb : (scanSetXml env (env.setXmlEntries d) s
        ⟨QMap.empty, []⟩).2.1.baseAircraft.lookup k with
    | none => rfl
    | some b =>
      exfalso
      obtain ⟨b1, b2, b3⟩ := baseAircraft_lookup a4 hb
      obtain ⟨g', hg', hgr'⟩ := hrec b b1
      exact hno g' hg' _ hgr' b2 b3
  have hdel := scanSubdir_deleted env s d hns q
    (by rw [a3]; simp only [List.nil_append]
        exact List.mem_filter.mpr ⟨hq, by rw [hqr, hk]; rfl⟩)
    (by rw [hqr, hk]; exact hbase)
  have hl : (scanSubdir env s d).1.m_nextCache.lookup f = some q := by
    rw [scanSubdir_nextCache env s d hns, a5]; exact hlook
  exact ⟨q, hl, hdel, QMap.mem_values_of_lookup hl⟩

/-! ### what a scan publishes, seen as records -/

theorem insertEntries_map {V W : Type} (g : V → W) (k : QString) (v : V)
    (l : List (QString × V)) :
    (QMap.insertEntries k v l).map (fun e => (e.1, g e.2))
      = QMap.insertEntries k (g v) (l.map (fun e => (e.1, g e.2))) := by
  induction l with
  | nil => rfl
  | cons e rest ih =>
    obtain ⟨k1, v1⟩ := e
    simp only [QMap.insertEntries, List.map_cons]
    cases qLess k k1 with
    | true => simp
    | false =>
      cases qLess k1 k with
      | true => simp [ih]
      | false => simp

theorem foldl_insert_map {V : Type} (key : Nat → QString) (g : Nat → V) (key2 : V → QString)
    (hk : ∀ p, key2 (g p) = key p) (ps : List Nat)
    (m : QMap Nat) (m2 : QMap V) (hm : m2.entries = m.entries.map (fun e => (e.1, g e.2))) :
    ((ps.map g).foldl (fun m r => m.insert (key2 r) r) m2).entries
      = (ps.foldl (fun m p => m.insert (key p) p) m).entries.map (fun e => (e.1, g e.2)) := by
  induction ps generalizing m m2 with
  | nil => exact hm
  | cons p rest ih =>
    simp only [List.map_cons, List.foldl_cons]
    apply ih
    show QMap.insertEntries _ _ m2.entries = (QMap.insertEntries _ _ m.entries).map _
    rw [insertEntries_map, hm, hk]

theorem lookupEntries_of_mem_sorted {V : Type} (l : List (QString × V)) (k : QString) (v : V)
    (hs : l.Pairwise (fun a b => qLess a.1 b.1 = true)) (h : (k, v) ∈ l) :
    QMap.lookupEntries k l = some v := by
  induction l with
  | nil => exact absurd h (List.not_mem_nil _)
  | cons e rest ih =>
    obtain ⟨k1, v1⟩ := e
    rw [List.pairwise_cons] at hs
    simp only [QMap.lookupEntries]
    rcases List.mem_cons.mp h with h1 | h1
    · injection h1 with h2 h3
      rw [if_pos h2.symm, h3]
    · have hlt := hs.1 (k, v) h1
      have hne : k1 ≠ k := by
        intro heq
        rw [heq, qLess_irrefl] at hlt
        exact Bool.noConfusion hlt
      rw [if_neg hne]
      exact ih hs.2 h1

/-- The batch of one subdirectory as records, when the objects reused from the
cache for its files have no variants yet. -/
theorem scanSubdir_view (env : Env) (s : AircraftScanThread) (d : QString)
    (hwf : CacheWF s) (hns : (scanSubdir env s d).2 = false)
    (hfresh : ∀ f ∈ env.setXmlEntries d, ∀ p, s.m_cachedItems.lookup f = some p →
      (s.heap.get p).variants = []) :
    ∃ batch, (scanSubdir env s d).1.m_items = s.m_items ++ batch ∧
      batch.map (fun p => (((scanSubdir env s d).1.heap.get p).stored,
          ((scanSubdir env s d).1.heap.get p).variants.map
            (fun v => ((scanSubdir env s d).1.heap.get v).stored)))
        = batchView (((env.setXmlEntries d).filterMap (recordOf env s)).map AircraftItem.stored) ∧
      ∀ p ∈ batch, p < (scanSubdir env s d).1.heap.next ∧
        ((scanSubdir env s d).1.heap.get p).path ∈ env.setXmlEntries d ∧
        ∀ v ∈ ((scanSubdir env s d).1.heap.get p).variants,
          v < (scanSubdir env s d).1.heap.next := by
  obtain ⟨ps, h1, base, a1, a2, _, _, _, hbase, hitems, hnext, _, _, hget⟩ :=
    scanSubdir_spec env s d hwf hns
  have hrec : ∀ p ∈ ps, ∃ g ∈ env.setXmlEntries d, recordOf env s g = some (h1.get p) := by
    intro p hp
    have : h1.get p ∈ (env.setXmlEntries d).filterMap (recordOf env s) := by
      rw [← a1]; exact List.mem_map.mpr ⟨p, hp, rfl⟩
    exact List.mem_filterMap.mp this
  have hv0 : ∀ p ∈ ps, (h1.get p).variants = [] := by
    intro p hp
    obtain ⟨g, hg, hr⟩ := hrec p hp
    unfold recordOf at hr
    by_cases hc : s.m_cachedItems.contains g = true
    · rw [if_pos hc] at hr
      obtain ⟨q, hq⟩ := QMap.contains_iff.mp hc
      rw [QMap.value_of_lookup hq] at hr
      rw [← Option.some.inj hr]
      exact hfresh g hg q hq
    · rw [if_neg hc] at hr
      exact (construct_path hr).2
  have hsorted : base.entries.Pairwise (fun a b => qLess a.1 b.1 = true) := by
    rw [hbase]; exact foldl_insert_sorted _ _ _ List.Pairwise.nil
  have hentry : ∀ e ∈ base.entries,
      e.2 ∈ ps.filter (fun p => (h1.get p).variantOf.isNone) ∧ e.1 = (h1.get e.2).baseName := by
    intro e he
    rw [hbase] at he
    rcases foldl_insert_entries (fun p => (h1.get p).baseName) _ _ e he with h | h
    · exact h
    · exact absurd h (List.not_mem_nil _)
  have hlook : ∀ e ∈ base.entries, ∀ k, base.lookup k = some e.2 ↔ k = e.1 := by
    intro e he k
    constructor
    · intro hk
      rw [(hentry e he).2, (baseAircraft_lookup hbase hk).2.2]
    · intro hk
      rw [hk]
      exact lookupEntries_of_mem_sorted _ _ _ hsorted he
  have hvars : ∀ e ∈ base.entries,
      ((scanSubdir env s d).1.heap.get e.2).variants
        = (ps.filter (fun p => (h1.get p).variantOf.isSome)).filter
            (fun v => decide ((h1.get v).variantOf.getD "" = e.1)) := by
    intro e he
    rw [(hget e.2).2, hv0 e.2 (List.mem_filter.mp (hentry e he).1).1, List.nil_append]
    apply List.filter_congr
    intro v _
    exact decide_eq_decide.mpr (hlook e he _)
  refine ⟨base.values, hitems, ?_, ?_⟩
  · have hfold : (((((env.setXmlEntries d).filterMap (recordOf env s)).map
          AircraftItem.stored).filter (fun r => (storedVariantOf r).isNone)).foldl
          (fun m r => m.insert (storedBaseName r) r) (QMap.empty : QMap Stored)).entries
        = base.entries.map (fun e => (e.1, (h1.get e.2).stored)) := by
      rw [← a1, List.map_map, List.filter_map]
      have := foldl_insert_map (fun p => (h1.get p).baseName)
        (AircraftItem.stored ∘ h1.get) storedBaseName (fun _ => rfl)
        (ps.filter (fun p => (h1.get p).variantOf.isNone)) QMap.empty QMap.empty rfl
      rw [← hbase] at this
      exact this
    have hvarlist : (((env.setXmlEntries d).filterMap (recordOf env s)).map
          AircraftItem.stored).filter (fun r => (storedVariantOf r).isSome)
        = (ps.filter (fun p => (h1.get p).variantOf.isSome)).map
            (AircraftItem.stored ∘ h1.get) := by
      rw [← a1, List.map_map, List.filter_map]
      rfl
    unfold batchView
    rw [hfold, hvarlist]
    unfold QMap.values
    rw [List.map_map, List.map_map]
    apply List.map_congr_left
    intro e he
    show (((scanSubdir env s d).1.heap.get e.2).stored,
        ((scanSubdir env s d).1.heap.get e.2).variants.map
          (fun v => ((scanSubdir env s d).1.heap.get v).stored))
      = ((h1.get e.2).stored,
        ((ps.filter (fun p => (h1.get p).variantOf.isSome)).map
          (AircraftItem.stored ∘ h1.get)).filter
            (fun v => decide ((storedVariantOf v).getD "" = e.1)))
    rw [(hget e.2).1, hvars e he, List.filter_map]
    refine Prod.ext rfl ?_
    show List.map _ _ = List.map _ _
    apply List.map_congr_left
    intro v _
    exact (hget v).1
  · intro p hp
    obtain ⟨e, he, rfl⟩ := List.mem_map.mp hp
    have hps := (List.mem_filter.mp (hentry e he).1).1
    refine ⟨by rw [hnext]; exact a2 _ hps, ?_, ?_⟩
    · obtain ⟨g, hg, hr⟩ := hrec _ hps
      rw [stored_path (hget e.2).1, recordOf_path hwf hr]
      exact hg
    · intro v hv
      rw [hvars e he] at hv
      rw [hnext]
      exact a2 v (List.mem_filter.mp (List.mem_filter.mp hv).1).1

theorem records_stored (env : Env) (s : AircraftScanThread) (listing : List QString)
    (hagree : ∀ f p, s.m_cachedItems.lookup f = some p →
      (AircraftItem.construct env f).map AircraftItem.stored = some (s.heap.get p).stored) :
    (listing.filterMap (recordOf env s)).map AircraftItem.stored
      = (listing.filterMap (AircraftItem.construct env)).map AircraftItem.stored := by
  induction listing with
  | nil => rfl
  | cons f rest ih =>
    simp only [List.filterMap_cons]
    by_cases hc : s.m_cachedItems.contains f = true
    · obtain ⟨q, hq⟩ := QMap.contains_iff.mp hc
      have hr : recordOf env s f = some (s.heap.get q) := by
        unfold recordOf; rw [if_pos hc, QMap.value_of_lookup hq]
      have ha := hagree f q hq
      cases hcon : AircraftItem.construct env f with
      | none => rw [hcon] at ha; exact Option.noConfusion ha
      | some c =>
        rw [hcon] at ha
        rw [hr]
        simp only [List.map_cons, ih]
        rw [Option.some.inj ha]
    · have hr : recordOf env s f = AircraftItem.construct env f := by
        unfold recordOf; rw [if_neg hc]
      rw [hr]
      cases AircraftItem.construct env f with
      | none => exact ih
      | some c => simp only [List.map_cons, ih]

theorem scanSubdir_step (env : Env) (s : AircraftScanThread) (d : QString) (todo : List QString)
    (hns : (scanSubdir env s d).2 = false)
    (hnd : (env.setXmlEntries d ++ todo).Nodup)
    (hinv : ViewInv env (env.setXmlEntries d ++ todo) s) :
    ViewInv env todo (scanSubdir env s d).1 ∧
    publishedView (scanSubdir env s d).1
      = publishedView s ++ batchView
          (((env.setXmlEntries d).filterMap (AircraftItem.construct env)).map
            AircraftItem.stored) := by
  obtain ⟨hwf, hagree, hfresh, hitems0⟩ := hinv
  have hdisj : ∀ f, f ∈ env.setXmlEntries d → f ∉ todo := by
    intro f h1 h2
    exact (List.nodup_append.mp hnd).2.2 h1 h2
  obtain ⟨ps, h1, base, a1, a2, a3, a4, _, hbase, hitems, hnext, hcached, _, hget⟩ :=
    scanSubdir_spec env s d hwf hns
  obtain ⟨batch, v1, v2, v3⟩ := scanSubdir_view env s d hwf hns
    (fun f hf p hp => hfresh f (List.mem_append_left _ hf) p hp)
  obtain ⟨e1, e2⟩ := scanSubdir_extends env s d hwf
  have hrec : ∀ p ∈ ps, ∃ g ∈ env.setXmlEntries d, recordOf env s g = some (h1.get p) := by
    intro p hp
    have : h1.get p ∈ (env.setXmlEntries d).filterMap (recordOf env s) := by
      rw [← a1]; exact List.mem_map.mpr ⟨p, hp, rfl⟩
    exact List.mem_filterMap.mp this
  -- an old object whose file is not in the listing keeps its variants
  have hkeep : ∀ q, q < s.heap.next → (s.heap.get q).path ∉ env.setXmlEntries d →
      ((scanSubdir env s d).1.heap.get q).variants = (s.heap.get q).variants := by
    intro q hq hpath
    rw [(hget q).2, a4 q hq]
    have : (ps.filter (fun p => (h1.get p).variantOf.isSome)).filter
        (fun v => decide (base.lookup ((h1.get v).variantOf.getD "") = some q)) = [] := by
      apply List.filter_eq_nil_iff.mpr
      intro v _ hv
      have hl := of_decide_eq_true hv
      obtain ⟨b1, _, _⟩ := baseAircraft_lookup hbase hl
      obtain ⟨g, hg, hr⟩ := hrec q b1
      apply hpath
      rw [← a4 q hq, recordOf_path hwf hr]
      exact hg
    rw [this, List.append_nil]
  have hstored : ∀ q, q < s.heap.next →
      ((scanSubdir env s d).1.heap.get q).stored = (s.heap.get q).stored := e2.2.2
  refine ⟨⟨e1, ?_, ?_, ?_⟩, ?_⟩
  · intro f p hp
    rw [hcached] at hp
    rw [hstored p (hwf f p hp).1]
    exact hagree f p hp
  · intro f hf p hp
    rw [hcached] at hp
    obtain ⟨w1, w2⟩ := hwf f p hp
    rw [hkeep p w1 (by rw [w2]; exact fun h => hdisj f h hf)]
    exact hfresh f (List.mem_append_right _ hf) p hp
  · intro p hp
    rw [v1] at hp
    rcases List.mem_append.mp hp with h | h
    · obtain ⟨i1, i2, i3⟩ := hitems0 p h
      have hnl : (s.heap.get p).path ∉ env.setXmlEntries d :=
        fun hh => i2 (List.mem_append_left _ hh)
      refine ⟨lt_of_lt_of_le i1 e2.2.1, ?_, ?_⟩
      · rw [stored_path (hstored p i1)]
        exact fun hh => i2 (List.mem_append_right _ hh)
      · rw [hkeep p i1 hnl]
        exact fun v hv => lt_of_lt_of_le (i3 v hv) e2.2.1
    · obtain ⟨j1, j2, j3⟩ := v3 p h
      exact ⟨j1, hdisj _ j2, j3⟩
  · unfold publishedView
    rw [v1, List.map_append, v2, records_stored env s _ hagree]
    congr 1
    apply List.map_congr_left
    intro p hp
    obtain ⟨i1, i2, i3⟩ := hitems0 p hp
    have hnl : (s.heap.get p).path ∉ env.setXmlEntries d :=
      fun hh => i2 (List.mem_append_left _ hh)
    rw [hstored p i1, hkeep p i1 hnl]
    refine Prod.ext rfl ?_
    show List.map _ _ = List.map _ _
    apply List.map_congr_left
    intro v hv
    exact hstored v (i3 v hv)

theorem scanSubdirs_view (env : Env) (hnever : env.setDoneAfter = none) (ds : List QString)
    (s : AircraftScanThread) (todo : List QString)
    (hnd : ((ds.map env.setXmlEntries).flatten ++ todo).Nodup)
    (hinv : ViewInv env ((ds.map env.setXmlEntries).flatten ++ todo) s) :
    ViewInv env todo (scanSubdirs env ds s).1 ∧
    publishedView (scanSubdirs env ds s).1
      = publishedView s ++ (ds.map (fun d => batchView
          (((env.setXmlEntries d).filterMap (AircraftItem.construct env)).map
            AircraftItem.stored))).flatten := by
  induction ds generalizing s with
  | nil =>
    refine ⟨by simpa using hinv, ?_⟩
    simp [scanSubdirs]
  | cons d rest ih =>
    have hns := scanSubdir_never_stopped env hnever s d
    rw [List.map_cons, List.flatten_cons, List.append_assoc] at hnd hinv
    obtain ⟨s1, s2⟩ := scanSubdir_step env s d _ hns hnd hinv
    obtain ⟨i1, i2⟩ := ih _ (List.nodup_append.mp hnd).2.1 s1
    simp only [scanSubdirs]
    rw [if_neg (by rw [hns]; exact Bool.false_ne_true)]
    refine ⟨i1, ?_⟩
    rw [i2, s2, List.map_cons, List.flatten_cons, List.append_assoc]

theorem runDirs_view (env : Env) (hnever : env.setDoneAfter = none) (dirs : List QString)
    (s : AircraftScanThread)
    (hnd : (((visits env dirs).map env.setXmlEntries).flatten).Nodup)
    (hinv : ViewInv env (((visits env dirs).map env.setXmlEntries).flatten) s) :
    publishedView (runDirs env dirs s).1 = publishedView s ++ expectedView env dirs := by
  induction dirs generalizing s with
  | nil => simp [runDirs, expectedView, visits]
  | cons root rest ih =>
    have hv : visits env (root :: rest) = env.dirEntries root ++ visits env rest := by
      unfold visits; rw [List.map_cons, List.flatten_cons]
    rw [hv, List.map_append, List.flatten_append] at hnd hinv
    obtain ⟨c1, c2⟩ := scanSubdirs_view env hnever (env.dirEntries root) s _ hnd hinv
    have hdone : m_done env (scanAircraftDir env s root).1 = false := by unfold m_done; rw [hnever]
    simp only [runDirs]
    rw [hdone]
    simp only [Bool.false_eq_true, if_false]
    have hinv2 : ViewInv env (((visits env rest).map env.setXmlEntries).flatten)
        (afterRead (scanAircraftDir env s root).1) := c1
    rw [ih (afterRead (scanAircraftDir env s root).1) (List.nodup_append.mp hnd).2.1 hinv2]
    show publishedView (scanSubdirs env (env.dirEntries root) s).1 ++ _ = _
    rw [c2, List.append_assoc]
    congr 1
    unfold expectedView
    rw [hv, List.map_append, List.flatten_append]

/-! ### two scans side by side -/

theorem m_done_eq_flagAt (env : Env) (s : AircraftScanThread) :
    m_done env s = flagAt env s.doneReads := rfl

theorem loadItem_isSome (env : Env) (s : AircraftScanThread) (f : QString) :
    (loadItem env s f).isSome = okFile env s f := by
  unfold loadItem okFile
  by_cases hc : s.m_cachedItems.contains f = true
  · rw [if_pos hc, hc]; rfl
  · have hc' : s.m_cachedItems.contains f = false := by simpa using hc
    rw [if_neg hc, hc']
    cases AircraftItem.construct env f <;> rfl

theorem loadItem_reads {env : Env} {s s1 : AircraftScanThread} {f : QString} {p : Nat}
    (h : loadItem env s f = some (p, s1)) :
    s1.doneReads = s.doneReads ∧ s1.m_cachedItems = s.m_cachedItems := by
  unfold loadItem at h
  split at h
  · injection h with h; injection h with _ h; subst h; exact ⟨rfl, rfl⟩
  · split at h
    · exact Option.noConfusion h
    · injection h with h; injection h with _ h; subst h; exact ⟨rfl, rfl⟩

theorem scanSetXml_reads (env : Env) (fs : List QString) (s : AircraftScanThread)
    (l : SubdirLocals) :
    ((scanSetXml env fs s l).1.doneReads, (scanSetXml env fs s l).2.2)
      = readsOf env (fs.map (okFile env s)) s.doneReads := by
  induction fs generalizing s l with
  | nil => rfl
  | cons f rest ih =>
    cases hl : loadItem env s f with
    | none =>
      have hok : okFile env s f = false := by rw [← loadItem_isSome, hl]; rfl
      rw [scanSetXml_cons_none hl, List.map_cons, hok]
      exact ih s l
    | some r =>
      obtain ⟨p, s1⟩ := r
      have hok : okFile env s f = true := by rw [← loadItem_isSome, hl]; rfl
      obtain ⟨r1, r2⟩ := loadItem_reads hl
      have hreads : (fileItem s1 l f p).1.doneReads = s.doneReads := r1
      have hcache : (afterRead (fileItem s1 l f p).1).m_cachedItems = s.m_cachedItems := r2
      rw [scanSetXml_cons_some hl, List.map_cons, hok]
      simp only [readsOf]
      rw [m_done_eq_flagAt, hreads]
      cases hflag : flagAt env s.doneReads with
      | true =>
        simp only [if_true]
        show ((fileItem s1 l f p).1.doneReads + 1, true) = _
        rw [hreads]
      | false =>
        simp only [Bool.false_eq_true, if_false]
        rw [ih]
        have hmap : rest.map (okFile env (afterRead (fileItem s1 l f p).1))
            = rest.map (okFile env s) := by
          apply List.map_congr_left
          intro g _
          unfold okFile
          rw [hcache]
        rw [hmap]
        show readsOf env _ ((fileItem s1 l f p).1.doneReads + 1) = _
        rw [hreads]

theorem scanSetXml_stopped (env : Env) (fs : List QString) (s : AircraftScanThread)
    (l : SubdirLocals) (h : (scanSetXml env fs s l).2.2 = true) :
    m_done env (scanSetXml env fs s l).1 = true := by
  induction fs generalizing s l with
  | nil => exact Bool.noConfusion h
  | cons f rest ih =>
    cases hl : loadItem env s f with
    | none =>
      rw [scanSetXml_cons_none hl] at h ⊢
      exact ih s l h
    | some r =>
      obtain ⟨p, s1⟩ := r
      rw [scanSetXml_cons_some hl] at h ⊢
      by_cases hd : m_done env (fileItem s1 l f p).1 = true
      · rw [if_pos hd]
        exact m_done_mono env (Nat.le_succ _) hd
      · rw [if_neg hd] at h ⊢
        exact ih _ _ h

theorem scanSubdir_flag (env : Env) (s : AircraftScanThread) (d : QString) :
    (scanSubdir env s d).2 = (scanSetXml env (env.setXmlEntries d) s ⟨QMap.empty, []⟩).2.2 ∧
    (scanSubdir env s d).1.doneReads
      = (scanSetXml env (env.setXmlEntries d) s ⟨QMap.empty, []⟩).1.doneReads ∧
    ((scanSubdir env s d).2 = true →
      (scanSubdir env s d).1 = (scanSetXml env (env.setXmlEntries d) s ⟨QMap.empty, []⟩).1) := by
  unfold scanSubdir
  simp only []
  by_cases hb : (scanSetXml env (env.setXmlEntries d) s ⟨QMap.empty, []⟩).2.2 = true
  · rw [if_pos hb]
    exact ⟨hb.symm, rfl, fun _ => rfl⟩
  · rw [if_neg hb]
    exact ⟨by simpa using hb, rfl, fun h => Bool.noConfusion h⟩

theorem okFile_of_agree (env : Env) (s : AircraftScanThread)
    (hagree : ∀ f p, s.m_cachedItems.lookup f = some p →
      (AircraftItem.construct env f).map AircraftItem.stored = some (s.heap.get p).stored)
    (f : QString) : okFile env s f = (AircraftItem.construct env f).isSome := by
  unfold okFile
  by_cases hc : s.m_cachedItems.contains f = true
  · obtain ⟨q, hq⟩ := QMap.contains_iff.mp hc
    have := hagree f q hq
    rw [hc]
    cases hcon : AircraftItem.construct env f with
    | none => rw [hcon] at this; exact Option.noConfusion this
    | some c => rfl
  · have hc' : s.m_cachedItems.contains f = false := by simpa using hc
    rw [hc']; rfl

/-- The reads of the flag made by the scan of one subdirectory depend on the
number of reads made before and on which files parse. -/
theorem scanSubdir_reads (env : Env) (s : AircraftScanThread) (d : QString)
    (hagree : ∀ f p, s.m_cachedItems.lookup f = some p →
      (AircraftItem.construct env f).map AircraftItem.stored = some (s.heap.get p).stored) :
    ((scanSubdir env s d).1.doneReads, (scanSubdir env s d).2)
      = readsOf env ((env.setXmlEntries d).map (fun f => (AircraftItem.construct env f).isSome))
          s.doneReads := by
  obtain ⟨h1, h2, _⟩ := scanSubdir_flag env s d
  rw [h1, h2, scanSetXml_reads]
  congr 1
  apply List.map_congr_left
  intro f _
  exact okFile_of_agree env s hagree f

/-- A scan of a subdirectory that is cut short leaves the pending items as
they are. -/
theorem scanSubdir_stopped_view (env : Env) (s : AircraftScanThread) (d : QString)
    (todo : List QString) (hinv : ViewInv env todo s) (hstop : (scanSubdir env s d).2 = true) :
    publishedView (scanSubdir env s d).1 = publishedView s ∧
    m_done env (scanSubdir env s d).1 = true := by
  obtain ⟨hwf, _, _, hitems⟩ := hinv
  obtain ⟨h1, _, h3⟩ := scanSubdir_flag env s d
  have hres := h3 hstop
  obtain ⟨_, b2, _, _⟩ := scanSetXml_heap env (env.setXmlEntries d) s ⟨QMap.empty, []⟩ hwf
  obtain ⟨_, c2⟩ := scanSetXml_frame env (env.setXmlEntries d) s ⟨QMap.empty, []⟩
  constructor
  · unfold publishedView
    rw [hres, c2]
    apply List.map_congr_left
    intro p hp
    obtain ⟨i1, _, i3⟩ := hitems p hp
    rw [b2 p i1]
    refine Prod.ext rfl ?_
    show List.map _ _ = List.map _ _
    apply List.map_congr_left
    intro v hv
    rw [b2 v (i3 v hv)]
  · rw [hres]
    exact scanSetXml_stopped env _ s _ (by rw [← h1]; exact hstop)

theorem scanSubdir_sim (env : Env) (s t : AircraftScanThread) (d : QString)
    (todo : List QString) (hnd : (env.setXmlEntries d ++ todo).Nodup)
    (h : SimInv env (env.setXmlEntries d ++ todo) s t) :
    (scanSubdir env s d).2 = (scanSubdir env t d).2 ∧
    (scanSubdir env s d).1.doneReads = (scanSubdir env t d).1.doneReads ∧
    publishedView (scanSubdir env s d).1 = publishedView (scanSubdir env t d).1 ∧
    ((scanSubdir env s d).2 = false →
      ViewInv env todo (scanSubdir env s d).1 ∧ ViewInv env todo (scanSubdir env t d).1) ∧
    ((scanSubdir env s d).2 = true → m_done env (scanSubdir env s d).1 = true) := by
  obtain ⟨hs, ht, hreads, hview⟩ := h
  have rs := scanSubdir_reads env s d hs.2.1
  have rt := scanSubdir_reads env t d ht.2.1
  rw [hreads, ← rt] at rs
  have hflag : (scanSubdir env s d).2 = (scanSubdir env t d).2 := (Prod.mk.inj rs).2
  have hcount : (scanSubdir env s d).1.doneReads = (scanSubdir env t d).1.doneReads :=
    (Prod.mk.inj rs).1
  refine ⟨hflag, hcount, ?_, ?_, ?_⟩
  · cases hb : (scanSubdir env s d).2 with
    | true =>
      rw [(scanSubdir_stopped_view env s d _ hs hb).1,
        (scanSubdir_stopped_view env t d _ ht (by rw [← hflag]; exact hb)).1]
      exact hview
    | false =>
      rw [(scanSubdir_step env s d todo hb hnd hs).2,
        (scanSubdir_step env t d todo (by rw [← hflag]; exact hb) hnd ht).2, hview]
  · intro hb
    exact ⟨(scanSubdir_step env s d todo hb hnd hs).1,
      (scanSubdir_step env t d todo (by rw [← hflag]; exact hb) hnd ht).1⟩
  · intro hb
    exact (scanSubdir_stopped_view env s d _ hs hb).2

theorem scanSubdirs_sim (env : Env) (ds : List QString) (s t : AircraftScanThread)
    (todo : List QString)
    (hnd : ((ds.map env.setXmlEntries).flatten ++ todo).Nodup)
    (h : SimInv env ((ds.map env.setXmlEntries).flatten ++ todo) s t) :
    (scanSubdirs env ds s).2 = (scanSubdirs env ds t).2 ∧
    (scanSubdirs env ds s).1.doneReads = (scanSubdirs env ds t).1.doneReads ∧
    publishedView (scanSubdirs env ds s).1 = publishedView (scanSubdirs env ds t).1 ∧
    ((scanSubdirs env ds s).2 = false →
      ViewInv env todo (scanSubdirs env ds s).1 ∧ ViewInv env todo (scanSubdirs env ds t).1) ∧
    ((scanSubdirs env ds s).2 = true → m_done env (scanSubdirs env ds s).1 = true) := by
  induction ds generalizing s t with
  | nil =>
    obtain ⟨hs, ht, hreads, hview⟩ := h
    exact ⟨rfl, hreads, hview, fun _ => ⟨by simpa using hs, by simpa using ht⟩,
      fun hb => Bool.noConfusion hb⟩
  | cons d rest ih =>
    rw [List.map_cons, List.flatten_cons, List.append_assoc] at hnd h
    obtain ⟨s1, s2, s3, s4, s5⟩ := scanSubdir_sim env s t d _ hnd h
    simp only [scanSubdirs]
    cases hb : (scanSubdir env s d).2 with
    | true =>
      have hbt : (scanSubdir env t d).2 = true := by rw [← s1]; exact hb
      rw [hbt]
      simp only [if_true]
      exact ⟨by rw [hb, hbt], s2, s3, fun hf => by rw [hb] at hf; exact Bool.noConfusion hf,
        fun _ => s5 hb⟩
    | false =>
      have hbt : (scanSubdir env t d).2 = false := by rw [← s1]; exact hb
      rw [hbt]
      simp only [Bool.false_eq_true, if_false]
      obtain ⟨v1, v2⟩ := s4 hb
      exact ih _ _ (List.nodup_append.mp hnd).2.1 ⟨v1, v2, s2, s3⟩

theorem runDirs_sim (env : Env) (dirs : List QString) (s t : AircraftScanThread)
    (hnd : (((visits env dirs).map env.setXmlEntries).flatten).Nodup)
    (h : SimInv env (((visits env dirs).map env.setXmlEntries).flatten) s t) :
    publishedView (runDirs env dirs s).1 = publishedView (runDirs env dirs t).1 ∧
    (runDirs env dirs s).2 = (runDirs env dirs t).2 := by
  induction dirs generalizing s t with
  | nil => exact ⟨h.2.2.2, rfl⟩
  | cons root rest ih =>
    have hv : visits env (root :: rest) = env.dirEntries root ++ visits env rest := by
      unfold visits; rw [List.map_cons, List.flatten_cons]
    rw [hv, List.map_append, List.flatten_append] at hnd h
    obtain ⟨c1, c2, c3, c4, c5⟩ := scanSubdirs_sim env (env.dirEntries root) s t _ hnd h
    have hdone : m_done env (scanAircraftDir env t root).1
        = m_done env (scanAircraftDir env s root).1 := by
      rw [m_done_eq_flagAt, m_done_eq_flagAt]
      show flagAt env (scanSubdirs env (env.dirEntries root) t).1.doneReads
        = flagAt env (scanSubdirs env (env.dirEntries root) s).1.doneReads
      rw [c2]
    simp only [runDirs]
    rw [hdone]
    cases hd : m_done env (scanAircraftDir env s root).1 with
    | true =>
      simp only [if_true]
      exact ⟨c3, trivial⟩
    | false =>
      simp only [Bool.false_eq_true, if_false]
      have hflag : (scanSubdirs env (env.dirEntries root) s).2 = false := by
        cases hb : (scanSubdirs env (env.dirEntries root) s).2 with
        | false => rfl
        | true =>
          have := c5 hb
          have hd' : m_done env (scanSubdirs env (env.dirEntries root) s).1 = false := hd
          rw [this] at hd'
          exact Bool.noConfusion hd'
      obtain ⟨v1, v2⟩ := c4 hflag
      exact ih (afterRead (scanAircraftDir env s root).1) (afterRead (scanAircraftDir env t root).1)
        (List.nodup_append.mp hnd).2.1
        ⟨v1, v2, congrArg (fun n => n + 1) c2, c3⟩

theorem run_view (env : Env) (s : AircraftScanThread) :
    publishedView (run env s)
      = publishedView (runDirs env (readCache env s).m_dirs (readCache env s)).1 := by
  unfold run
  simp only []
  split
  · rfl
  · unfold publishedView
    simp only [writeCache_get, writeCache_m_items]

/-- When no definition file occurs twice in the listings walked and every entry
kept by `readCache` has the stored members of the record that the constructor
builds for its path, the scan that starts from the cache and the scan that
starts from an empty cache leave the same pending items as records, also when
both are stopped after the same number of reads of the stop flag. -/
theorem cache_transparent (env : Env) (dirs : List QString) (cache : QByteArray)
    (hnd : (((visits env dirs).map env.setXmlEntries).flatten).Nodup)
    (hcache : ∀ f p,
      (readCache env (AircraftScanThread.init dirs Heap.init cache)).m_cachedItems.lookup f
        = some p →
      (AircraftItem.construct env f).map AircraftItem.stored
        = some ((readCache env (AircraftScanThread.init dirs Heap.init cache)).heap.get
            p).stored) :
    publishedView (run env (AircraftScanThread.init dirs Heap.init cache))
      = publishedView (run env (AircraftScanThread.init dirs Heap.init [])) ∧
    (env.setDoneAfter = none →
      publishedView (run env (AircraftScanThread.init dirs Heap.init cache))
        = expectedView env dirs) := by
  have hinv : ∀ settings : QByteArray,
      (∀ f p,
        (readCache env (AircraftScanThread.init dirs Heap.init settings)).m_cachedItems.lookup f
          = some p →
        (AircraftItem.construct env f).map AircraftItem.stored
          = some ((readCache env (AircraftScanThread.init dirs Heap.init settings)).heap.get
              p).stored) →
      ViewInv env (((visits env dirs).map env.setXmlEntries).flatten)
        (readCache env (AircraftScanThread.init dirs Heap.init settings)) := by
    intro settings hc
    obtain ⟨r1, r2, r3, _⟩ := readCache_init env dirs settings
    exact ⟨r1, hc, fun f _ p _ => r2 p,
      fun p hp => by rw [r3] at hp; exact absurd hp (List.not_mem_nil _)⟩
  have h1 := hinv cache hcache
  have h2 := hinv [] (fun f p hp => Option.noConfusion hp)
  have hd1 := (readCache_init env dirs cache).2.2.2
  have hd2 := (readCache_init env dirs []).2.2.2
  have hi1 := (readCache_init env dirs cache).2.2.1
  have hi2 := (readCache_init env dirs []).2.2.1
  have hr1 := (readCache_frame env (AircraftScanThread.init dirs Heap.init cache)).2.2.2.1
  have hr2 := (readCache_frame env (AircraftScanThread.init dirs Heap.init [])).2.2.2.1
  constructor
  · rw [run_view, run_view, hd1, hd2]
    refine (runDirs_sim env dirs _ _ hnd ⟨h1, h2, ?_, ?_⟩).1
    · rw [hr1, hr2]; rfl
    · unfold publishedView; rw [hi1, hi2]; rfl
  · intro hnever
    rw [run_view, hd1, runDirs_view env hnever dirs _ hnd h1]
    unfold publishedView
    rw [hi1]
    rfl

/-! ### the batches of a walk, cut short or not -/

theorem scanSubdir_stopped_items (env : Env) (s : AircraftScanThread) (d : QString)
    (hstop : (scanSubdir env s d).2 = true) :
    (scanSubdir env s d).1.m_items = s.m_items ∧ m_done env (scanSubdir env s d).1 = true := by
  obtain ⟨h1, _, h3⟩ := scanSubdir_flag env s d
  rw [h3 hstop]
  exact ⟨(scanSetXml_frame env (env.setXmlEntries d) s ⟨QMap.empty, []⟩).2,
    scanSetXml_stopped env _ s _ (by rw [← h1]; exact hstop)⟩

theorem scanSubdirs_batches (env : Env) (ds : List QString)
    (s : AircraftScanThread) (hwf : CacheWF s) :
    CacheWF (scanSubdirs env ds s).1 ∧ Extends s (scanSubdirs env ds s).1 ∧
    ((scanSubdirs env ds s).2 = true → m_done env (scanSubdirs env ds s).1 = true) ∧
    ∃ walked batches, walked <+: ds ∧
      ((scanSubdirs env ds s).2 = false → walked = ds) ∧
      (scanSubdirs env ds s).1.m_items = s.m_items ++ batches.flatten ∧
      List.Forall₂ (BatchOf env (scanSubdirs env ds s).1.heap) walked batches := by
  induction ds generalizing s with
  | nil =>
    exact ⟨hwf, extends_refl _, fun h => Bool.noConfusion h, [], [], List.prefix_refl _,
      fun _ => rfl, by simp [scanSubdirs], List.Forall₂.nil⟩
  | cons d rest ih =>
    obtain ⟨e1, e2⟩ := scanSubdir_extends env s d hwf
    simp only [scanSubdirs]
    cases hb : (scanSubdir env s d).2 with
    | true =>
      simp only [if_true]
      obtain ⟨t1, t2⟩ := scanSubdir_stopped_items env s d hb
      exact ⟨e1, e2, fun _ => t2, [], [], List.nil_prefix, fun h => by rw [hb] at h; exact Bool.noConfusion h,
        by rw [t1]; simp, List.Forall₂.nil⟩
    | false =>
      simp only [Bool.false_eq_true, if_false]
      obtain ⟨batch, b1, b2⟩ := scanSubdir_batch env s d hwf hb
      obtain ⟨i1, i2, i3, walked, batches, i4, i5, i6, i7⟩ := ih _ e1
      refine ⟨i1, extends_trans e2 i2, i3, d :: walked, batch :: batches,
        (List.prefix_cons_inj d).mpr i4, fun h => by rw [i5 h], ?_, ?_⟩
      · rw [i6, b1, List.flatten_cons, List.append_assoc]
      · exact List.Forall₂.cons (BatchOf_of_extends i2 b2) i7

theorem readCacheItems_defined (env : Env) (n : Nat) (ds : QByteArray) (s : AircraftScanThread)
    (hwf : CacheWF s) (hu : s.heap.undefined = false)
    (hd : ∀ q ∈ s.heap.deleted, q < s.heap.next)
    (hc : ∀ f p, s.m_cachedItems.lookup f = some p → p ∉ s.heap.deleted) :
    (readCacheItems env n ds s).heap.undefined = false ∧
    (∀ q ∈ (readCacheItems env n ds s).heap.deleted, q < (readCacheItems env n ds s).heap.next) ∧
    (∀ f p, (readCacheItems env n ds s).m_cachedItems.lookup f = some p →
      p ∉ (readCacheItems env n ds s).heap.deleted) := by
  induction n generalizing ds s with
  | zero => exact ⟨hu, hd, hc⟩
  | succ n ih =>
    simp only [readCacheItems]
    have hfresh : s.heap.next ∉ s.heap.deleted := fun h => absurd (hd _ h) (lt_irrefl _)
    split
    · apply ih
      · intro k p hp
        obtain ⟨h1, h2⟩ := hwf k p hp
        refine ⟨Nat.lt_succ_of_lt h1, ?_⟩
        simp only [Heap.get_delete, Heap.get_alloc, if_neg (Nat.ne_of_lt h1)]
        exact h2
      · simp only [Heap.undefined_delete, Heap.undefined_alloc, Heap.deleted_alloc,
          Heap.fst_alloc, hu, Bool.false_or, decide_eq_false_iff_not]
        exact hfresh
      · intro q hq
        simp only [Heap.deleted_delete, Heap.deleted_alloc, Heap.fst_alloc,
          List.mem_cons] at hq
        simp only [Heap.next_delete, Heap.next_alloc]
        rcases hq with h | h
        · omega
        · exact Nat.lt_succ_of_lt (hd q h)
      · intro f p hp hq
        simp only [Heap.deleted_delete, Heap.deleted_alloc, Heap.fst_alloc,
          List.mem_cons] at hq
        rcases hq with h | h
        · have := (hwf f p hp).1
          omega
        · exact hc f p hp h
    · apply ih
      · intro k p hp
        simp only [QMap.lookup_insert, Heap.fst_alloc] at hp
        simp only [Heap.next_alloc, Heap.get_alloc]
        by_cases hk : (AircraftItem.fromDataStream ds).1.path = k
        · rw [if_pos hk] at hp
          injection hp with hp
          subst hp
          exact ⟨Nat.lt_succ_self _, by simp [hk]⟩
        · rw [if_neg hk] at hp
          obtain ⟨h1, h2⟩ := hwf k p hp
          exact ⟨Nat.lt_succ_of_lt h1, by simp [Nat.ne_of_lt h1, h2]⟩
      · exact hu
      · intro q hq
        exact Nat.lt_succ_of_lt (hd q hq)
      · intro f p hp hq
        simp only [QMap.lookup_insert, Heap.fst_alloc] at hp
        have hq2 : p ∈ s.heap.deleted := hq
        by_cases hk : (AircraftItem.fromDataStream ds).1.path = f
        · rw [if_pos hk] at hp
          injection hp with hp
          subst hp
          exact hfresh hq2
        · rw [if_neg hk] at hp
          exact hc f p hp hq2

theorem readCache_defined (env : Env) (dirs : List QString) (settings : QByteArray)
    (todo : List QString) :
    DefInv todo (readCache env (AircraftScanThread.init dirs Heap.init settings)) := by
  have hwf0 : CacheWF (AircraftScanThread.init dirs Heap.init settings) := by
    intro k p hp; exact Option.noConfusion hp
  have h0 : DefInv todo (AircraftScanThread.init dirs Heap.init settings) :=
    ⟨hwf0, rfl, fun q hq => absurd hq (List.not_mem_nil _),
      fun f _ p hp => Option.noConfusion hp⟩
  refine ⟨(readCache_init env dirs settings).1, ?_⟩
  unfold readCache
  simp only []
  split
  · exact h0.2
  · split
    · exact h0.2
    · obtain ⟨a, b, c⟩ := readCacheItems_defined env _ _ _ hwf0 rfl
        (fun q hq => absurd hq (List.not_mem_nil _)) (fun f p hp => Option.noConfusion hp)
      exact ⟨a, b, fun f _ p hp => c f p hp⟩

theorem loadItem_defined {env : Env} {s s1 : AircraftScanThread} {f : QString} {p : Nat}
    (h : loadItem env s f = some (p, s1))
    (hd : ∀ q ∈ s.heap.deleted, q < s.heap.next)
    (hc : ∀ q, s.m_cachedItems.lookup f = some q → q ∉ s.heap.deleted) :
    p ∉ s.heap.deleted ∧ s1.heap.undefined = s.heap.undefined := by
  unfold loadItem at h
  by_cases hcf : s.m_cachedItems.contains f = true
  · rw [if_pos hcf] at h
    injection h with h; injection h with h1 h2; subst h1; subst h2
    obtain ⟨q, hq⟩ := QMap.contains_iff.mp hcf
    rw [QMap.value_of_lookup hq]
    exact ⟨hc q hq, rfl⟩
  · rw [if_neg hcf] at h
    cases hcon : AircraftItem.construct env f with
    | none => rw [hcon] at h; exact Option.noConfusion h
    | some item =>
      rw [hcon] at h
      injection h with h; injection h with h1 h2; subst h1; subst h2
      exact ⟨fun hq => absurd (hd _ hq) (lt_irrefl _), rfl⟩

/-- The file loop uses no deleted object when no object kept in the cache for a
file of the listing is deleted; the objects it files are not deleted. -/
theorem scanSetXml_defined (env : Env) (fs : List QString) (s : AircraftScanThread)
    (l : SubdirLocals) (hwf : CacheWF s) (hu : s.heap.undefined = false)
    (hd : ∀ q ∈ s.heap.deleted, q < s.heap.next)
    (hc : ∀ f ∈ fs, ∀ p, s.m_cachedItems.lookup f = some p → p ∉ s.heap.deleted) :
    (scanSetXml env fs s l).1.heap.undefined = false ∧
    (∀ x ∈ (scanSetXml env fs s l).2.1.variants, x ∈ l.variants ∨ x ∉ s.heap.deleted) ∧
    (∀ x ∈ (scanSetXml env fs s l).2.1.baseAircraft.values,
      x ∈ l.baseAircraft.values ∨ x ∉ s.heap.deleted) := by
  induction fs generalizing s l with
  | nil => exact ⟨hu, fun x hx => Or.inl hx, fun x hx => Or.inl hx⟩
  | cons f rest ih =>
    cases hl : loadItem env s f with
    | none =>
      rw [scanSetXml_cons_none hl]
      exact ih s l hwf hu hd (fun g hg => hc g (List.mem_cons_of_mem _ hg))
    | some r =>
      obtain ⟨p, s1⟩ := r
      obtain ⟨hcm, _, _, hdel, hn, hp, hg, _, _⟩ := loadItem_spec hwf hl
      obtain ⟨hpd, hu1⟩ := loadItem_defined hl hd (hc f (List.mem_cons_self _ _))
      rw [scanSetXml_cons_some hl]
      have hu2 : (afterRead (fileItem s1 l f p).1).heap.undefined = false := by
        show (s1.heap.access p).undefined = false
        rw [Heap.undefined_access, hu1, hu, hdel]
        simpa using hpd
      have hfv : ∀ x ∈ (fileItem s1 l f p).2.variants, x ∈ l.variants ∨ x ∉ s.heap.deleted := by
        intro x hx
        unfold fileItem at hx
        simp only [] at hx
        split at hx
        · exact Or.inl hx
        · rcases List.mem_append.mp hx with h | h
          · exact Or.inl h
          · rw [List.mem_singleton.mp h]; exact Or.inr hpd
      have hfb : ∀ x ∈ (fileItem s1 l f p).2.baseAircraft.values,
          x ∈ l.baseAircraft.values ∨ x ∉ s.heap.deleted := by
        intro x hx
        unfold fileItem at hx
        simp only [] at hx
        split at hx
        · rcases QMap.mem_values_insert hx with h | h
          · rw [h]; exact Or.inr hpd
          · exact Or.inl h
        · exact Or.inl hx
      split
      · exact ⟨hu2, hfv, hfb⟩
      · have hwf2 : CacheWF (afterRead (fileItem s1 l f p).1) :=
          CacheWF_of_ext hwf hcm hn (fun q hq => by
            show (s1.heap.get q).path = _
            rw [hg q hq])
        have hd2 : ∀ q ∈ (afterRead (fileItem s1 l f p).1).heap.deleted,
            q < (afterRead (fileItem s1 l f p).1).heap.next := by
          intro q hq
          have hq2 : q ∈ s1.heap.deleted := hq
          rw [hdel] at hq2
          exact lt_of_lt_of_le (hd q hq2) hn
        have hc2 : ∀ g ∈ rest, ∀ q,
            (afterRead (fileItem s1 l f p).1).m_cachedItems.lookup g = some q →
            q ∉ (afterRead (fileItem s1 l f p).1).heap.deleted := by
          intro g hg2 q hq hqd
          have hq2 : s1.m_cachedItems.lookup g = some q := hq
          have hqd2 : q ∈ s1.heap.deleted := hqd
          rw [hcm] at hq2
          rw [hdel] at hqd2
          exact hc g (List.mem_cons_of_mem _ hg2) q hq2 hqd2
        obtain ⟨i1, i2, i3⟩ := ih (afterRead (fileItem s1 l f p).1) (fileItem s1 l f p).2
          hwf2 hu2 hd2 hc2
        have hde : (afterRead (fileItem s1 l f p).1).heap.deleted = s.heap.deleted := hdel
        rw [hde] at i2 i3
        refine ⟨i1, fun x hx => ?_, fun x hx => ?_⟩
        · rcases i2 x hx with h | h
          · exact hfv x h
          · exact Or.inr h
        · rcases i3 x hx with h | h
          · exact hfb x h
          · exact Or.inr h

/-- The binding loop uses no deleted object when the variants are distinct
objects, none of them deleted, and the principals are other objects, none of
them deleted; it deletes variants only. -/
theorem bindVariants_defined (base : QMap Nat) (vs : List Nat) (h : Heap)
    (hu : h.undefined = false) (hnd : vs.Nodup) (hv : ∀ v ∈ vs, v ∉ h.deleted)
    (hb : ∀ q ∈ base.values, q ∉ h.deleted ∧ q ∉ vs) :
    (bindVariants base vs h).undefined = false ∧
    ∀ x ∈ (bindVariants base vs h).deleted, x ∈ h.deleted ∨ x ∈ vs := by
  induction vs generalizing h with
  | nil => exact ⟨hu, fun x hx => Or.inl hx⟩
  | cons item rest ih =>
    have hid : item ∉ h.deleted := hv item (List.mem_cons_self _ _)
    obtain ⟨hnr, hndr⟩ := List.nodup_cons.mp hnd
    simp only [bindVariants]
    cases hl : base.lookup ((h.get item).variantOf.getD "") with
    | none =>
      have hc : base.contains ((h.get item).variantOf.getD "") = false := by
        unfold QMap.contains; rw [hl]; rfl
      simp only [hc, Bool.not_false, if_true]
      obtain ⟨i1, i2⟩ := ih ((h.access item).delete item)
        (by simp [hu, hid]) hndr
        (by
          intro v hvr hvd
          simp only [Heap.deleted_delete, Heap.deleted_access, List.mem_cons] at hvd
          rcases hvd with e | e
          · exact hnr (e ▸ hvr)
          · exact hv v (List.mem_cons_of_mem _ hvr) e)
        (by
          intro q hq
          obtain ⟨b1, b2⟩ := hb q hq
          refine ⟨fun hqd => ?_, fun hqr => b2 (List.mem_cons_of_mem _ hqr)⟩
          simp only [Heap.deleted_delete, Heap.deleted_access, List.mem_cons] at hqd
          rcases hqd with e | e
          · exact b2 (e ▸ List.mem_cons_self _ _)
          · exact b1 e)
      refine ⟨i1, fun x hx => ?_⟩
      rcases i2 x hx with e | e
      · simp only [Heap.deleted_delete, Heap.deleted_access, List.mem_cons] at e
        rcases e with e | e
        · exact Or.inr (e ▸ List.mem_cons_self _ _)
        · exact Or.inl e
      · exact Or.inr (List.mem_cons_of_mem _ e)
    | some q =>
      have hc : base.contains ((h.get item).variantOf.getD "") = true := by
        unfold QMap.contains; rw [hl]; rfl
      have hq : base.value ((h.get item).variantOf.getD "") = q := QMap.value_of_lookup hl
      have hqv : q ∈ base.values := QMap.mem_values_of_lookup hl
      simp only [hc, Bool.not_true, Bool.false_eq_true, if_false, hq]
      have hu2 : ((h.access item).appendVariant q item).undefined = false := by
        show ((h.undefined || decide (item ∈ h.deleted)) || decide (q ∈ h.deleted)) = false
        simp [hu, hid, (hb q hqv).1]
      obtain ⟨i1, i2⟩ := ih ((h.access item).appendVariant q item) hu2 hndr
        (fun v hvr => hv v (List.mem_cons_of_mem _ hvr))
        (fun x hx => ⟨(hb x hx).1, fun hxr => (hb x hx).2 (List.mem_cons_of_mem _ hxr)⟩)
      refine ⟨i1, fun x hx => ?_⟩
      rcases i2 x hx with e | e
      · exact Or.inl e
      · exact Or.inr (List.mem_cons_of_mem _ e)

theorem records_paths_sublist (env : Env) (s : AircraftScanThread) (hwf : CacheWF s)
    (listing : List QString) :
    ((listing.filterMap (recordOf env s)).map (fun r => r.path)).Sublist listing := by
  induction listing with
  | nil => exact List.Sublist.slnil
  | cons f rest ih =>
    cases hr : recordOf env s f with
    | none =>
      rw [List.filterMap_cons_none hr]
      exact List.Sublist.cons _ ih
    | some r =>
      rw [List.filterMap_cons_some hr, List.map_cons, recordOf_path hwf hr]
      exact List.Sublist.cons₂ _ ih

/-- One subdirectory, walked or left through `return`, in a walk without a
repeated file: no deleted object is used. -/
theorem scanSubdir_defined (env : Env) (s : AircraftScanThread) (d : QString)
    (todo : List QString) (hnd : (env.setXmlEntries d ++ todo).Nodup)
    (hinv : DefInv (env.setXmlEntries d ++ todo) s) :
    (scanSubdir env s d).1.heap.undefined = false ∧
    ((scanSubdir env s d).2 = false → DefInv todo (scanSubdir env s d).1) := by
  obtain ⟨hwf, hu, hd, hc⟩ := hinv
  obtain ⟨g1, g2, g3⟩ := scanSetXml_defined env (env.setXmlEntries d) s ⟨QMap.empty, []⟩ hwf hu hd
    (fun f hf => hc f (List.mem_append_left _ hf))
  obtain ⟨f1, _, f3⟩ := scanSubdir_flag env s d
  by_cases hstop : (scanSubdir env s d).2 = true
  · refine ⟨by rw [f3 hstop]; exact g1, fun h => ?_⟩
    rw [hstop] at h
    exact Bool.noConfusion h
  · have hns : (scanSubdir env s d).2 = false := by simpa using hstop
    have hns2 : (scanSetXml env (env.setXmlEntries d) s ⟨QMap.empty, []⟩).2.2 = false := by
      rw [← f1]; exact hns
    obtain ⟨ps, a1, a2, a3, a4, _⟩ :=
      scanSetXml_spec env (env.setXmlEntries d) s ⟨QMap.empty, []⟩ hwf hns2
    obtain ⟨b1, b2, _, b4⟩ := scanSetXml_heap env (env.setXmlEntries d) s ⟨QMap.empty, []⟩ hwf
    obtain ⟨e1, e2⟩ := scanSubdir_extends env s d hwf
    have hres : (scanSubdir env s d).1.heap
        = bindVariants
            (scanSetXml env (env.setXmlEntries d) s ⟨QMap.empty, []⟩).2.1.baseAircraft
            (scanSetXml env (env.setXmlEntries d) s ⟨QMap.empty, []⟩).2.1.variants
            (scanSetXml env (env.setXmlEntries d) s ⟨QMap.empty, []⟩).1.heap := by
      unfold scanSubdir
      simp only []
      rw [if_neg (by rw [hns2]; exact Bool.false_ne_true)]
      rfl
    -- the loaded objects are distinct, and each belongs to a file of the listing
    have hpaths : ps.map (fun p =>
        ((scanSetXml env (env.setXmlEntries d) s ⟨QMap.empty, []⟩).1.heap.get p).path)
        = ((env.setXmlEntries d).filterMap (recordOf env s)).map (fun r => r.path) := by
      rw [← a1, List.map_map]
      rfl
    have hpsnd : ps.Nodup := by
      have h1 : (ps.map (fun p =>
          ((scanSetXml env (env.setXmlEntries d) s ⟨QMap.empty, []⟩).1.heap.get p).path)).Nodup := by
        rw [hpaths]
        exact (records_paths_sublist env s hwf _).nodup (List.nodup_append.mp hnd).1
      exact List.Nodup.of_map _ h1
    have hfile : ∀ p ∈ ps,
        ((scanSetXml env (env.setXmlEntries d) s ⟨QMap.empty, []⟩).1.heap.get p).path
          ∈ env.setXmlEntries d := by
      intro p hp
      have h1 : ((scanSetXml env (env.setXmlEntries d) s ⟨QMap.empty, []⟩).1.heap.get p).path
          ∈ ((env.setXmlEntries d).filterMap (recordOf env s)).map (fun r => r.path) := by
        rw [← hpaths]
        exact List.mem_map.mpr ⟨p, hp, rfl⟩
      exact (records_paths_sublist env s hwf _).subset h1
    have hvs : (scanSetXml env (env.setXmlEntries d) s ⟨QMap.empty, []⟩).2.1.variants
        = ps.filter (fun p =>
            ((scanSetXml env (env.setXmlEntries d) s ⟨QMap.empty, []⟩).1.heap.get
              p).variantOf.isSome) := by
      rw [a3]; rfl
    obtain ⟨c1, c2⟩ := bindVariants_defined
      (scanSetXml env (env.setXmlEntries d) s ⟨QMap.empty, []⟩).2.1.baseAircraft
      (scanSetXml env (env.setXmlEntries d) s ⟨QMap.empty, []⟩).2.1.variants
      (scanSetXml env (env.setXmlEntries d) s ⟨QMap.empty, []⟩).1.heap g1
      (by rw [hvs]; exact hpsnd.filter _)
      (by
        intro v hv
        rw [b4]
        rcases g2 v hv with h | h
        · exact absurd h (List.not_mem_nil _)
        · exact h)
      (by
        intro q hq
        constructor
        · rw [b4]
          rcases g3 q hq with h | h
          · exact absurd h (List.not_mem_nil _)
          · exact h
        · rw [hvs]
          intro hqv
          obtain ⟨_, hsome⟩ := List.mem_filter.mp hqv
          obtain ⟨_, hnone⟩ := baseAircraft_values a4 hq
          rw [hnone] at hsome
          exact Bool.noConfusion hsome)
    refine ⟨by rw [hres]; exact c1, fun _ => ⟨e1, by rw [hres]; exact c1, ?_, ?_⟩⟩
    · intro q hq
      rw [hres] at hq
      have hnext : (scanSubdir env s d).1.heap.next
          = (scanSetXml env (env.setXmlEntries d) s ⟨QMap.empty, []⟩).1.heap.next := by
        rw [hres]; exact (bindVariants_spec _ _ _).1
      rw [hnext]
      rcases c2 q hq with h | h
      · rw [b4] at h
        exact lt_of_lt_of_le (hd q h) b1
      · rw [hvs] at h
        exact a2 q (List.mem_filter.mp h).1
    · intro f hf p hp hpd
      rw [e2.1] at hp
      rw [hres] at hpd
      rcases c2 p hpd with h | h
      · rw [b4] at h
        exact hc f (List.mem_append_right _ hf) p hp h
      · rw [hvs] at h
        have hpl := hfile p (List.mem_filter.mp h).1
        obtain ⟨w1, w2⟩ := hwf f p hp
        rw [b2 p w1, w2] at hpl
        exact (List.nodup_append.mp hnd).2.2 hpl hf

theorem scanSubdirs_defined (env : Env) (ds : List QString) (s : AircraftScanThread)
    (todo : List QString)
    (hnd : ((ds.map env.setXmlEntries).flatten ++ todo).Nodup)
    (hinv : DefInv ((ds.map env.setXmlEntries).flatten ++ todo) s) :
    (scanSubdirs env ds s).1.heap.undefined = false ∧
    ((scanSubdirs env ds s).2 = false → DefInv todo (scanSubdirs env ds s).1) := by
  induction ds generalizing s with
  | nil =>
    have h : DefInv todo s := by simpa using hinv
    exact ⟨h.2.1, fun _ => h⟩
  | cons d rest ih =>
    rw [List.map_cons, List.flatten_cons, List.append_assoc] at hnd hinv
    obtain ⟨s1, s2⟩ := scanSubdir_defined env s d _ hnd hinv
    simp only [scanSubdirs]
    cases hb : (scanSubdir env s d).2 with
    | true =>
      simp only [if_true]
      exact ⟨s1, fun h => by rw [hb] at h; exact Bool.noConfusion h⟩
    | false =>
      simp only [Bool.false_eq_true, if_false]
      exact ih _ (List.nodup_append.mp hnd).2.1 (s2 hb)

theorem runDirs_defined (env : Env) (dirs : List QString) (s : AircraftScanThread)
    (hnd : (((visits env dirs).map env.setXmlEntries).flatten).Nodup)
    (hinv : DefInv (((visits env dirs).map env.setXmlEntries).flatten) s) :
    (runDirs env dirs s).1.heap.undefined = false := by
  induction dirs generalizing s with
  | nil => exact hinv.2.1
  | cons root rest ih =>
    have hv : visits env (root :: rest) = env.dirEntries root ++ visits env rest := by
      unfold visits; rw [List.map_cons, List.flatten_cons]
    rw [hv, List.map_append, List.flatten_append] at hnd hinv
    obtain ⟨c1, c2⟩ := scanSubdirs_defined env (env.dirEntries root) s _ hnd hinv
    obtain ⟨_, _, c3, _⟩ := scanSubdirs_batches env (env.dirEntries root) s hinv.1
    simp only [runDirs]
    cases hdone : m_done env (scanAircraftDir env s root).1 with
    | true =>
      simp only [if_true]
      exact c1
    | false =>
      simp only [Bool.false_eq_true, if_false]
      have hflag : (scanSubdirs env (env.dirEntries root) s).2 = false := by
        cases hb : (scanSubdirs env (env.dirEntries root) s).2 with
        | false => rfl
        | true =>
          have hd2 : m_done env (scanSubdirs env (env.dirEntries root) s).1 = false := hdone
          rw [c3 hb] at hd2
          exact Bool.noConfusion hd2
      exact ih (afterRead (scanAircraftDir env s root).1) (List.nodup_append.mp hnd).2.1
        (c2 hflag)

/-- A walk in which no definition file is listed twice uses no deleted object
up to the moment `run` leaves its loop over the roots, whatever the stored
cache and whenever the stop flag is set. -/
theorem scanned_defined (env : Env) (dirs : List QString) (settings : QByteArray)
    (hnd : (((visits env dirs).map env.setXmlEntries).flatten).Nodup) :
    (scanned env dirs settings).heap.undefined = false :=
  runDirs_defined env dirs _ hnd (readCache_defined env dirs settings _)

/-- When `writeCache` is called with a deleted object in `m_nextCache`, it uses
that object. -/
theorem writeCache_uses_deleted (s : AircraftScanThread) (p : Nat)
    (hp : p ∈ s.m_nextCache.values) (hd : p ∈ s.heap.deleted) :
    (writeCache s).heap.undefined = true := by
  have hmono : ∀ (ps : List Nat) (h : Heap), h.undefined = true →
      (ps.foldl Heap.access h).undefined = true := by
    intro ps
    induction ps with
    | nil => exact fun h hu => hu
    | cons q rest ih =>
      intro h hu
      rw [List.foldl_cons]
      exact ih _ (by simp [hu])
  have hfold : ∀ (ps : List Nat) (h : Heap), p ∈ ps → p ∈ h.deleted →
      (ps.foldl Heap.access h).undefined = true := by
    intro ps
    induction ps with
    | nil => exact fun h hp _ => absurd hp (List.not_mem_nil _)
    | cons q rest ih =>
      intro h hp hd
      rw [List.foldl_cons]
      rcases List.mem_cons.mp hp with e | e
      · subst e
        exact hmono _ _ (by simp [hd])
      · exact ih _ e hd
  exact hfold _ _ hp hd

/-! ### a walk without a file that is never bound -/

theorem readCacheItems_unlist (env : Env) (f : QString) (n : Nat) (ds : QByteArray)
    (s : AircraftScanThread) :
    readCacheItems (env.unlist f) n ds s = readCacheItems env n ds s := by
  induction n generalizing ds s with
  | zero => rfl
  | succ n ih =>
    simp only [readCacheItems, ih]
    rfl

theorem readCache_unlist (env : Env) (f : QString) (s : AircraftScanThread) :
    readCache (env.unlist f) s = readCache env s := by
  unfold readCache
  simp only [readCacheItems_unlist]

theorem recordOf_unlist (env : Env) (f : QString) (s : AircraftScanThread) (g : QString) :
    recordOf (env.unlist f) s g = recordOf env s g := rfl

theorem recordOf_stored_extends {env : Env} {s0 s : AircraftScanThread} (hwf0 : CacheWF s0)
    (hext : Extends s0 s) (g : QString) :
    (recordOf env s g).map AircraftItem.stored = (recordOf env s0 g).map AircraftItem.stored := by
  obtain ⟨e1, _, e3⟩ := hext
  unfold recordOf
  rw [e1]
  by_cases hc : s0.m_cachedItems.contains g = true
  · rw [if_pos hc, if_pos hc]
    obtain ⟨p, hp⟩ := QMap.contains_iff.mp hc
    rw [QMap.value_of_lookup hp]
    simp only [Option.map_some']
    rw [e3 p (hwf0 g p hp).1]
  · rw [if_neg hc, if_neg hc]

theorem records_extends (env : Env) {s0 s : AircraftScanThread} (hwf0 : CacheWF s0)
    (hext : Extends s0 s) (listing : List QString) :
    (listing.filterMap (recordOf env s)).map AircraftItem.stored
      = (listing.filterMap (recordOf env s0)).map AircraftItem.stored := by
  rw [List.map_filterMap, List.map_filterMap]
  apply List.filterMap_congr
  intro g _
  exact recordOf_stored_extends hwf0 hext g

theorem scanSubdir_walk (env : Env) (s0 s : AircraftScanThread) (d : QString)
    (todo : List QString) (hwf0 : CacheWF s0)
    (hns : (scanSubdir env s d).2 = false)
    (hnd : (env.setXmlEntries d ++ todo).Nodup)
    (hinv : WalkInv s0 (env.setXmlEntries d ++ todo) s) :
    WalkInv s0 todo (scanSubdir env s d).1 ∧
    publishedView (scanSubdir env s d).1
      = publishedView s ++ batchView
          (((env.setXmlEntries d).filterMap (recordOf env s0)).map AircraftItem.stored) := by
  obtain ⟨hwf, hext, hfresh, hitems0⟩ := hinv
  have hdisj : ∀ f, f ∈ env.setXmlEntries d → f ∉ todo := by
    intro f h1 h2
    exact (List.nodup_append.mp hnd).2.2 h1 h2
  obtain ⟨ps, h1, base, a1, a2, a3, a4, _, hbase, hitems, hnext, hcached, _, hget⟩ :=
    scanSubdir_spec env s d hwf hns
  obtain ⟨batch, v1, v2, v3⟩ := scanSubdir_view env s d hwf hns
    (fun f hf p hp => hfresh f (List.mem_append_left _ hf) p hp)
  obtain ⟨e1, e2⟩ := scanSubdir_extends env s d hwf
  have hrec : ∀ p ∈ ps, ∃ g ∈ env.setXmlEntries d, recordOf env s g = some (h1.get p) := by
    intro p hp
    have : h1.get p ∈ (env.setXmlEntries d).filterMap (recordOf env s) := by
      rw [← a1]; exact List.mem_map.mpr ⟨p, hp, rfl⟩
    exact List.mem_filterMap.mp this
  have hkeep : ∀ q, q < s.heap.next → (s.heap.get q).path ∉ env.setXmlEntries d →
      ((scanSubdir env s d).1.heap.get q).variants = (s.heap.get q).variants := by
    intro q hq hpath
    rw [(hget q).2, a4 q hq]
    have : (ps.filter (fun p => (h1.get p).variantOf.isSome)).filter
        (fun v => decide (base.lookup ((h1.get v).variantOf.getD "") = some q)) = [] := by
      apply List.filter_eq_nil_iff.mpr
      intro v _ hv
      have hl := of_decide_eq_true hv
      obtain ⟨b1, _, _⟩ := baseAircraft_lookup hbase hl
      obtain ⟨g, hg, hr⟩ := hrec q b1
      apply hpath
      rw [← a4 q hq, recordOf_path hwf hr]
      exact hg
    rw [this, List.append_nil]
  have hstored : ∀ q, q < s.heap.next →
      ((scanSubdir env s d).1.heap.get q).stored = (s.heap.get q).stored := e2.2.2
  refine ⟨⟨e1, extends_trans hext e2, ?_, ?_⟩, ?_⟩
  · intro f hf p hp
    rw [hcached] at hp
    obtain ⟨w1, w2⟩ := hwf f p hp
    rw [hkeep p w1 (by rw [w2]; exact fun h => hdisj f h hf)]
    exact hfresh f (List.mem_append_right _ hf) p hp
  · intro p hp
    rw [v1] at hp
    rcases List.mem_append.mp hp with h | h
    · obtain ⟨i1, i2, i3⟩ := hitems0 p h
      have hnl : (s.heap.get p).path ∉ env.setXmlEntries d :=
        fun hh => i2 (List.mem_append_left _ hh)
      refine ⟨lt_of_lt_of_le i1 e2.2.1, ?_, ?_⟩
      · rw [stored_path (hstored p i1)]
        exact fun hh => i2 (List.mem_append_right _ hh)
      · rw [hkeep p i1 hnl]
        exact fun v hv => lt_of_lt_of_le (i3 v hv) e2.2.1
    · obtain ⟨j1, j2, j3⟩ := v3 p h
      exact ⟨j1, hdisj _ j2, j3⟩
  · unfold publishedView
    rw [v1, List.map_append, v2, records_extends env hwf0 hext]
    congr 1
    apply List.map_congr_left
    intro p hp
    obtain ⟨i1, i2, i3⟩ := hitems0 p hp
    have hnl : (s.heap.get p).path ∉ env.setXmlEntries d :=
      fun hh => i2 (List.mem_append_left _ hh)
    rw [hstored p i1, hkeep p i1 hnl]
    refine Prod.ext rfl ?_
    show List.map _ _ = List.map _ _
    apply List.map_congr_left
    intro v hv
    exact hstored v (i3 v hv)

theorem scanSubdirs_walk (env : Env) (hnever : env.setDoneAfter = none) (s0 : AircraftScanThread)
    (hwf0 : CacheWF s0) (ds : List QString)
    (s : AircraftScanThread) (todo : List QString)
    (hnd : ((ds.map env.setXmlEntries).flatten ++ todo).Nodup)
    (hinv : WalkInv s0 ((ds.map env.setXmlEntries).flatten ++ todo) s) :
    WalkInv s0 todo (scanSubdirs env ds s).1 ∧
    publishedView (scanSubdirs env ds s).1
      = publishedView s ++ (ds.map (fun d => batchView
          (((env.setXmlEntries d).filterMap (recordOf env s0)).map
            AircraftItem.stored))).flatten := by
  induction ds generalizing s with
  | nil =>
    refine ⟨by simpa using hinv, ?_⟩
    simp [scanSubdirs]
  | cons d rest ih =>
    have hns := scanSubdir_never_stopped env hnever s d
    rw [List.map_cons, List.flatten_cons, List.append_assoc] at hnd hinv
    obtain ⟨s1, s2⟩ := scanSubdir_walk env s0 s d _ hwf0 hns hnd hinv
    obtain ⟨i1, i2⟩ := ih _ (List.nodup_append.mp hnd).2.1 s1
    simp only [scanSubdirs]
    rw [if_neg (by rw [hns]; exact Bool.false_ne_true)]
    refine ⟨i1, ?_⟩
    rw [i2, s2, List.map_cons, List.flatten_cons, List.append_assoc]

theorem runDirs_walk (env : Env) (hnever : env.setDoneAfter = none) (s0 : AircraftScanThread)
    (hwf0 : CacheWF s0) (dirs : List QString)
    (s : AircraftScanThread)
    (hnd : (((visits env dirs).map env.setXmlEntries).flatten).Nodup)
    (hinv : WalkInv s0 (((visits env dirs).map env.setXmlEntries).flatten) s) :
    publishedView (runDirs env dirs s).1
      = publishedView s ++ ((visits env dirs).map (fun d => batchView
          (((env.setXmlEntries d).filterMap (recordOf env s0)).map
            AircraftItem.stored))).flatten := by
  induction dirs generalizing s with
  | nil => simp [runDirs, visits]
  | cons root rest ih =>
    have hv : visits env (root :: rest) = env.dirEntries root ++ visits env rest := by
      unfold visits; rw [List.map_cons, List.flatten_cons]
    rw [hv, List.map_append, List.flatten_append] at hnd hinv
    obtain ⟨c1, c2⟩ := scanSubdirs_walk env hnever s0 hwf0 (env.dirEntries root) s _ hnd hinv
    have hdone : m_done env (scanAircraftDir env s root).1 = false := by unfold m_done; rw [hnever]
    simp only [runDirs]
    rw [hdone]
    simp only [Bool.false_eq_true, if_false]
    have hinv2 : WalkInv s0 (((visits env rest).map env.setXmlEntries).flatten)
        (afterRead (scanAircraftDir env s root).1) := c1
    rw [ih (afterRead (scanAircraftDir env s root).1) (List.nodup_append.mp hnd).2.1 hinv2]
    show publishedView (scanSubdirs env (env.dirEntries root) s).1 ++ _ = _
    rw [c2, List.append_assoc, hv, List.map_append, List.flatten_append]

/-- What a walk that is not cancelled, over listings without a repeated file,
has published when `run` leaves its loop: for every subdirectory, in the order
of the walk, the batch of the records loaded for its listing. -/
theorem scanned_view (env : Env) (dirs : List QString) (settings : QByteArray)
    (hnever : env.setDoneAfter = none)
    (hnd : (((visits env dirs).map env.setXmlEntries).flatten).Nodup) :
    publishedView (scanned env dirs settings)
      = ((visits env dirs).map (fun d => batchView
          (((env.setXmlEntries d).filterMap
            (recordOf env (readCache env (AircraftScanThread.init dirs Heap.init settings)))).map
            AircraftItem.stored))).flatten := by
  obtain ⟨r1, r2, r3, _⟩ := readCache_init env dirs settings
  have h := runDirs_walk env hnever _ r1 dirs
    (readCache env (AircraftScanThread.init dirs Heap.init settings)) hnd
    ⟨r1, extends_refl _, fun _ _ p _ => r2 p, fun p hp => by rw [r3] at hp; simp at hp⟩
  unfold scanned
  rw [h]
  unfold publishedView
  rw [r3]
  rfl

/-! ### a batch without a record that is never bound -/

theorem filter_filterMap_drop {α β : Type} (R : α → Option β) (keep : α → Bool) (P : β → Bool)
    (L : List α) (h : ∀ g ∈ L, keep g = false → ∀ r, R g = some r → P r = false) :
    ((L.filter keep).filterMap R).filter P = (L.filterMap R).filter P := by
  induction L with
  | nil => rfl
  | cons g rest ih =>
    have ih2 := ih (fun x hx => h x (List.mem_cons_of_mem _ hx))
    cases hk : keep g with
    | true =>
      rw [List.filter_cons_of_pos hk]
      cases hr : R g with
      | none => rw [List.filterMap_cons_none hr, List.filterMap_cons_none hr]; exact ih2
      | some r =>
        rw [List.filterMap_cons_some hr, List.filterMap_cons_some hr, List.filter_cons,
          List.filter_cons, ih2]
    | false =>
      rw [List.filter_cons_of_neg (by rw [hk]; exact Bool.false_ne_true)]
      cases hr : R g with
      | none => rw [List.filterMap_cons_none hr]; exact ih2
      | some r =>
        rw [List.filterMap_cons_some hr, List.filter_cons,
          if_neg (by rw [h g (List.mem_cons_self _ _) hk r hr]; exact Bool.false_ne_true)]
        exact ih2

theorem foldl_insert_entries_of {V : Type} (key : V → QString) (ps : List V) (m : QMap V)
    (e : QString × V) (he : e ∈ (ps.foldl (fun m r => m.insert (key r) r) m).entries) :
    (e.2 ∈ ps ∧ e.1 = key e.2) ∨ e ∈ m.entries := by
  induction ps generalizing m with
  | nil => exact Or.inr he
  | cons p rest ih =>
    rcases ih _ he with ⟨h1, h2⟩ | h1
    · exact Or.inl ⟨List.mem_cons_of_mem _ h1, h2⟩
    · rcases QMap.mem_entries_insert h1 with h2 | h2
      · rw [h2]; exact Or.inl ⟨List.mem_cons_self _ _, rfl⟩
      · exact Or.inr h2

/-- Removing from a listing a file whose record is a variant of `k`, when no
principal of the listing has the base name `k`, leaves the batch unchanged. -/
theorem batchView_unlist (R : QString → Option Stored) (L : List QString) (f k : QString)
    (rf : Stored) (hrec : R f = some rf) (hvar : storedVariantOf rf = some k)
    (hnone : f ∈ L → ∀ g ∈ L, ∀ r, R g = some r → storedVariantOf r = none →
      storedBaseName r ≠ k) :
    batchView ((L.filter (fun g => g != f)).filterMap R) = batchView (L.filterMap R) := by
  by_cases hf : f ∈ L
  · have hkeep : ∀ g ∈ L, (g != f) = false → ∀ r, R g = some r → r = rf := by
      intro g _ hg r hr
      have : g = f := by simpa using hg
      rw [this, hrec] at hr
      exact (Option.some.inj hr).symm
    have hprin : ((L.filter (fun g => g != f)).filterMap R).filter
          (fun r => (storedVariantOf r).isNone)
        = (L.filterMap R).filter (fun r => (storedVariantOf r).isNone) := by
      apply filter_filterMap_drop
      intro g hg hk r hr
      rw [hkeep g hg hk r hr, hvar]
      rfl
    unfold batchView
    rw [hprin]
    apply List.map_congr_left
    intro e he
    have hkey : e.1 ≠ k := by
      rcases foldl_insert_entries_of storedBaseName _ _ e he with ⟨h1, h2⟩ | h1
      · obtain ⟨h3, h4⟩ := List.mem_filter.mp h1
        obtain ⟨g, hg, hr⟩ := List.mem_filterMap.mp h3
        rw [h2]
        refine hnone hf g hg e.2 hr ?_
        cases hv : storedVariantOf e.2 with
        | none => rfl
        | some x => rw [hv] at h4; exact Bool.noConfusion h4
      · exact absurd h1 (List.not_mem_nil _)
    refine Prod.ext rfl ?_
    show List.filter _ (List.filter _ _) = List.filter _ (List.filter _ _)
    rw [List.filter_filter, List.filter_filter]
    apply filter_filterMap_drop
    intro g hg hk r hr
    rw [hkeep g hg hk r hr]
    have : decide ((storedVariantOf rf).getD "" = e.1) = false := by
      rw [hvar]
      exact decide_eq_false (fun h => hkey h.symm)
    rw [this]
    rfl
  · have : L.filter (fun g => g != f) = L := by
      apply List.filter_eq_self.mpr
      intro g hg
      have : g ≠ f := fun h => hf (h ▸ hg)
      simpa using this
    rw [this]

theorem flatten_map_filter_nodup {α β : Type} (l : β → List α) (q : α → Bool) (ds : List β)
    (h : ((ds.map l).flatten).Nodup) : ((ds.map (fun d => (l d).filter q)).flatten).Nodup := by
  have : (ds.map (fun d => (l d).filter q)).flatten = ((ds.map l).flatten).filter q := by
    clear h
    induction ds with
    | nil => rfl
    | cons d rest ih =>
      rw [List.map_cons, List.flatten_cons, List.map_cons, List.flatten_cons, List.filter_append,
        ih]
  rw [this]
  exact h.filter q

/-- C2. An unbound variant is dropped and the scan goes on. Let the definition
file `f` load as a variant of `k`, let no subdirectory that lists `f` list a
principal of base name `k` (other subdirectories and other roots may hold
one), and let no deleted object have been used when `run` leaves its loop over
the roots, the moment at which every batch has been published. Then, at that
moment, `f` is the path of no pending item and of no variant attached to a
pending item. And when the stop flag is never set and no definition file is
listed twice, the pending items seen as records (the principals in order,
each with its variants in order) are those of the same scan over the tree in
which no listing names `f`, a scan that uses no deleted object either: every
other record is published as if `f` were not there. -/
theorem unbound_variant_absent (env : Env) (dirs : List QString) (settings : QByteArray)
    (f k : QString) (rf : AircraftItem)
    (hrec : recordOf env (readCache env (AircraftScanThread.init dirs Heap.init settings)) f
      = some rf)
    (hvar : rf.variantOf = some k)
    (hnone : ∀ root ∈ dirs, ∀ d ∈ env.dirEntries root, f ∈ env.setXmlEntries d →
      ∀ g ∈ env.setXmlEntries d, ∀ r,
        recordOf env (readCache env (AircraftScanThread.init dirs Heap.init settings)) g = some r →
        r.variantOf = none → r.baseName ≠ k)
    (hdef : (scanned env dirs settings).heap.undefined = false) :
    (∀ p ∈ (scanned env dirs settings).m_items,
      ((scanned env dirs settings).heap.get p).path ≠ f ∧
      ∀ v ∈ ((scanned env dirs settings).heap.get p).variants,
        ((scanned env dirs settings).heap.get v).path ≠ f) ∧
    (env.setDoneAfter = none → (((visits env dirs).map env.setXmlEntries).flatten).Nodup →
      (scanned (env.unlist f) dirs settings).heap.undefined = false ∧
      publishedView (scanned env dirs settings)
        = publishedView (scanned (env.unlist f) dirs settings)) := by
  refine ⟨scanned_absent env dirs settings f k rf hrec hvar hnone, fun hnever hnd => ?_⟩
  have hnd2 : (((visits (env.unlist f) dirs).map (env.unlist f).setXmlEntries).flatten).Nodup :=
    flatten_map_filter_nodup env.setXmlEntries (fun g => g != f) (visits env dirs) hnd
  refine ⟨scanned_defined (env.unlist f) dirs settings hnd2, ?_⟩
  rw [scanned_view env dirs settings hnever hnd,
    scanned_view (env.unlist f) dirs settings hnever hnd2, readCache_unlist]
  show _ = ((visits env dirs).map _).flatten
  congr 1
  apply List.map_congr_left
  intro d hd
  obtain ⟨l, hl, hdl⟩ := List.mem_flatten.mp hd
  obtain ⟨root, hroot, rfl⟩ := List.mem_map.mp hl
  show _ = batchView ((((env.setXmlEntries d).filter (fun g => g != f)).filterMap
    (recordOf env (readCache env (AircraftScanThread.init dirs Heap.init settings)))).map
      AircraftItem.stored)
  rw [List.map_filterMap, List.map_filterMap]
  refine (batchView_unlist _ (env.setXmlEntries d) f k rf.stored ?_ hvar ?_).symm
  · rw [hrec]; rfl
  · intro hf g hg r hr hv
    cases hrg : recordOf env (readCache env (AircraftScanThread.init dirs Heap.init settings)) g with
    | none => rw [hrg] at hr; exact Option.noConfusion hr
    | some r0 =>
      rw [hrg] at hr
      have hr0 : r0.stored = r := Option.some.inj hr
      rw [← hr0] at hv ⊢
      exact hnone root hroot d hdl hf g hg r0 hrg hv

/-- C21, witness: a payload with the count 3 and the one record of `p`, whose
file is unchanged. -/
theorem readCache_truncated_witness :
    (∀ k, (readCache truncEnv
        (AircraftScanThread.init ["/r"] Heap.init truncatedCache)).m_cachedItems.contains k = true ↔
      ∃ e ∈ [sampleItem "/r/a/p-set.xml" none], e.path = k ∧ validEntry truncEnv e = true) ∧
    (readCache truncEnv
      (AircraftScanThread.init ["/r"] Heap.init truncatedCache)).m_cachedItems ≠ QMap.empty :=
  ⟨(readCache_truncated truncEnv (AircraftScanThread.init ["/r"] Heap.init truncatedCache)
      [sampleItem "/r/a/p-set.xml" none] 3 rfl rfl (by decide) (by decide) (by decide)
      (by decide)).1,
   (readCache_truncated truncEnv (AircraftScanThread.init ["/r"] Heap.init truncatedCache)
      [sampleItem "/r/a/p-set.xml" none] 3 rfl rfl (by decide) (by decide) (by decide)
      (by decide)).2.2 ⟨_, List.mem_cons_self _ _, by decide⟩⟩

/-- C21, counterexample. The payload `truncatedCache` has the current version
tag, the count 3 and one record; `readCache` yields the map with the entry of
`p`, not an empty map (the two items read past the end are deleted), and the
scan then reuses object 1 for the file of `p`. -/
theorem truncated_cache_reused :
    (readWord truncatedCache).1 = wordOfInt CACHE_VERSION ∧
    (readWord (readWord truncatedCache).2).1 = 3 ∧
    (readWord (readWord truncatedCache).2).2 = (sampleItem "/r/a/p-set.xml" none).toDataStream ∧
    (readCache truncEnv
      (AircraftScanThread.init ["/r"] Heap.init truncatedCache)).m_cachedItems.entries
      = [("/r/a/p-set.xml", 1)] ∧
    (readCache truncEnv
      (AircraftScanThread.init ["/r"] Heap.init truncatedCache)).heap.deleted = [3, 2] ∧
    (loadItem truncEnv
      (readCache truncEnv (AircraftScanThread.init ["/r"] Heap.init truncatedCache))
      "/r/a/p-set.xml").map Prod.fst = some 1 := by
  refine ⟨by decide, by decide, by decide, by decide, by decide, by decide⟩

/-- C23, witness: the variant `v2` of the sample tree, whose principal `q` is in
another subdirectory. After the complete run the map given to `writeCache`
holds object 3 under the path of `v2`, object 3 is the one deleted object,
and the cache has been written. -/
theorem unbound_variant_cached_witness :
    (∃ p, (scanSubdir (sampleEnv none) (AircraftScanThread.init ["/r"] Heap.init [])
          "/r/a").1.m_nextCache.lookup "/r/a/v2-set.xml" = some p ∧
      p ∈ (scanSubdir (sampleEnv none) (AircraftScanThread.init ["/r"] Heap.init [])
          "/r/a").1.heap.deleted ∧
      p ∈ (scanSubdir (sampleEnv none) (AircraftScanThread.init ["/r"] Heap.init [])
          "/r/a").1.m_nextCache.values) ∧
    (run (sampleEnv none) (AircraftScanThread.init ["/r"] Heap.init [])).m_nextCache.entries
      = [("/r/a/p-set.xml", 2), ("/r/a/v1-set.xml", 1), ("/r/a/v2-set.xml", 3),
         ("/r/b/q-set.xml", 4)] ∧
    (run (sampleEnv none) (AircraftScanThread.init ["/r"] Heap.init [])).heap.deleted = [3] ∧
    (run (sampleEnv none) (AircraftScanThread.init ["/r"] Heap.init [])).cacheWrites = 1 :=
  ⟨unbound_variant_cached (sampleEnv none) (AircraftScanThread.init ["/r"] Heap.init [])
      "/r/a" "/r/a/v2-set.xml" "q" (sampleItem "/r/a/v2-set.xml" (some "q"))
      (by intro k p hp; exact Option.noConfusion hp) (by decide) (by decide) (by decide) rfl
      (by
        intro g hg r hr hv hb
        have hg' : g = "/r/a/v1-set.xml" ∨ g = "/r/a/p-set.xml" ∨ g = "/r/a/v2-set.xml" := by
          simpa [sampleEnv] using hg
        rcases hg' with h | h | h
        · subst h
          have : recordOf (sampleEnv none) (AircraftScanThread.init ["/r"] Heap.init [])
              "/r/a/v1-set.xml" = some (sampleItem "/r/a/v1-set.xml" (some "p")) := by decide
          rw [this] at hr
          rw [← Option.some.inj hr] at hv
          exact Option.noConfusion hv
        · subst h
          have : recordOf (sampleEnv none) (AircraftScanThread.init ["/r"] Heap.init [])
              "/r/a/p-set.xml" = some (sampleItem "/r/a/p-set.xml" none) := by decide
          rw [this] at hr
          rw [← Option.some.inj hr] at hb
          exact absurd hb (by decide)
        · subst h
          have : recordOf (sampleEnv none) (AircraftScanThread.init ["/r"] Heap.init [])
              "/r/a/v2-set.xml" = some (sampleItem "/r/a/v2-set.xml" (some "q")) := by decide
          rw [this] at hr
          rw [← Option.some.inj hr] at hv
          exact Option.noConfusion hv),
   by decide, by decide, by decide⟩

/-- C24, witness: the definition file of `ratedEnv`, built and read back from
its stream. -/
theorem ratings_not_clamped_witness :
    AircraftItem.construct ratedEnv "/r/a/p-set.xml"
      = some { sampleItem "/r/a/p-set.xml" none with ratings := (7, -1, 0, 5) } ∧
    ∀ rest, ({ sampleItem "/r/a/p-set.xml" none with ratings := (7, -1, 0, 5) } :
        AircraftItem).ratingsInt32 →
      (AircraftItem.fromDataStream
        (({ sampleItem "/r/a/p-set.xml" none with ratings := (7, -1, 0, 5) } :
          AircraftItem).toDataStream ++ rest)).1.ratings = (7, -1, 0, 5) :=
  ⟨by decide,
   (ratings_not_clamped ratedEnv "/r/a/p-set.xml"
      { sampleItem "/r/a/p-set.xml" none with ratings := (7, -1, 0, 5) } (by decide)).2⟩

/-- C24, counterexample. The definition file of `ratedEnv` has the rating
values 7, -1, 0 and 5: the record built from it, the item published by the
scan, and the record that the next `readCache` loads from the cache written
by that scan all have the ratings (7, -1, 0, 5). -/
theorem ratings_out_of_range :
    ((AircraftItem.construct ratedEnv "/r/a/p-set.xml").map (fun item => item.ratings))
      = some (7, -1, 0, 5) ∧
    ((run ratedEnv (AircraftScanThread.init ["/r"] Heap.init [])).m_items.map
        (fun p => ((run ratedEnv (AircraftScanThread.init ["/r"] Heap.init [])).heap.get
          p).ratings)) = [(7, -1, 0, 5)] ∧
    (readCache ratedEnv (AircraftScanThread.init ["/r"] Heap.init
        (run ratedEnv (AircraftScanThread.init ["/r"] Heap.init [])).settings)).m_cachedItems.entries.map
        (fun e => ((readCache ratedEnv (AircraftScanThread.init ["/r"] Heap.init
          (run ratedEnv (AircraftScanThread.init ["/r"] Heap.init [])).settings)).heap.get
            e.2).ratings) = [(7, -1, 0, 5)] := by
  refine ⟨by decide, by decide, by decide⟩

/-- C25, witness: the sample catalog with the variant `v1` selected on row 0;
the path reported is that of `v1`, and looking it up gives the invalid
index. -/
theorem resync_misses_variant_witness :
    (pairScanned.heap.get 1).path = "/r/a/v1-set.xml" ∧
    data pairScanned.heap { m_items := [2], m_activeVariant := [1] } ((0 : Nat) : Int)
        AircraftPathRole = some (QVariant.string (pairScanned.heap.get 1).path) ∧
    indexOfAircraftPath pairScanned.heap { m_items := [2], m_activeVariant := [1] }
      (pairScanned.heap.get 1).path = none :=
  ⟨by decide,
   (resync_misses_variant pairScanned.heap { m_items := [2], m_activeVariant := [1] } 0 2 1
      (by decide) (by decide)
      (by
        intro j q hq _
        cases j with
        | zero => rfl
        | succ n => simp at hq)).2 1 (by decide) (by decide) (by decide)⟩

/-- C26, witness: `--a=1 --k="ab` gives the entry (a, 1) only, while `--a=1 --k`
and `--a=1 --k=ab` give two entries. -/
theorem unterminated_quote_lost_witness :
    tokenize "--a=1 --k=\"ab" = [⟨"a", "1"⟩] ∧
    tokenize "--a=1 --k" = [⟨"a", "1"⟩, ⟨"k", ""⟩] ∧
    tokenize "--a=1 --k=ab" = [⟨"a", "1"⟩, ⟨"k", "ab"⟩] :=
  ⟨(unterminated_quote_lost [] [(ArgText.plain ['a'] ['1'], [' '])] ['k'] ['a', 'b']
      (by simp) (by simp [ArgText.WellFormed, KeyOk]; decide) (by simp; decide)
      (by simp [KeyOk]; decide) (by simp)).1,
   by decide, by decide⟩

/-- The cache of an earlier run is transparent for the root of `pairEnv` given
once. -/
theorem cache_transparent_witness :
    publishedView (run pairEnv (AircraftScanThread.init ["/r"] Heap.init pairCache))
      = publishedView (run pairEnv (AircraftScanThread.init ["/r"] Heap.init [])) ∧
    (pairEnv.setDoneAfter = none →
      publishedView (run pairEnv (AircraftScanThread.init ["/r"] Heap.init pairCache))
        = expectedView pairEnv ["/r"]) :=
  cache_transparent pairEnv ["/r"] pairCache (by decide)
    (by
      intro f p hp
      have hent : (readCache pairEnv
          (AircraftScanThread.init ["/r"] Heap.init pairCache)).m_cachedItems.entries
          = [("/r/a/p-set.xml", 1), ("/r/a/v1-set.xml", 2)] := by decide
      have hmem := QMap.mem_entries_of_lookupEntries hp
      rw [hent] at hmem
      rcases List.mem_cons.mp hmem with h | h
      · injection h with h1 h2
        subst h1; subst h2
        decide
      · rcases List.mem_cons.mp h with h | h
        · injection h with h1 h2
          subst h1; subst h2
          decide
        · exact absurd h (List.not_mem_nil _))

/-! ### scans of sample trees whose listings are in name order -/

theorem strayEnv_unbound :
    ∀ root ∈ ["/r"], ∀ d ∈ (strayEnv none).dirEntries root,
      "/r/a/a-set.xml" ∈ (strayEnv none).setXmlEntries d →
      ∀ g ∈ (strayEnv none).setXmlEntries d, ∀ r,
        recordOf (strayEnv none)
          (readCache (strayEnv none) (AircraftScanThread.init ["/r"] Heap.init [])) g = some r →
        r.variantOf = none → r.baseName ≠ "q" := by
  intro root hroot d hd hf g hg r hr hv
  have hroot2 : root = "/r" := by simpa using hroot
  subst hroot2
  have hd2 : d = "/r/a" ∨ d = "/r/b" := by simpa [strayEnv, sampleEnv] using hd
  rcases hd2 with h | h
  · subst h
    have hg2 : g = "/r/a/a-set.xml" ∨ g = "/r/a/p-set.xml" ∨ g = "/r/a/v1-set.xml" := by
      simpa [strayEnv] using hg
    rcases hg2 with h | h | h
    · subst h
      have : recordOf (strayEnv none)
          (readCache (strayEnv none) (AircraftScanThread.init ["/r"] Heap.init []))
          "/r/a/a-set.xml" = some (sampleItem "/r/a/a-set.xml" (some "q")) := by decide
      rw [this] at hr
      rw [← Option.some.inj hr] at hv
      exact Option.noConfusion hv
    · subst h
      have : recordOf (strayEnv none)
          (readCache (strayEnv none) (AircraftScanThread.init ["/r"] Heap.init []))
          "/r/a/p-set.xml" = some (sampleItem "/r/a/p-set.xml" none) := by decide
      rw [this] at hr
      rw [← Option.some.inj hr]
      decide
    · subst h
      have : recordOf (strayEnv none)
          (readCache (strayEnv none) (AircraftScanThread.init ["/r"] Heap.init []))
          "/r/a/v1-set.xml" = some (sampleItem "/r/a/v1-set.xml" (some "p")) := by decide
      rw [this] at hr
      rw [← Option.some.inj hr] at hv
      exact Option.noConfusion hv
  · subst h
    exact absurd hf (by decide)

/-- C2, witness: in `strayEnv` the file `a`, a variant of `q`, is the first of
the listing of `/r/a`, before `p` and its variant `v1`, and the principal `q`
is in the other subdirectory `/r/b`. The scan deletes the object of `a`,
object 1, and publishes `p` with `v1`, then `q`. -/
theorem unbound_variant_absent_witness :
    ((∀ p ∈ (scanned (strayEnv none) ["/r"] []).m_items,
        ((scanned (strayEnv none) ["/r"] []).heap.get p).path ≠ "/r/a/a-set.xml" ∧
        ∀ v ∈ ((scanned (strayEnv none) ["/r"] []).heap.get p).variants,
          ((scanned (strayEnv none) ["/r"] []).heap.get v).path ≠ "/r/a/a-set.xml") ∧
      ((strayEnv none).setDoneAfter = none →
        (((visits (strayEnv none) ["/r"]).map (strayEnv none).setXmlEntries).flatten).Nodup →
        (scanned ((strayEnv none).unlist "/r/a/a-set.xml") ["/r"] []).heap.undefined = false ∧
        publishedView (scanned (strayEnv none) ["/r"] [])
          = publishedView (scanned ((strayEnv none).unlist "/r/a/a-set.xml") ["/r"] []))) ∧
    pendingPaths (scanned (strayEnv none) ["/r"] [])
      = [("/r/a/p-set.xml", ["/r/a/v1-set.xml"]), ("/r/b/q-set.xml", [])] ∧
    (scanned (strayEnv none) ["/r"] []).heap.deleted = [1] ∧
    ((scanned (strayEnv none) ["/r"] []).heap.get 1).path = "/r/a/a-set.xml" :=
  ⟨unbound_variant_absent (strayEnv none) ["/r"] [] "/r/a/a-set.xml" "q"
      (sampleItem "/r/a/a-set.xml" (some "q")) (by decide) rfl strayEnv_unbound (by decide),
   by decide, by decide, by decide⟩

/-- C8, witness: the pending items of `strayEnv` are the objects 2 and 4; the
principal `p`, object 2, has the one variant `v1`, object 3. -/
theorem published_are_principals_witness :
    (scanned (strayEnv none) ["/r"] []).m_items = [2, 4] ∧
    ((scanned (strayEnv none) ["/r"] []).heap.get 2).variants = [3] ∧
    (((scanned (strayEnv none) ["/r"] []).heap.get 2).variantOf = none ∧
      ∀ v ∈ ((scanned (strayEnv none) ["/r"] []).heap.get 2).variants,
        ((scanned (strayEnv none) ["/r"] []).heap.get v).variantOf
          = some ((scanned (strayEnv none) ["/r"] []).heap.get 2).baseName ∧
        ∃ root ∈ ["/r"], ∃ d ∈ (strayEnv none).dirEntries root,
          ((scanned (strayEnv none) ["/r"] []).heap.get 2).path
            ∈ (strayEnv none).setXmlEntries d ∧
          ((scanned (strayEnv none) ["/r"] []).heap.get v).path
            ∈ (strayEnv none).setXmlEntries d) :=
  ⟨by decide, by decide,
   published_are_principals (strayEnv none) ["/r"] [] 2 (by decide) (by decide)⟩

/-- C7. Drain, and an object returned by two calls. For every thread,
`items()` returns the pending buffer as it is and leaves it empty, a second
call returns the empty list, a later call returns the batches published in
between, in order, and over any sequence of publications and calls every
published element is returned once. But the scan publishes an object reused
from the cache once for every walk of its subdirectory: with the root `/r` of
`hangarEnv` given both as aircraft path and as data root, and the cache of an
earlier run, the call of `items()` made after the walk of the first root and
the call made after the walk of the second root both return object 1 (no
deleted object is used in this run). Started without a cache, the two walks
publish the distinct objects 1 and 3. -/
theorem items_returns_object_twice :
    (∀ (s : AircraftScanThread) (batches : List (List Nat)) (ops : List BufferOp),
      (items s).1 = s.m_items ∧ (items s).2.m_items = [] ∧ (items (items s).2).1 = [] ∧
      (runBuffer (batches.map BufferOp.publish ++ [BufferOp.drain]) (items s).2).1
          = [batches.flatten] ∧
      (runBuffer ops s).1.flatten ++ (runBuffer ops s).2.m_items
          = s.m_items ++ (publishedBy ops).flatten) ∧
    AircraftItemModel.dirs ["/r"] "/r" = ["/r", "/r"] ∧
    (readCache hangarEnv
        (AircraftItemModel.m_scanThread ["/r"] "/r" hangarCache)).m_cachedItems.entries
      = [("/r/a/p-set.xml", 1), ("/r/a/v1-set.xml", 2)] ∧
    drainedAfterEachRoot hangarEnv (AircraftItemModel.m_scanThread ["/r"] "/r" hangarCache)
        "/r" "/r" = ([1], [1]) ∧
    (run hangarEnv (AircraftItemModel.m_scanThread ["/r"] "/r" hangarCache)).m_items
      = [1, 1] ∧
    (run hangarEnv (AircraftItemModel.m_scanThread ["/r"] "/r" hangarCache)).heap.undefined
      = false ∧
    drainedAfterEachRoot hangarEnv (AircraftItemModel.m_scanThread ["/r"] "/r" [])
        "/r" "/r" = ([1], [3]) := by
  refine ⟨fun s batches ops => ?_, rfl, by decide, by decide, by decide, by decide, by decide⟩
  obtain ⟨h1, h2, h3, h4, _, h6⟩ := items_drains s batches ops
  exact ⟨h1, h2, h3, h4, h6⟩

/-- C27. The cache is not transparent when a subdirectory is walked twice. The
root `/r` of `hangarEnv` is given both as aircraft path and as data root, so
the roots are `/r`, `/r`; every entry of the cache validates and has the
stored members of the parsed record. The scan that starts from the cache
publishes `p` twice with the variant `v1` attached twice: the second walk
binds the reused object of `v1` to the reused object of `p` again. The scan
that starts from an empty cache publishes `p` twice with the variant attached
once. Neither run uses a deleted object. With the root given once, the two
scans publish the same. -/
theorem cache_binds_twice :
    hangarEnv.setDoneAfter = none ∧
    AircraftItemModel.dirs ["/r"] "/r" = ["/r", "/r"] ∧
    (readCache hangarEnv
        (AircraftItemModel.m_scanThread ["/r"] "/r" hangarCache)).m_cachedItems.entries.map
        (fun e => (e.1,
          decide (some ((readCache hangarEnv
            (AircraftItemModel.m_scanThread ["/r"] "/r" hangarCache)).heap.get e.2).stored
              = (AircraftItem.construct hangarEnv e.1).map AircraftItem.stored) &&
          validEntry hangarEnv ((readCache hangarEnv
            (AircraftItemModel.m_scanThread ["/r"] "/r" hangarCache)).heap.get e.2)))
      = [("/r/a/p-set.xml", true), ("/r/a/v1-set.xml", true)] ∧
    publishedView (run hangarEnv (AircraftItemModel.m_scanThread ["/r"] "/r" hangarCache))
      = [((sampleItem "/r/a/p-set.xml" none).stored,
          [(sampleItem "/r/a/v1-set.xml" (some "p")).stored,
           (sampleItem "/r/a/v1-set.xml" (some "p")).stored]),
         ((sampleItem "/r/a/p-set.xml" none).stored,
          [(sampleItem "/r/a/v1-set.xml" (some "p")).stored,
           (sampleItem "/r/a/v1-set.xml" (some "p")).stored])] ∧
    publishedView (run hangarEnv (AircraftItemModel.m_scanThread ["/r"] "/r" []))
      = [((sampleItem "/r/a/p-set.xml" none).stored,
          [(sampleItem "/r/a/v1-set.xml" (some "p")).stored]),
         ((sampleItem "/r/a/p-set.xml" none).stored,
          [(sampleItem "/r/a/v1-set.xml" (some "p")).stored])] ∧
    (run hangarEnv (AircraftItemModel.m_scanThread ["/r"] "/r" hangarCache)).heap.undefined
      = false ∧
    (run hangarEnv (AircraftItemModel.m_scanThread ["/r"] "/r" [])).heap.undefined = false ∧
    publishedView (run hangarEnv (AircraftItemModel.m_scanThread [] "/r" hangarCache))
      = publishedView (run hangarEnv (AircraftItemModel.m_scanThread [] "/r" [])) := by
  refine ⟨rfl, rfl, by decide, by decide, by decide, by decide, by decide, by decide⟩

end QtLauncher
